import Mathlib

/-!
# A chunked deque (`cs246e::deque`, `deque.h`)

Shallow embedding of the container of `deque.h` and proofs about it.

Modelling conventions.

* `size_t` values are natural numbers.  Upward overflow is not modelled (it
  would need more than `2^64` bytes of storage); a subtraction that goes below
  zero wraps as on a 64-bit machine (`wsub`).
* The directory `T **theDeque` is a value of type `Option (List Ptr)`:
  `none` is the null directory pointer, `some l` an array of `l.length`
  handles.  `new T*[n]` yields `n` uninitialised handles (`Ptr.wild`).
* Chunks live in an explicit heap.  `operator new (sizeof(T) * chunkSize)`
  returns a fresh address holding ten raw slots, `operator delete` retires the
  address (the handle that was freed keeps its value and dangles).
* An access outside the directory array, through a null, uninitialised or
  dangling handle, or to an element slot that holds no constructed object is
  undefined behaviour in C++; the model reports it as `Err.fault`.
* Allocation never fails.
-/

namespace cs246e

/-! ## Data model -/

/-- The two ways an operation can fail to complete normally. -/
inductive Err where
  /-- The exception `std::out_of_range` thrown by `at`. -/
  | outOfRange
  /-- Undefined behaviour (invalid memory access). -/
  | fault
deriving DecidableEq, Repr

/-- Value of a chunk handle `T*` as stored in a directory slot. -/
inductive Ptr where
  /-- The null pointer `nullptr`. -/
  | null
  /-- An uninitialised handle, as found in a fresh `new T*[n]`. -/
  | wild
  /-- The address of a block obtained from `operator new`. -/
  | addr (a : Nat)
deriving DecidableEq, Repr

/-- A chunk: raw element slots, `none` where no object is constructed. -/
abbrev Chunk (α : Type) := List (Option α)

/-- The heap: address `a` holds `some c` while the block is allocated and
`none` once it has been released. -/
abbrev Heap (α : Type) := List (Option (Chunk α))

/-- The constant `middleOfChunk` (deque.h:20). -/
def middleOfChunk : Nat := 4

/-- The constant `chunkSize` (deque.h:21). -/
def chunkSize : Nat := 10

/-- The data members of `deque<T>` (deque.h:25-26). -/
structure Deque where
  firstChunk : Nat
  startCursor : Nat
  lastChunk : Nat
  endCursor : Nat
  cap : Nat
  theDeque : Option (List Ptr)
deriving DecidableEq, Repr

/-! ## Machine arithmetic and memory primitives -/

/-- Subtraction on `size_t`: wraps modulo `2^64` when it would go below zero. -/
def wsub (a b : Nat) : Nat := if b ≤ a then a - b else a + 2 ^ 64 - b

/-- The expression `operator new (sizeof(T) * chunkSize)`: a fresh block of
`chunkSize` raw slots. -/
def allocChunk {α : Type} (h : Heap α) : Nat × Heap α :=
  (h.length, h ++ [some (List.replicate chunkSize none)])

/-- The block a handle points to, when the handle is valid. -/
def chunkAt {α : Type} (p : Ptr) (h : Heap α) : Option (Nat × Chunk α) :=
  match p with
  | Ptr.addr a =>
    match h[a]? with
    | some (some ch) => some (a, ch)
    | _ => none
  | _ => none

/-- The call `operator delete (p)`.  Deleting the null pointer does nothing;
deleting anything but a live block is undefined. -/
def freeChunk {α : Type} (p : Ptr) (h : Heap α) : Except Err (Heap α) :=
  match p with
  | Ptr.null => .ok h
  | _ =>
    match chunkAt p h with
    | some (a, _) => .ok (h.set a none)
    | none => .error Err.fault

/-- Placement construction `new (p + j) T(x)`. -/
def construct {α : Type} (p : Ptr) (j : Nat) (x : α) (h : Heap α) : Except Err (Heap α) :=
  match chunkAt p h with
  | some (a, ch) =>
    if j < ch.length then .ok (h.set a (some (ch.set j (some x)))) else .error Err.fault
  | none => .error Err.fault

/-- The destructor call `p[j].~T()`. -/
def destroy {α : Type} (p : Ptr) (j : Nat) (h : Heap α) : Except Err (Heap α) :=
  match chunkAt p h with
  | some (a, ch) =>
    match ch[j]? with
    | some (some _) => .ok (h.set a (some (ch.set j none)))
    | _ => .error Err.fault
  | none => .error Err.fault

/-- Reading the object `p[j]`. -/
def readElem {α : Type} (p : Ptr) (j : Nat) (h : Heap α) : Except Err α :=
  match chunkAt p h with
  | some (_, ch) =>
    match ch[j]? with
    | some (some v) => .ok v
    | _ => .error Err.fault
  | none => .error Err.fault

/-- Reading the directory slot `dq[i]`. -/
def dirGet (dq : Option (List Ptr)) (i : Nat) : Except Err Ptr :=
  match dq with
  | none => .error Err.fault
  | some l =>
    match l[i]? with
    | some p => .ok p
    | none => .error Err.fault

/-- The assignment `dq[i] = p`. -/
def dirSet (dq : Option (List Ptr)) (i : Nat) (p : Ptr) : Except Err (Option (List Ptr)) :=
  match dq with
  | none => .error Err.fault
  | some l => if i < l.length then .ok (some (l.set i p)) else .error Err.fault

/-! ## Simple helpers (deque.h:102-109) -/

/-- The helper `increment` (deque.h:102-105). -/
def increment (cursor : Nat) : Nat := if cursor = 9 then 0 else cursor + 1

/-- The helper `decrement` (deque.h:106-109). -/
def decrement (cursor : Nat) : Nat := if cursor = 0 then 9 else cursor - 1

/-! ## Construction (deque.h:136-154) -/

/-- The default constructor (deque.h:136-140). -/
def mkDefault {α : Type} (h : Heap α) : Except Err (Deque × Heap α) :=
  let cap := 1
  let dq : Option (List Ptr) := some (List.replicate cap Ptr.wild)
  let (a, h1) := allocChunk h
  match dirSet dq 0 (Ptr.addr a) with
  | .error e => .error e
  | .ok dq1 =>
    .ok ({ firstChunk := 0, startCursor := middleOfChunk, lastChunk := 0,
           endCursor := middleOfChunk, cap := cap, theDeque := dq1 }, h1)

/-- The loop `for (auto t : init)` of the initializer-list constructor
(deque.h:149-153); `i` is the running position. -/
def initLoop {α : Type} : List α → Nat → Option (List Ptr) → Heap α →
    Except Err (Option (List Ptr) × Heap α)
  | [], _, dq, h => .ok (dq, h)
  | t :: ts, i, dq, h =>
    let r : Except Err (Option (List Ptr) × Heap α) :=
      if i % 10 = 0 then
        let (a, h1) := allocChunk h
        match dirSet dq (i / 10) (Ptr.addr a) with
        | .error e => .error e
        | .ok dq1 => .ok (dq1, h1)
      else .ok (dq, h)
    match r with
    | .error e => .error e
    | .ok (dq1, h1) =>
      match dirGet dq1 (i / 10) with
      | .error e => .error e
      | .ok p =>
        match construct p (i % 10) t h1 with
        | .error e => .error e
        | .ok h2 => initLoop ts (i + 1) dq1 h2

/-- The initializer-list constructor (deque.h:142-154). -/
def mkInit {α : Type} (init : List α) (h : Heap α) : Except Err (Deque × Heap α) :=
  let lastChunk := (init.length + middleOfChunk) / 10
  let endCursor := (init.length + middleOfChunk) % 10
  let cap := if endCursor = 0 then lastChunk else lastChunk + 1
  let dq : Option (List Ptr) := some (List.replicate cap Ptr.wild)
  let (a, h1) := allocChunk h
  match dirSet dq 0 (Ptr.addr a) with
  | .error e => .error e
  | .ok dq1 =>
    match initLoop init middleOfChunk dq1 h1 with
    | .error e => .error e
    | .ok (dq2, h2) =>
      .ok ({ firstChunk := 0, startCursor := middleOfChunk, lastChunk := lastChunk,
             endCursor := endCursor, cap := cap, theDeque := dq2 }, h2)

/-! ## Accessors (deque.h:203-238) -/

/-- The member `size` (deque.h:234-238). -/
def size (d : Deque) : Nat :=
  let fin := d.lastChunk * 10 + d.endCursor
  let beg := d.firstChunk * 10 + d.startCursor
  wsub fin beg

/-- The member `empty` (deque.h:233). -/
def empty (d : Deque) : Bool := size d == 0

/-- The loop `while (i >= 10) { i -= 10; counter++; }` of `getElem`
(deque.h:207-210), run for at most `fuel` iterations; `none` when the fuel is
used up before the loop condition fails. -/
def getElemLoop : Nat → Nat → Nat → Option (Nat × Nat)
  | 0, i, counter => if i ≥ 10 then none else some (i, counter)
  | fuel + 1, i, counter =>
    if i ≥ 10 then getElemLoop fuel (i - 10) (counter + 1) else some (i, counter)

/-- The index translation `getElem` (deque.h:203-212).  The loop is given `i`
units of fuel, which always suffice (`getElemLoop_fuel`); the `none` branch is
therefore never taken. -/
def getElem {α : Type} (d : Deque) (h : Heap α) (i : Nat) : Except Err α :=
  if d.startCursor + i < 10 then
    match dirGet d.theDeque d.firstChunk with
    | .error e => .error e
    | .ok p => readElem p (d.startCursor + i) h
  else
    let i1 := wsub i (wsub 10 d.startCursor)
    match getElemLoop i1 i1 1 with
    | none => .error Err.fault
    | some (i2, counter) =>
      match dirGet d.theDeque (d.firstChunk + counter) with
      | .error e => .error e
      | .ok p => readElem p i2 h

/-- The checked access `at` (deque.h:223-226). -/
def «at» {α : Type} (d : Deque) (h : Heap α) (i : Nat) : Except Err α :=
  if i ≥ size d then .error Err.outOfRange else getElem d h i

/-- The unchecked access `operator[]` (deque.h:231). -/
def index {α : Type} (d : Deque) (h : Heap α) (i : Nat) : Except Err α := getElem d h i

/-! ## Push and pop (deque.h:242-299) -/

/-- The loop of `grow` (deque.h:251-256): `n` iterations remain, `i` is the
loop variable, `old` the current directory and `new` the fresh one. -/
def growLoop (firstChunk currentSize : Nat) : Nat → Nat → Option (List Ptr) → Option (List Ptr) →
    Except Err (Option (List Ptr) × Option (List Ptr))
  | 0, _, old, new => .ok (old, new)
  | n + 1, i, old, new =>
    match dirSet new i Ptr.null with
    | .error e => .error e
    | .ok new1 =>
      match dirGet old (firstChunk + i) with
      | .error e => .error e
      | .ok p =>
        match dirSet new1 (currentSize + i) p with
        | .error e => .error e
        | .ok new2 =>
          match dirSet old (firstChunk + i) Ptr.null with
          | .error e => .error e
          | .ok old1 =>
            match dirSet new2 (2 * currentSize + i) Ptr.null with
            | .error e => .error e
            | .ok new3 => growLoop firstChunk currentSize n (i + 1) old1 new3

/-- The member `grow` (deque.h:242-264). -/
def grow (dir : String) (d : Deque) : Except Err Deque :=
  if dir = "back" ∧ d.lastChunk ≠ d.cap then .ok d
  else if dir = "front" ∧ (d.firstChunk ≠ 0 ∨ d.startCursor ≠ 0) then .ok d
  else
    let capped : Bool := d.endCursor == 0 && !(empty d)
    let currentSize0 := wsub d.lastChunk d.firstChunk + 1
    let currentSize := if capped then wsub currentSize0 1 else currentSize0
    let newCap := 3 * currentSize
    let newDQ : Option (List Ptr) := some (List.replicate newCap Ptr.wild)
    match growLoop d.firstChunk currentSize currentSize 0 d.theDeque newDQ with
    | .error e => .error e
    | .ok (_, newDQ1) =>
      let lastChunk0 := wsub (2 * currentSize) 1
      .ok { firstChunk := currentSize, startCursor := d.startCursor,
            lastChunk := if capped then lastChunk0 + 1 else lastChunk0,
            endCursor := d.endCursor, cap := newCap, theDeque := newDQ1 }

/-- The member `push_front` (deque.h:266-274). -/
def push_front {α : Type} (x : α) (d : Deque) (h : Heap α) : Except Err (Deque × Heap α) :=
  match grow "front" d with
  | .error e => .error e
  | .ok d1 =>
    let r : Except Err (Deque × Heap α) :=
      if d1.startCursor = 0 then
        let fc := wsub d1.firstChunk 1
        let (a, h1) := allocChunk h
        match dirSet d1.theDeque fc (Ptr.addr a) with
        | .error e => .error e
        | .ok dq1 => .ok ({ d1 with firstChunk := fc, theDeque := dq1 }, h1)
      else .ok (d1, h)
    match r with
    | .error e => .error e
    | .ok (d2, h2) =>
      let sc := decrement d2.startCursor
      match dirGet d2.theDeque d2.firstChunk with
      | .error e => .error e
      | .ok p =>
        match construct p sc x h2 with
        | .error e => .error e
        | .ok h3 => .ok ({ d2 with startCursor := sc }, h3)

/-- The member `pop_front` (deque.h:275-283). -/
def pop_front {α : Type} (d : Deque) (h : Heap α) : Except Err (Deque × Heap α) :=
  if empty d then .ok (d, h)
  else
    match dirGet d.theDeque d.firstChunk with
    | .error e => .error e
    | .ok p =>
      match destroy p d.startCursor h with
      | .error e => .error e
      | .ok h1 =>
        let sc := increment d.startCursor
        if sc = 0 then
          match dirGet d.theDeque d.firstChunk with
          | .error e => .error e
          | .ok q =>
            match freeChunk q h1 with
            | .error e => .error e
            | .ok h2 => .ok ({ d with startCursor := sc, firstChunk := d.firstChunk + 1 }, h2)
        else .ok ({ d with startCursor := sc }, h1)

/-- The member `push_back` (deque.h:285-292). -/
def push_back {α : Type} (x : α) (d : Deque) (h : Heap α) : Except Err (Deque × Heap α) :=
  match grow "back" d with
  | .error e => .error e
  | .ok d1 =>
    let r : Except Err (Deque × Heap α) :=
      if d1.endCursor = 0 then
        let (a, h1) := allocChunk h
        match dirSet d1.theDeque d1.lastChunk (Ptr.addr a) with
        | .error e => .error e
        | .ok dq1 => .ok ({ d1 with theDeque := dq1 }, h1)
      else .ok (d1, h)
    match r with
    | .error e => .error e
    | .ok (d2, h2) =>
      match dirGet d2.theDeque d2.lastChunk with
      | .error e => .error e
      | .ok p =>
        match construct p d2.endCursor x h2 with
        | .error e => .error e
        | .ok h3 =>
          let ec := increment d2.endCursor
          .ok ({ d2 with endCursor := ec,
                         lastChunk := if ec = 0 then d2.lastChunk + 1 else d2.lastChunk }, h3)

/-- The member `pop_back` (deque.h:293-299). -/
def pop_back {α : Type} (d : Deque) (h : Heap α) : Except Err (Deque × Heap α) :=
  if empty d then .ok (d, h)
  else
    let lc := if d.endCursor = 0 then wsub d.lastChunk 1 else d.lastChunk
    let ec := decrement d.endCursor
    match dirGet d.theDeque lc with
    | .error e => .error e
    | .ok p =>
      match destroy p ec h with
      | .error e => .error e
      | .ok h1 =>
        if ec = 0 then
          match freeChunk p h1 with
          | .error e => .error e
          | .ok h2 => .ok ({ d with lastChunk := lc, endCursor := ec }, h2)
        else .ok ({ d with lastChunk := lc, endCursor := ec }, h1)

/-! ## Operation sequences and reachable states -/

/-- The four mutating operations of the public interface. -/
inductive Op (α : Type) where
  | pushBack (x : α)
  | pushFront (x : α)
  | popBack
  | popFront
deriving DecidableEq, Repr

/-- Whether an operation is a push. -/
def Op.isPush {α : Type} : Op α → Bool
  | Op.pushBack _ => true
  | Op.pushFront _ => true
  | _ => false

/-- One operation applied to a deque. -/
def applyOp {α : Type} (o : Op α) (d : Deque) (h : Heap α) : Except Err (Deque × Heap α) :=
  match o with
  | Op.pushBack x => push_back x d h
  | Op.pushFront x => push_front x d h
  | Op.popBack => pop_back d h
  | Op.popFront => pop_front d h

/-- A sequence of operations applied in order; stops at the first failure. -/
def runOps {α : Type} : List (Op α) → Deque → Heap α → Except Err (Deque × Heap α)
  | [], d, h => .ok (d, h)
  | o :: os, d, h =>
    match applyOp o d h with
    | .error e => .error e
    | .ok (d1, h1) => runOps os d1 h1

/-- The states reachable from the default or the initializer-list constructor
by push and pop operations that complete. -/
inductive Reachable {α : Type} : Deque → Heap α → Prop where
  | dflt (h0 : Heap α) (d : Deque) (h : Heap α) :
      mkDefault h0 = .ok (d, h) → Reachable d h
  | init (l : List α) (h0 : Heap α) (d : Deque) (h : Heap α) :
      mkInit l h0 = .ok (d, h) → Reachable d h
  | step (o : Op α) (d : Deque) (h : Heap α) (d1 : Deque) (h1 : Heap α) :
      Reachable d h → applyOp o d h = .ok (d1, h1) → Reachable d1 h1

/-! ## Specification vocabulary -/

/-- The element stored at the absolute position `p` of the directory: slot
`p % 10` of the chunk whose handle is in directory slot `p / 10`. -/
def cellE {α : Type} (d : Deque) (h : Heap α) (p : Nat) : Except Err α :=
  match dirGet d.theDeque (p / 10) with
  | .error e => .error e
  | .ok q => readElem q (p % 10) h

/-- The absolute position of the first element. -/
def begPos (d : Deque) : Nat := d.firstChunk * 10 + d.startCursor

/-- The absolute position one past the last element. -/
def finPos (d : Deque) : Nat := d.lastChunk * 10 + d.endCursor

/-- Chunk index `c` holds storage the deque relies on: it is not before the
first chunk and starts before the end position. -/
def Live (d : Deque) (c : Nat) : Prop := d.firstChunk ≤ c ∧ c * 10 < finPos d

/-- Address `a` is the block of a live chunk of the deque with directory `l`. -/
def Owns (d : Deque) (l : List Ptr) (a : Nat) : Prop :=
  ∃ c, Live d c ∧ l[c]? = some (Ptr.addr a)

/-- Well-formedness of a deque `d` with directory array `l` in heap `h`. -/
structure WF {α : Type} (d : Deque) (h : Heap α) (l : List Ptr) : Prop where
  dir : d.theDeque = some l
  len : l.length = d.cap
  capPos : 1 ≤ d.cap
  sc : d.startCursor < 10
  ec : d.endCursor < 10
  le : begPos d ≤ finPos d
  fit : finPos d ≤ d.cap * 10
  live : ∀ c, Live d c → ∃ a ch, l[c]? = some (Ptr.addr a) ∧ h[a]? = some (some ch) ∧
    ch.length = 10 ∧
    ∀ j, j < 10 → begPos d ≤ c * 10 + j → c * 10 + j < finPos d → ∃ v, ch[j]? = some (some v)
  inj : ∀ c c1 a, Live d c → Live d c1 → l[c]? = some (Ptr.addr a) →
    l[c1]? = some (Ptr.addr a) → c = c1

/-- The deque is well formed in the heap. -/
def Inv {α : Type} (d : Deque) (h : Heap α) : Prop := ∃ l, WF d h l

/-- What an operation taking `(d, l, h)` to `(d1, l1, h1)` may do to the heap:
it only extends it, leaves every block it does not own untouched, and ends up
owning only blocks it owned before or blocks that are new. -/
def Frame {α : Type} (d : Deque) (l : List Ptr) (h : Heap α)
    (d1 : Deque) (l1 : List Ptr) (h1 : Heap α) : Prop :=
  h.length ≤ h1.length ∧
  (∀ a, a < h.length → ¬ Owns d l a → h1[a]? = h[a]?) ∧
  (∀ a, Owns d1 l1 a → Owns d l a ∨ h.length ≤ a)

/-- The state `(d1, l1)` is the state `(d, l)` with its chunk handles moved to
other directory slots, in the same heap: same cursors, same number of chunks,
same elements at the shifted positions. -/
structure Shifted {α : Type} (d : Deque) (l : List Ptr) (h : Heap α)
    (d1 : Deque) (l1 : List Ptr) : Prop where
  wf : WF d1 h l1
  sc : d1.startCursor = d.startCursor
  ec : d1.endCursor = d.endCursor
  span : d1.lastChunk + d.firstChunk = d.lastChunk + d1.firstChunk
  cells : ∀ p, begPos d ≤ p → p < finPos d →
    cellE d1 h (p + d1.firstChunk * 10 - d.firstChunk * 10) = cellE d h p
  owns : ∀ a, Owns d1 l1 a → Owns d l a

/-! ## Iteration (deque.h:304-337) -/

/-- The data members of `deque<T>::iterator`: `p` is the directory slot the
iterator points at (the pointer `theDeque + p`), `cursor` the in-chunk
offset (deque.h:59-61). -/
structure Iter where
  p : Nat
  cursor : Nat
deriving DecidableEq, Repr

/-- The member `iterator::operator*` (deque.h:305). -/
def Iter.deref {α : Type} (d : Deque) (h : Heap α) (it : Iter) : Except Err α :=
  match dirGet d.theDeque it.p with
  | .error e => .error e
  | .ok q => readElem q it.cursor h

/-- The member `iterator::operator!=` (deque.h:306-308). -/
def Iter.ne (it other : Iter) : Bool := it.p != other.p || it.cursor != other.cursor

/-- The member `iterator::operator++` (deque.h:309-316). -/
def Iter.next (it : Iter) : Iter :=
  if it.cursor ≠ 9 then { it with cursor := it.cursor + 1 }
  else { p := it.p + 1, cursor := 0 }

/-- The member `begin` (deque.h:332-334). -/
def begin (d : Deque) : Iter := { p := d.firstChunk, cursor := d.startCursor }

/-- The member `end` (deque.h:335-337). -/
def «end» (d : Deque) : Iter := { p := d.lastChunk, cursor := d.endCursor }

/-- The client loop `for (it = first; it != last; ++it) visit(*it)`, run for at
most `fuel` advances.  The result is `none` when the fuel is used up before
the iterator reaches `last`, and otherwise the visited elements in order (or
the fault raised by a dereference). -/
def traverse {α : Type} (d : Deque) (h : Heap α) : Nat → Iter → Iter → Option (Except Err (List α))
  | 0, it, last => if Iter.ne it last then none else some (.ok [])
  | fuel + 1, it, last =>
    if Iter.ne it last then
      match Iter.deref d h it with
      | .error e => some (.error e)
      | .ok v =>
        match traverse d h fuel (Iter.next it) last with
        | none => none
        | some (.error e) => some (.error e)
        | some (.ok vs) => some (.ok (v :: vs))
    else some (.ok [])

/-! ## Sample states -/

/-- The deque that the initializer-list constructor builds from `[1, 2]` in an
empty heap. -/
def sampleDeque : Deque :=
  { firstChunk := 0, startCursor := 4, lastChunk := 0, endCursor := 6, cap := 1,
    theDeque := some [Ptr.addr 0] }

/-- The heap that goes with `sampleDeque`. -/
def sampleHeap : Heap Nat :=
  [some [none, none, none, none, some 1, some 2, none, none, none, none]]

/-- A default-constructed deque in an empty heap. -/
def emptyDeque : Deque :=
  { firstChunk := 0, startCursor := 4, lastChunk := 0, endCursor := 4, cap := 1,
    theDeque := some [Ptr.addr 0] }

/-- The heap that goes with `emptyDeque`. -/
def emptyHeap : Heap Nat :=
  [some [none, none, none, none, none, none, none, none, none, none]]

/-! ## Copy construction (deque.h:113-134, 156-161) -/

/-- The loop of `makeChunk` (deque.h:115-116): `n` iterations remain, `i` is
the loop variable.  Each iteration copy-constructs `other.theDeque[chunk][i]`
into slot `i` of `theDeque[chunk]`. -/
def makeChunkLoop {α : Type} (self other : Option (List Ptr)) (chunk : Nat) :
    Nat → Nat → Heap α → Except Err (Heap α)
  | 0, _, h => .ok h
  | n + 1, i, h =>
    match dirGet other chunk with
    | .error e => .error e
    | .ok src =>
      match readElem src i h with
      | .error e => .error e
      | .ok v =>
        match dirGet self chunk with
        | .error e => .error e
        | .ok dst =>
          match construct dst i v h with
          | .error e => .error e
          | .ok h1 => makeChunkLoop self other chunk n (i + 1) h1

/-- The member `makeChunk` (deque.h:113-117); the loop runs for
`i = lBound, ..., uBound - 1`. -/
def makeChunk {α : Type} (self : Deque) (chunk lBound uBound : Nat) (other : Deque)
    (h : Heap α) : Except Err (Heap α) :=
  makeChunkLoop self.theDeque other.theDeque chunk (uBound - lBound) lBound h

/-- The loop `while (i < cap)` of `copyDeque` (deque.h:121-133): `n` iterations
remain, `i` is the loop variable, `self` the deque under construction. -/
def copyLoop {α : Type} (other : Deque) : Nat → Nat → Deque → Heap α → Except Err (Deque × Heap α)
  | 0, _, self, h => .ok (self, h)
  | n + 1, i, self, h =>
    if i < self.firstChunk ∨ i > self.lastChunk then
      match dirSet self.theDeque i Ptr.null with
      | .error e => .error e
      | .ok dq1 => copyLoop other n (i + 1) { self with theDeque := dq1 } h
    else
      let (a, h1) := allocChunk h
      match dirSet self.theDeque i (Ptr.addr a) with
      | .error e => .error e
      | .ok dq1 =>
        let self1 : Deque := { self with theDeque := dq1 }
        let r : Except Err (Heap α) :=
          if i = self1.firstChunk ∧ i = self1.lastChunk then
            makeChunk self1 i self1.startCursor self1.endCursor other h1
          else if i = self1.firstChunk then makeChunk self1 i self1.startCursor 10 other h1
          else if i = self1.lastChunk then makeChunk self1 i 0 self1.endCursor other h1
          else makeChunk self1 i 0 10 other h1
        match r with
        | .error e => .error e
        | .ok h2 => copyLoop other n (i + 1) self1 h2

/-- The member `copyDeque` (deque.h:119-134). -/
def copyDeque {α : Type} (self other : Deque) (h : Heap α) : Except Err (Deque × Heap α) :=
  copyLoop other self.cap 0 self h

/-- The copy constructor (deque.h:156-161). -/
def copyCtor {α : Type} (other : Deque) (h : Heap α) : Except Err (Deque × Heap α) :=
  let self : Deque :=
    { firstChunk := other.firstChunk, startCursor := other.startCursor,
      lastChunk := other.lastChunk, endCursor := other.endCursor, cap := other.cap,
      theDeque := match other.theDeque with
        | some _ => some (List.replicate other.cap Ptr.wild)
        | none => none }
  copyDeque self other h

/-- The state of `copyDeque` after slots `0, ..., i - 1` of the new directory
`lq` have been filled from the deque `a` (well formed in the heap `h0` the copy
started in): the heap `h` extends `h0`, slots outside the chunk range are null,
and slots inside it hold new blocks with copies of the elements of `a`. -/
structure Copied {α : Type} (a : Deque) (h0 : Heap α) (i : Nat) (lq : List Ptr) (h : Heap α) :
    Prop where
  len : lq.length = a.cap
  ext : h0.length ≤ h.length
  old : ∀ adr, adr < h0.length → h[adr]? = h0[adr]?
  null : ∀ j, j < i → (j < a.firstChunk ∨ a.lastChunk < j) → lq[j]? = some Ptr.null
  chunk : ∀ j, j < i → a.firstChunk ≤ j → j ≤ a.lastChunk →
    ∃ adr ch, lq[j]? = some (Ptr.addr adr) ∧ h0.length ≤ adr ∧ h[adr]? = some (some ch) ∧
      ch.length = 10 ∧
      ∀ k, k < 10 → begPos a ≤ j * 10 + k → j * 10 + k < finPos a →
        ∃ v, ch[k]? = some (some v) ∧ cellE a h0 (j * 10 + k) = .ok v
  inj : ∀ j j1 adr, j < i → j1 < i → lq[j]? = some (Ptr.addr adr) →
    lq[j1]? = some (Ptr.addr adr) → j = j1

/-- Two deques in one heap that own no block in common. -/
structure Sep {α : Type} (a : Deque) (la : List Ptr) (b : Deque) (lb : List Ptr) (h : Heap α) :
    Prop where
  wfa : WF a h la
  wfb : WF b h lb
  disj : ∀ adr, Owns a la adr → ¬ Owns b lb adr

/-! ## Destruction, assignment and moving (deque.h:163-199) -/

/-- The loop of `clearChunk` (deque.h:182-183): `n` iterations remain, `i` is
the loop variable. -/
def clearChunkLoop {α : Type} (dq : Option (List Ptr)) (chunk : Nat) :
    Nat → Nat → Heap α → Except Err (Heap α)
  | 0, _, h => .ok h
  | n + 1, i, h =>
    match dirGet dq chunk with
    | .error e => .error e
    | .ok p =>
      match destroy p i h with
      | .error e => .error e
      | .ok h1 => clearChunkLoop dq chunk n (i + 1) h1

/-- The member `clearChunk` (deque.h:181-185). -/
def clearChunk {α : Type} (d : Deque) (chunk lBound uBound : Nat) (h : Heap α) :
    Except Err (Heap α) :=
  match clearChunkLoop d.theDeque chunk (uBound - lBound) lBound h with
  | .error e => .error e
  | .ok h1 =>
    match dirGet d.theDeque chunk with
    | .error e => .error e
    | .ok p => freeChunk p h1

/-- The loop `while (i < cap)` of `clearDeque` (deque.h:188-194): `n` iterations
remain, `i` is the loop variable. -/
def clearDequeLoop {α : Type} (d : Deque) : Nat → Nat → Heap α → Except Err (Heap α)
  | 0, _, h => .ok h
  | n + 1, i, h =>
    let r : Except Err (Heap α) :=
      if i = d.firstChunk ∧ i = d.lastChunk then clearChunk d i d.startCursor d.endCursor h
      else if i = d.firstChunk then clearChunk d i d.startCursor 10 h
      else if i = d.lastChunk then clearChunk d i 0 d.endCursor h
      else if i > d.firstChunk ∧ i < d.lastChunk then clearChunk d i 0 10 h
      else .ok h
    match r with
    | .error e => .error e
    | .ok h1 => clearDequeLoop d n (i + 1) h1

/-- The member `clearDeque` (deque.h:186-195). -/
def clearDeque {α : Type} (d : Deque) (h : Heap α) : Except Err (Heap α) :=
  clearDequeLoop d d.cap 0 h

/-- The destructor (deque.h:196-199).  The directory array it finally releases
with `delete []` is not part of the modelled heap. -/
def destructor {α : Type} (d : Deque) (h : Heap α) : Except Err (Heap α) :=
  clearDeque d h

/-- The member `operator=` (deque.h:169-177), called on `self` with the
by-value parameter `other`: the body swaps the six members of `*this` and of
`other`; on return the parameter, which now holds the old members of `*this`,
is destroyed.  The result is `*this` after the call. -/
def assign {α : Type} (self other : Deque) (h : Heap α) : Except Err (Deque × Heap α) :=
  let self1 : Deque :=
    { firstChunk := other.firstChunk, startCursor := other.startCursor,
      lastChunk := other.lastChunk, endCursor := other.endCursor, cap := other.cap,
      theDeque := other.theDeque }
  let other1 : Deque :=
    { firstChunk := self.firstChunk, startCursor := self.startCursor,
      lastChunk := self.lastChunk, endCursor := self.endCursor, cap := self.cap,
      theDeque := self.theDeque }
  match destructor other1 h with
  | .error e => .error e
  | .ok h1 => .ok (self1, h1)

/-- The statement `b = a` for a deque `a`: the parameter of `operator=` is
copy-constructed from `a`, then `operator=` runs on `b`. -/
def copyAssign {α : Type} (b a : Deque) (h : Heap α) : Except Err (Deque × Heap α) :=
  match copyCtor a h with
  | .error e => .error e
  | .ok (tmp, h1) => assign b tmp h1

/-- The initialisation `deque<T> b(std::move(a))`.  The class has no
constructor that accepts a deque rvalue: `deque(T &&other)` (deque.h:32,
163-167) takes the element type `T`, so overload resolution never selects it
for a deque argument, and the user-declared copy constructor, assignment
operator and destructor suppress the implicit move constructor.
The rvalue therefore binds to `const deque &` and the copy constructor runs;
it cannot modify its argument.  The result is the new deque, the source after
the call, and the heap. -/
def moveConstruct {α : Type} (a : Deque) (h : Heap α) : Except Err (Deque × Deque × Heap α) :=
  match copyCtor a h with
  | .error e => .error e
  | .ok (b, h1) => .ok (b, a, h1)

/-- The statement `b = std::move(a)`: the by-value parameter of `operator=` is
initialised from the rvalue `a`, which selects the copy constructor as in
`moveConstruct`; then `operator=` runs on `b`.  The result is `b` after the
statement, the source `a` after the statement, and the heap. -/
def moveAssign {α : Type} (b a : Deque) (h : Heap α) : Except Err (Deque × Deque × Heap α) :=
  match copyCtor a h with
  | .error e => .error e
  | .ok (tmp, h1) =>
    match assign b tmp h1 with
    | .error e => .error e
    | .ok (b1, h2) => .ok (b1, a, h2)

/-! ## Further vocabulary for growth and index translation -/

/-- The local `currentSize` of `grow` (deque.h:246-248): the number of occupied
chunks, one less when `endCursor` is 0 and the deque is not empty. -/
def currentSize (d : Deque) : Nat :=
  let capped : Bool := d.endCursor == 0 && !(empty d)
  let currentSize0 := wsub d.lastChunk d.firstChunk + 1
  if capped then wsub currentSize0 1 else currentSize0

/-- The condition under which `grow` goes on to reallocate (deque.h:243-244):
neither of its two early returns is taken. -/
def growTrigger (dir : String) (d : Deque) : Prop :=
  ¬ (dir = "back" ∧ d.lastChunk ≠ d.cap) ∧
  ¬ (dir = "front" ∧ (d.firstChunk ≠ 0 ∨ d.startCursor ≠ 0))

/-- The element `theDeque[chunk][offset]`. -/
def slotElem {α : Type} (d : Deque) (h : Heap α) (chunk offset : Nat) : Except Err α :=
  match dirGet d.theDeque chunk with
  | .error e => .error e
  | .ok q => readElem q offset h

/-- Specification of the index translation `getElem`, written from its
description rather than from the code: index `i` is the element at in-chunk
offset `(startCursor + i) % 10` of the chunk in directory slot
`firstChunk + (startCursor + i) / 10`. -/
def getElemSpec {α : Type} (d : Deque) (h : Heap α) (i : Nat) : Except Err α :=
  slotElem d h (d.firstChunk + (d.startCursor + i) / 10) ((d.startCursor + i) % 10)

/-! ## Further sample states -/

/-- The state a default-constructed deque is in after six `push_back` and six
`pop_front`: empty, with `firstChunk = lastChunk = cap = 1`. -/
def boundaryDeque : Deque :=
  { firstChunk := 1, startCursor := 0, lastChunk := 1, endCursor := 0, cap := 1,
    theDeque := some [Ptr.addr 0] }

/-- The heap that goes with `boundaryDeque`: its only block has been freed. -/
def boundaryHeap : Heap Nat := [none]

/-- The state a default-constructed deque is in after thirty-six
`push_back(0)` and twenty-six `pop_front`: ten elements in one chunk of a
six-slot directory. -/
def wideDeque : Deque :=
  { firstChunk := 5, startCursor := 0, lastChunk := 6, endCursor := 0, cap := 6,
    theDeque := some [Ptr.null, Ptr.null, Ptr.addr 0, Ptr.addr 1, Ptr.addr 2, Ptr.addr 3] }

/-- The heap that goes with `wideDeque`. -/
def wideHeap : Heap Nat := [none, none, none, some (List.replicate 10 (some 0))]

/-- The state a default-constructed deque is in after seven `push_back(0)`, two
`pop_back` and one `push_back(1)`: `endCursor` is 0 and the slot at
`lastChunk` still holds the address of a chunk that `pop_back` freed. -/
def staleDeque : Deque :=
  { firstChunk := 1, startCursor := 4, lastChunk := 2, endCursor := 0, cap := 3,
    theDeque := some [Ptr.null, Ptr.addr 0, Ptr.addr 1] }

/-- The heap that goes with `staleDeque`. -/
def staleHeap : Heap Nat :=
  [some [none, none, none, none, some 0, some 0, some 0, some 0, some 0, some 1], none]

/-- The deque that the initializer-list constructor builds from
`[1, 2, 3, 4, 5, 6]` in an empty heap. -/
def sixDeque : Deque :=
  { firstChunk := 0, startCursor := 4, lastChunk := 1, endCursor := 0, cap := 1,
    theDeque := some [Ptr.addr 0] }

/-- The heap that goes with `sixDeque`. -/
def sixHeap : Heap Nat :=
  [some [none, none, none, none, some 1, some 2, some 3, some 4, some 5, some 6]]

/-- The number of growth events in a run: the operations of the sequence,
applied in order, at which `grow` goes on to reallocate (a `push_back` met with
`lastChunk == cap`, a `push_front` met with `firstChunk == 0` and
`startCursor == 0`).  Counting stops at the first operation that does not
complete. -/
def growthEvents {α : Type} : List (Op α) → Deque → Heap α → Nat
  | [], _, _ => 0
  | o :: os, d, h =>
    let here : Nat :=
      match o with
      | Op.pushBack _ => if d.lastChunk = d.cap then 1 else 0
      | Op.pushFront _ => if d.firstChunk = 0 ∧ d.startCursor = 0 then 1 else 0
      | _ => 0
    match applyOp o d h with
    | .error _ => here
    | .ok (d1, h1) => here + growthEvents os d1 h1

/-! # Theorems -/

/-! ## Arithmetic and memory primitives -/

theorem wsub_of_le {a b : Nat} (hle : b ≤ a) : wsub a b = a - b := by
  simp [wsub, hle]

theorem increment_lt {c : Nat} (hc : c < 10) : increment c < 10 := by
  unfold increment; split <;> omega

theorem decrement_lt {c : Nat} (hc : c < 10) : decrement c < 10 := by
  unfold decrement; split <;> omega

theorem chunkAt_addr {α : Type} {a : Nat} {h : Heap α} {ch : Chunk α}
    (ha : h[a]? = some (some ch)) : chunkAt (Ptr.addr a) h = some (a, ch) := by
  simp [chunkAt, ha]

theorem readElem_addr {α : Type} {a j : Nat} {h : Heap α} {ch : Chunk α} {v : α}
    (ha : h[a]? = some (some ch)) (hj : ch[j]? = some (some v)) :
    readElem (Ptr.addr a) j h = .ok v := by
  simp [readElem, chunkAt_addr ha, hj]

theorem construct_addr {α : Type} {a j : Nat} {h : Heap α} {ch : Chunk α} (x : α)
    (ha : h[a]? = some (some ch)) (hj : j < ch.length) :
    construct (Ptr.addr a) j x h = .ok (h.set a (some (ch.set j (some x)))) := by
  simp [construct, chunkAt_addr ha, hj]

theorem destroy_addr {α : Type} {a j : Nat} {h : Heap α} {ch : Chunk α} {v : α}
    (ha : h[a]? = some (some ch)) (hj : ch[j]? = some (some v)) :
    destroy (Ptr.addr a) j h = .ok (h.set a (some (ch.set j none))) := by
  simp [destroy, chunkAt_addr ha, hj]

theorem freeChunk_addr {α : Type} {a : Nat} {h : Heap α} {ch : Chunk α}
    (ha : h[a]? = some (some ch)) : freeChunk (Ptr.addr a) h = .ok (h.set a none) := by
  simp [freeChunk, chunkAt_addr ha]

theorem dirGet_some {l : List Ptr} {i : Nat} {p : Ptr} (hp : l[i]? = some p) :
    dirGet (some l) i = .ok p := by
  simp [dirGet, hp]

theorem dirGet_oob {l : List Ptr} {i : Nat} (hi : l.length ≤ i) :
    dirGet (some l) i = .error Err.fault := by
  simp [dirGet, List.getElem?_eq_none hi]

theorem dirSet_some {l : List Ptr} {i : Nat} (p : Ptr) (hi : i < l.length) :
    dirSet (some l) i p = .ok (some (l.set i p)) := by
  simp [dirSet, hi]

/-! ## Index translation -/

theorem getElemLoop_spec : ∀ (fuel i counter : Nat), i / 10 ≤ fuel →
    getElemLoop fuel i counter = some (i % 10, counter + i / 10)
  | 0, i, counter, hf => by
    have hi : i < 10 := by omega
    have h0 : i / 10 = 0 := by omega
    have h1 : i % 10 = i := by omega
    simp [getElemLoop, h0, h1]
    omega
  | fuel + 1, i, counter, hf => by
    unfold getElemLoop
    by_cases hi : i ≥ 10
    · simp only [hi, if_true]
      rw [getElemLoop_spec fuel (i - 10) (counter + 1) (by omega)]
      have e1 : (i - 10) % 10 = i % 10 := by omega
      have e2 : counter + 1 + (i - 10) / 10 = counter + i / 10 := by omega
      rw [e1, e2]
    · have h0 : i / 10 = 0 := by omega
      have h1 : i % 10 = i := by omega
      simp [hi, h0, h1]

theorem getElemLoop_fuel (i counter : Nat) :
    getElemLoop i i counter = some (i % 10, counter + i / 10) :=
  getElemLoop_spec i i counter (by omega)

theorem getElem_eq_cellE {α : Type} (d : Deque) (h : Heap α) (i : Nat)
    (hsc : d.startCursor < 10) : getElem d h i = cellE d h (begPos d + i) := by
  unfold getElem cellE begPos
  by_cases hlt : d.startCursor + i < 10
  · have e1 : (d.firstChunk * 10 + d.startCursor + i) / 10 = d.firstChunk := by omega
    have e2 : (d.firstChunk * 10 + d.startCursor + i) % 10 = d.startCursor + i := by omega
    simp only [hlt, if_true, e1, e2]
  · have w1 : wsub 10 d.startCursor = 10 - d.startCursor := wsub_of_le (by omega)
    have w2 : wsub i (10 - d.startCursor) = i - (10 - d.startCursor) := wsub_of_le (by omega)
    have e1 : (d.firstChunk * 10 + d.startCursor + i) / 10
        = d.firstChunk + (1 + (i - (10 - d.startCursor)) / 10) := by omega
    have e2 : (d.firstChunk * 10 + d.startCursor + i) % 10
        = (i - (10 - d.startCursor)) % 10 := by omega
    simp only [hlt, if_false, w1, w2, getElemLoop_fuel, e1, e2]

theorem size_eq {d : Deque} (hle : begPos d ≤ finPos d) : size d = finPos d - begPos d := by
  unfold size
  exact wsub_of_le hle

theorem at_eq_cellE {α : Type} (d : Deque) (h : Heap α) (i : Nat)
    (hsc : d.startCursor < 10) (hi : i < size d) : «at» d h i = cellE d h (begPos d + i) := by
  unfold «at»
  rw [if_neg (by omega)]
  exact getElem_eq_cellE d h i hsc

theorem heap_lt_of_get {α : Type} {h : Heap α} {a : Nat} {x : Option (Chunk α)}
    (ha : h[a]? = some x) : a < h.length := by
  by_contra hc
  rw [List.getElem?_eq_none (by omega)] at ha
  exact Option.noConfusion ha

theorem readElem_congr {α : Type} {h h1 : Heap α} {a : Nat} (j : Nat)
    (he : h1[a]? = h[a]?) : readElem (Ptr.addr a) j h1 = readElem (Ptr.addr a) j h := by
  simp [readElem, chunkAt, he]

theorem cellE_eq_readElem {α : Type} {d : Deque} {h : Heap α} {l : List Ptr} {p : Nat} {q : Ptr}
    (hd : d.theDeque = some l) (hq : l[p / 10]? = some q) :
    cellE d h p = readElem q (p % 10) h := by
  simp [cellE, hd, dirGet_some hq]

theorem pop_front_spec {α : Type} {d : Deque} {h : Heap α} {l : List Ptr}
    (hw : WF d h l) (hne : begPos d < finPos d) :
    ∃ d1 h1, pop_front d h = .ok (d1, h1) ∧ WF d1 h1 l ∧ begPos d1 = begPos d + 1 ∧
      finPos d1 = finPos d ∧
      (∀ p, begPos d < p → p < finPos d → cellE d1 h1 p = cellE d h p) ∧
      Frame d l h d1 l h1 := by
  have hemp : empty d = false := by
    simp [empty, size_eq hw.le]; omega
  have hsc := hw.sc
  have hec := hw.ec
  have hlive : Live d d.firstChunk := by
    constructor
    · exact le_refl _
    · unfold begPos at hne; omega
  obtain ⟨a, ch, hl, hh, hlen, hel⟩ := hw.live _ hlive
  obtain ⟨v, hv⟩ := hel d.startCursor hw.sc (le_refl _) hne
  have ha := heap_lt_of_get hh
  have hset : (h.set a (some (ch.set d.startCursor none)))[a]? = some (some (ch.set d.startCursor none)) := by
    simp [ha]
  unfold pop_front
  simp only [hemp, hw.dir, dirGet_some hl, destroy_addr hh hv, freeChunk_addr hset]
  by_cases h9 : d.startCursor = 9
  · simp only [increment, h9, if_true]
    have hlv : ∀ c, Live { d with startCursor := 0, firstChunk := d.firstChunk + 1 } c →
        Live d c ∧ c ≠ d.firstChunk := by
      intro c hc
      simp only [Live, finPos] at hc ⊢
      omega
    have hother : ∀ c a1, Live d c → c ≠ d.firstChunk → l[c]? = some (Ptr.addr a1) →
        ((h.set a (some (ch.set 9 none))).set a none)[a1]? = h[a1]? := by
      intro c a1 hc hne1 hl1
      have : a ≠ a1 := by
        intro e
        subst e
        exact hne1 (hw.inj _ _ _ hc hlive hl1 hl)
      simp [List.getElem?_set_ne this]
    refine ⟨_, _, rfl, ?_, ?_, ?_, ?_, ?_⟩
    · refine ⟨rfl, hw.len, hw.capPos, by simp, hw.ec, ?_, hw.fit, ?_, ?_⟩
      · simp only [begPos, finPos] at hne ⊢; omega
      · intro c hc
        obtain ⟨hc1, hc2⟩ := hlv c hc
        obtain ⟨a1, ch1, hl1, hh1, hlen1, hel1⟩ := hw.live c hc1
        refine ⟨a1, ch1, hl1, ?_, hlen1, ?_⟩
        · rw [hother c a1 hc1 hc2 hl1]; exact hh1
        · intro j hj hb hf
          apply hel1 j hj _ hf
          simp only [Live, begPos, finPos] at hc hb ⊢; omega
      · intro c c1 a1 hc hc1 hl1 hl2
        exact hw.inj c c1 a1 (hlv c hc).1 (hlv c1 hc1).1 hl1 hl2
    · simp [begPos, h9]; omega
    · rfl
    · intro p hp1 hp2
      have hc : Live d (p / 10) ∧ p / 10 ≠ d.firstChunk := by
        simp only [Live, begPos, finPos] at hp1 hp2 ⊢; omega
      obtain ⟨a1, ch1, hl1, hh1, -, -⟩ := hw.live _ hc.1
      simp only [cellE, hw.dir, dirGet_some hl1]
      exact readElem_congr _ (hother _ a1 hc.1 hc.2 hl1)
    · refine ⟨by simp, ?_, ?_⟩
      · intro a0 _ hno
        have : a ≠ a0 := by
          intro e; subst e; exact hno ⟨_, hlive, hl⟩
        simp [List.getElem?_set_ne this]
      · intro a0 ⟨c, hc, hl0⟩
        exact Or.inl ⟨c, (hlv c hc).1, hl0⟩
  · have hinc : increment d.startCursor = d.startCursor + 1 := by simp [increment, h9]
    have hnz : ¬ (d.startCursor + 1 = 0) := by omega
    simp only [hinc, hnz, if_false]
    have hlv : ∀ c, Live { d with startCursor := d.startCursor + 1 } c ↔ Live d c := by
      intro c; simp only [Live, finPos]
    have hother : ∀ c a1, Live d c → c ≠ d.firstChunk → l[c]? = some (Ptr.addr a1) →
        (h.set a (some (ch.set d.startCursor none)))[a1]? = h[a1]? := by
      intro c a1 hc hne1 hl1
      have : a ≠ a1 := by
        intro e
        subst e
        exact hne1 (hw.inj _ _ _ hc hlive hl1 hl)
      simp [List.getElem?_set_ne this]
    refine ⟨_, _, rfl, ?_, ?_, ?_, ?_, ?_⟩
    · refine ⟨rfl, hw.len, hw.capPos, by simp; omega, hw.ec, ?_, hw.fit, ?_, ?_⟩
      · simp only [begPos, finPos] at hne ⊢; omega
      · intro c hc
        have hc1 := (hlv c).1 hc
        by_cases hcf : c = d.firstChunk
        · subst hcf
          refine ⟨a, ch.set d.startCursor none, hl, hset, by simp [hlen], ?_⟩
          intro j hj hb hf
          have hjne : d.startCursor ≠ j := by
            simp only [begPos] at hb; omega
          obtain ⟨v1, hv1⟩ := hel j hj (by simp only [begPos] at hb ⊢; omega) hf
          exact ⟨v1, by rw [List.getElem?_set_ne hjne]; exact hv1⟩
        · obtain ⟨a1, ch1, hl1, hh1, hlen1, hel1⟩ := hw.live c hc1
          refine ⟨a1, ch1, hl1, ?_, hlen1, ?_⟩
          · rw [hother c a1 hc1 hcf hl1]; exact hh1
          · intro j hj hb hf
            apply hel1 j hj _ hf
            simp only [Live, begPos, finPos] at hc hb ⊢; omega
      · intro c c1 a1 hc hc1 hl1 hl2
        exact hw.inj c c1 a1 ((hlv c).1 hc) ((hlv c1).1 hc1) hl1 hl2
    · simp [begPos]; omega
    · rfl
    · intro p hp1 hp2
      have hc : Live d (p / 10) := by
        simp only [Live, begPos, finPos] at hp1 hp2 ⊢; omega
      obtain ⟨a1, ch1, hl1, hh1, -, -⟩ := hw.live _ hc
      simp only [cellE, hw.dir, dirGet_some hl1]
      by_cases hcf : p / 10 = d.firstChunk
      · rw [hcf, hl] at hl1
        cases hl1
        have hjne : d.startCursor ≠ p % 10 := by
          simp only [begPos] at hp1; omega
        simp [readElem, chunkAt, hset, hh, List.getElem?_set_ne hjne]
      · exact readElem_congr _ (hother _ a1 hc hcf hl1)
    · refine ⟨by simp, ?_, ?_⟩
      · intro a0 _ hno
        have : a ≠ a0 := by
          intro e; subst e; exact hno ⟨_, hlive, hl⟩
        simp [List.getElem?_set_ne this]
      · intro a0 ⟨c, hc, hl0⟩
        exact Or.inl ⟨c, (hlv c).1 hc, hl0⟩

theorem pop_back_core {α : Type} {d : Deque} {h : Heap α} {l : List Ptr}
    (hw : WF d h l) (hne : begPos d < finPos d) (lc1 ec1 : Nat)
    (hpos : lc1 * 10 + ec1 + 1 = finPos d) (hec1 : ec1 < 10) :
    ∃ d1 h1,
      (match dirGet d.theDeque lc1 with
       | .error e => .error e
       | .ok p =>
         match destroy p ec1 h with
         | .error e => .error e
         | .ok h1 =>
           if ec1 = 0 then
             match freeChunk p h1 with
             | .error e => .error e
             | .ok h2 => .ok ({ d with lastChunk := lc1, endCursor := ec1 }, h2)
           else .ok ({ d with lastChunk := lc1, endCursor := ec1 }, h1))
        = (.ok (d1, h1) : Except Err (Deque × Heap α)) ∧
      WF d1 h1 l ∧ begPos d1 = begPos d ∧ finPos d1 + 1 = finPos d ∧
      (∀ p, begPos d ≤ p → p + 1 < finPos d → cellE d1 h1 p = cellE d h p) ∧
      Frame d l h d1 l h1 := by
  have hsc := hw.sc
  have hlive : Live d lc1 := by
    simp only [Live, begPos, finPos] at hne hpos ⊢; omega
  obtain ⟨a, ch, hl, hh, hlen, hel⟩ := hw.live _ hlive
  obtain ⟨v, hv⟩ := hel ec1 hec1 (by simp only [begPos, finPos] at hne hpos ⊢; omega) (by omega)
  have ha := heap_lt_of_get hh
  have hset : (h.set a (some (ch.set ec1 none)))[a]? = some (some (ch.set ec1 none)) := by
    simp [ha]
  simp only [hw.dir, dirGet_some hl, destroy_addr hh hv, freeChunk_addr hset]
  have hfin1 : finPos { d with lastChunk := lc1, endCursor := ec1 } + 1 = finPos d := by
    simp only [finPos] at hpos ⊢; omega
  have hbeg1 : begPos { d with lastChunk := lc1, endCursor := ec1 } = begPos d := rfl
  have hlv : ∀ c, Live { d with lastChunk := lc1, endCursor := ec1 } c → Live d c := by
    intro c hc
    simp only [Live, finPos] at hc hpos ⊢
    omega
  have hfr : ∀ (h2 : Heap α), h2.length = h.length → (∀ a0, a ≠ a0 → h2[a0]? = h[a0]?) →
      Frame d l h { d with lastChunk := lc1, endCursor := ec1 } l h2 := by
    intro h2 hlen2 hag
    refine ⟨by omega, ?_, ?_⟩
    · intro a0 _ hno
      apply hag
      intro e; subst e; exact hno ⟨_, hlive, hl⟩
    · intro a0 ⟨c, hc, hl0⟩
      exact Or.inl ⟨c, hlv c hc, hl0⟩
  have haddr : ∀ c a1, Live d c → c ≠ lc1 → l[c]? = some (Ptr.addr a1) → a ≠ a1 := by
    intro c a1 hc hne1 hl1 e
    subst e
    exact hne1 (hw.inj _ _ _ hc hlive hl1 hl)
  by_cases h0 : ec1 = 0
  · simp only [h0, if_true]
    subst h0
    have hlv2 : ∀ c, Live { d with lastChunk := lc1, endCursor := 0 } c → c ≠ lc1 := by
      intro c hc
      simp only [Live, finPos] at hc
      omega
    have hag : ∀ a0, a ≠ a0 → ((h.set a (some (ch.set 0 none))).set a none)[a0]? = h[a0]? := by
      intro a0 hne0
      simp [List.getElem?_set_ne hne0]
    refine ⟨_, _, rfl, ?_, hbeg1, hfin1, ?_, hfr _ (by simp) hag⟩
    · refine ⟨rfl, hw.len, hw.capPos, hw.sc, by simp, ?_, ?_, ?_, ?_⟩
      · have := hw.le; simp only [begPos, finPos] at hne hpos this ⊢; omega
      · have := hw.fit; simp only [begPos, finPos] at hne hpos this ⊢; omega
      · intro c hc
        have hc1 := hlv c hc
        obtain ⟨a1, ch1, hl1, hh1, hlen1, hel1⟩ := hw.live c hc1
        refine ⟨a1, ch1, hl1, ?_, hlen1, ?_⟩
        · rw [hag a1 (haddr c a1 hc1 (hlv2 c hc) hl1)]; exact hh1
        · intro j hj hb hf
          apply hel1 j hj hb
          simp only [finPos] at hf hpos ⊢; omega
      · intro c c1 a1 hc hc1 hl1 hl2
        exact hw.inj c c1 a1 (hlv c hc) (hlv c1 hc1) hl1 hl2
    · intro p hp1 hp2
      have hc : Live d (p / 10) ∧ p / 10 ≠ lc1 := by
        simp only [Live, begPos, finPos] at hp1 hp2 hpos ⊢; omega
      obtain ⟨a1, ch1, hl1, hh1, -, -⟩ := hw.live _ hc.1
      simp only [cellE, hw.dir, dirGet_some hl1]
      exact readElem_congr _ (hag a1 (haddr _ a1 hc.1 hc.2 hl1))
  · simp only [h0, if_false]
    have hag : ∀ a0, a ≠ a0 → (h.set a (some (ch.set ec1 none)))[a0]? = h[a0]? := by
      intro a0 hne0
      simp [List.getElem?_set_ne hne0]
    refine ⟨_, _, rfl, ?_, hbeg1, hfin1, ?_, hfr _ (by simp) hag⟩
    · refine ⟨rfl, hw.len, hw.capPos, hw.sc, hec1, ?_, ?_, ?_, ?_⟩
      · have := hw.le; simp only [begPos, finPos] at hne hpos this ⊢; omega
      · have := hw.fit; simp only [begPos, finPos] at hne hpos this ⊢; omega
      · intro c hc
        have hc1 := hlv c hc
        by_cases hcf : c = lc1
        · subst hcf
          refine ⟨a, ch.set ec1 none, hl, hset, by simp [hlen], ?_⟩
          intro j hj hb hf
          have hjne : ec1 ≠ j := by
            simp only [finPos] at hf; omega
          obtain ⟨v1, hv1⟩ := hel j hj hb (by simp only [finPos] at hf hpos ⊢; omega)
          exact ⟨v1, by rw [List.getElem?_set_ne hjne]; exact hv1⟩
        · obtain ⟨a1, ch1, hl1, hh1, hlen1, hel1⟩ := hw.live c hc1
          refine ⟨a1, ch1, hl1, ?_, hlen1, ?_⟩
          · rw [hag a1 (haddr c a1 hc1 hcf hl1)]; exact hh1
          · intro j hj hb hf
            apply hel1 j hj hb
            simp only [finPos] at hf hpos ⊢; omega
      · intro c c1 a1 hc hc1 hl1 hl2
        exact hw.inj c c1 a1 (hlv c hc) (hlv c1 hc1) hl1 hl2
    · intro p hp1 hp2
      have hc : Live d (p / 10) := by
        simp only [Live, begPos, finPos] at hp1 hp2 hpos ⊢; omega
      obtain ⟨a1, ch1, hl1, hh1, -, -⟩ := hw.live _ hc
      simp only [cellE, hw.dir, dirGet_some hl1]
      by_cases hcf : p / 10 = lc1
      · rw [hcf, hl] at hl1
        cases hl1
        have hjne : ec1 ≠ p % 10 := by
          simp only [finPos] at hp2 hpos; omega
        simp [readElem, chunkAt, hset, hh, List.getElem?_set_ne hjne]
      · exact readElem_congr _ (hag a1 (haddr _ a1 hc hcf hl1))

theorem pop_back_spec {α : Type} {d : Deque} {h : Heap α} {l : List Ptr}
    (hw : WF d h l) (hne : begPos d < finPos d) :
    ∃ d1 h1, pop_back d h = .ok (d1, h1) ∧ WF d1 h1 l ∧ begPos d1 = begPos d ∧
      finPos d1 + 1 = finPos d ∧
      (∀ p, begPos d ≤ p → p + 1 < finPos d → cellE d1 h1 p = cellE d h p) ∧
      Frame d l h d1 l h1 := by
  have hemp : empty d = false := by
    simp [empty, size_eq hw.le]; omega
  have hec := hw.ec
  unfold pop_back
  simp only [hemp]
  by_cases h0 : d.endCursor = 0
  · have hlc : 1 ≤ d.lastChunk := by
      simp only [begPos, finPos] at hne; omega
    have key := pop_back_core hw hne (d.lastChunk - 1) 9
      (by simp only [finPos]; omega) (by omega)
    simpa [h0, decrement, wsub_of_le hlc] using key
  · have key := pop_back_core hw hne d.lastChunk (d.endCursor - 1)
      (by simp only [finPos]; omega) (by omega)
    simpa [h0, decrement] using key

theorem grow_back_noop {d : Deque} (hne : d.lastChunk ≠ d.cap) : grow "back" d = .ok d := by
  simp [grow, hne]

theorem grow_front_noop {d : Deque} (hne : d.firstChunk ≠ 0 ∨ d.startCursor ≠ 0) :
    grow "front" d = .ok d := by
  simp [grow, hne]

theorem growLoop_spec (fc cs : Nat) : ∀ (n i : Nat) (lo ln : List Ptr), i + n = cs →
    ln.length = 3 * cs → fc + cs ≤ lo.length →
    ∃ lo1 ln1, growLoop fc cs n i (some lo) (some ln) = .ok (some lo1, some ln1) ∧
      ln1.length = 3 * cs ∧
      ∀ k, ln1[k]? =
        if (i ≤ k ∧ k < cs) ∨ (2 * cs + i ≤ k ∧ k < 3 * cs) then some Ptr.null
        else if cs + i ≤ k ∧ k < 2 * cs then lo[fc + (k - cs)]?
        else ln[k]?
  | 0, i, lo, ln, hi, hln, hlo => by
    refine ⟨lo, ln, rfl, hln, ?_⟩
    intro k
    have h1 : ¬ ((i ≤ k ∧ k < cs) ∨ (2 * cs + i ≤ k ∧ k < 3 * cs)) := by omega
    have h2 : ¬ (cs + i ≤ k ∧ k < 2 * cs) := by omega
    rw [if_neg h1, if_neg h2]
  | n + 1, i, lo, ln, hi, hln, hlo => by
    have hlt : fc + i < lo.length := by omega
    obtain ⟨lo1, ln1, hrun, hlen1, hk⟩ := growLoop_spec fc cs n (i + 1)
      (lo.set (fc + i) Ptr.null)
      (((ln.set i Ptr.null).set (cs + i) lo[fc + i]).set (2 * cs + i) Ptr.null)
      (by omega) (by simp [hln]) (by simp; omega)
    refine ⟨lo1, ln1, ?_, hlen1, ?_⟩
    · unfold growLoop
      rw [dirSet_some _ (by omega), dirGet_some (List.getElem?_eq_getElem hlt)]
      simp only []
      rw [dirSet_some _ (by simp; omega)]
      simp only []
      rw [dirSet_some _ hlt]
      simp only []
      rw [dirSet_some _ (by simp; omega)]
      exact hrun
    · intro k
      rw [hk k]
      simp only [List.getElem?_set, List.length_set, hln]
      have e : lo[fc + i]? = some lo[fc + i] := List.getElem?_eq_getElem hlt
      by_cases c1 : (i ≤ k ∧ k < cs) ∨ (2 * cs + i ≤ k ∧ k < 3 * cs)
      · rw [if_pos c1]
        by_cases c2 : (i + 1 ≤ k ∧ k < cs) ∨ (2 * cs + (i + 1) ≤ k ∧ k < 3 * cs)
        · rw [if_pos c2]
        · rw [if_neg c2, if_neg (by omega)]
          by_cases c3 : 2 * cs + i = k
          · rw [if_pos c3, if_pos (by omega)]
          · rw [if_neg c3, if_neg (by omega), if_pos (by omega), if_pos (by omega)]
      · rw [if_neg c1, if_neg (by omega)]
        by_cases c2 : cs + i ≤ k ∧ k < 2 * cs
        · rw [if_pos c2]
          by_cases c3 : cs + i = k
          · rw [if_neg (by omega), if_neg (by omega), if_pos c3, if_pos (by omega), ← c3]
            simp [e]
          · rw [if_pos (by omega), if_neg (by omega)]
        · rw [if_neg c2, if_neg (by omega), if_neg (by omega), if_neg (by omega), if_neg (by omega)]

theorem WF.fc_le_lc {α : Type} {d : Deque} {h : Heap α} {l : List Ptr} (hw : WF d h l) :
    d.firstChunk ≤ d.lastChunk := by
  have h1 := hw.le
  have h2 := hw.ec
  simp only [begPos, finPos] at h1
  omega

theorem Shifted.same {α : Type} {d : Deque} {h : Heap α} {l : List Ptr} (hw : WF d h l) :
    Shifted d l h d l := by
  refine ⟨hw, rfl, rfl, rfl, ?_, fun a ha => ha⟩
  intro p hp1 hp2
  have : p + d.firstChunk * 10 - d.firstChunk * 10 = p := by omega
  rw [this]

theorem grow_core {α : Type} {d : Deque} {h : Heap α} {l : List Ptr} (hw : WF d h l)
    (cs : Nat) (hcs : 1 ≤ cs)
    (hspan : d.lastChunk - d.firstChunk ≤ cs)
    (hz : d.lastChunk - d.firstChunk = cs → d.endCursor = 0)
    (ln1 : List Ptr) (hlen : ln1.length = 3 * cs)
    (hcopy : ∀ k, k < cs → ln1[cs + k]? = l[d.firstChunk + k]?) :
    Shifted d l h
      { firstChunk := cs, startCursor := d.startCursor,
        lastChunk := cs + (d.lastChunk - d.firstChunk), endCursor := d.endCursor,
        cap := 3 * cs, theDeque := some ln1 } ln1 := by
  have hfl := hw.fc_le_lc
  have hsc := hw.sc
  have hec := hw.ec
  have hle := hw.le
  have hz1 : d.lastChunk - d.firstChunk < cs ∨ d.endCursor = 0 := by
    by_cases e : d.lastChunk - d.firstChunk = cs
    · exact Or.inr (hz e)
    · left; omega
  have hmap : ∀ c1, Live
        { firstChunk := cs, startCursor := d.startCursor,
          lastChunk := cs + (d.lastChunk - d.firstChunk), endCursor := d.endCursor,
          cap := 3 * cs, theDeque := some ln1 } c1 →
      Live d (d.firstChunk + (c1 - cs)) ∧ c1 - cs < cs ∧ c1 = cs + (c1 - cs) := by
    intro c1 hc1
    simp only [Live, finPos] at hc1 ⊢
    omega
  have hslot : ∀ c1, Live
        { firstChunk := cs, startCursor := d.startCursor,
          lastChunk := cs + (d.lastChunk - d.firstChunk), endCursor := d.endCursor,
          cap := 3 * cs, theDeque := some ln1 } c1 →
      ln1[c1]? = l[d.firstChunk + (c1 - cs)]? := by
    intro c1 hc1
    obtain ⟨-, h2, h3⟩ := hmap c1 hc1
    rw [← hcopy _ h2, ← h3]
  refine ⟨⟨rfl, hlen, by simp; omega, hsc, hec, ?_, ?_, ?_, ?_⟩, rfl, rfl, ?_, ?_, ?_⟩
  · simp only [begPos, finPos] at hle ⊢; omega
  · simp only [begPos, finPos] at hle ⊢; omega
  · intro c1 hc1
    obtain ⟨h1, h2, h3⟩ := hmap c1 hc1
    obtain ⟨a, ch, hl, hh, hlen1, hel⟩ := hw.live _ h1
    refine ⟨a, ch, by rw [hslot c1 hc1]; exact hl, hh, hlen1, ?_⟩
    intro j hj hb hf
    apply hel j hj
    · simp only [begPos] at hb ⊢; omega
    · simp only [finPos] at hf ⊢; omega
  · intro c1 c2 a hc1 hc2 hl1 hl2
    rw [hslot c1 hc1] at hl1
    rw [hslot c2 hc2] at hl2
    have := hw.inj _ _ a (hmap c1 hc1).1 (hmap c2 hc2).1 hl1 hl2
    have e1 := (hmap c1 hc1).2.2
    have e2 := (hmap c2 hc2).2.2
    omega
  · simp only []; omega
  · intro p hp1 hp2
    have hc : Live d (p / 10) := by
      simp only [Live, begPos, finPos] at hp1 hp2 ⊢; omega
    have hk : p / 10 - d.firstChunk < cs := by
      simp only [Live, begPos, finPos] at hp1 hp2 hc; omega
    have e1 : (p + cs * 10 - d.firstChunk * 10) / 10 = cs + (p / 10 - d.firstChunk) := by
      simp only [begPos] at hp1; omega
    have e2 : (p + cs * 10 - d.firstChunk * 10) % 10 = p % 10 := by
      simp only [begPos] at hp1; omega
    have e3 : d.firstChunk + (p / 10 - d.firstChunk) = p / 10 := by
      simp only [Live] at hc; omega
    simp only [cellE, hw.dir, e1, e2, dirGet, hcopy _ hk, e3]
  · intro a ⟨c1, hc1, hl1⟩
    rw [hslot c1 hc1] at hl1
    exact ⟨_, (hmap c1 hc1).1, hl1⟩

theorem grow_trigger_spec {α : Type} {d : Deque} {h : Heap α} {l : List Ptr} (hw : WF d h l)
    (dir : String) (h1 : ¬ (dir = "back" ∧ d.lastChunk ≠ d.cap))
    (h2 : ¬ (dir = "front" ∧ (d.firstChunk ≠ 0 ∨ d.startCursor ≠ 0)))
    (hsafe : d.lastChunk = d.cap → begPos d < finPos d) :
    ∃ d1 l1, grow dir d = .ok d1 ∧ Shifted d l h d1 l1 ∧ d1.lastChunk < d1.cap ∧
      d1.firstChunk ≠ 0 ∧ d1.cap = 3 * currentSize d ∧ d1.firstChunk = currentSize d ∧
      (∀ j, j < currentSize d ∨ (2 * currentSize d ≤ j ∧ j < 3 * currentSize d) →
        l1[j]? = some Ptr.null) ∧
      (∀ i, i < currentSize d → l1[currentSize d + i]? = l[d.firstChunk + i]?) := by
  have hfl := hw.fc_le_lc
  have hsc := hw.sc
  have hec := hw.ec
  have hle := hw.le
  have hfit := hw.fit
  have hlen := hw.len
  have hsz := size_eq hw.le
  simp only [begPos, finPos] at hle hfit hsafe hsz
  by_cases hcapped : d.endCursor = 0 ∧ d.firstChunk * 10 + d.startCursor < d.lastChunk * 10
  · obtain ⟨hz, hne⟩ := hcapped
    have hcs : 1 ≤ d.lastChunk - d.firstChunk := by omega
    obtain ⟨lo1, ln1, hrun, hlen1, hk⟩ := growLoop_spec d.firstChunk (d.lastChunk - d.firstChunk)
      (d.lastChunk - d.firstChunk) 0 l
      (List.replicate (3 * (d.lastChunk - d.firstChunk)) Ptr.wild) (by omega) (by simp) (by omega)
    have hsh := grow_core hw (d.lastChunk - d.firstChunk) hcs (le_refl _) (fun _ => hz) ln1 hlen1
      (by
        intro k hk1
        rw [hk]
        rw [if_neg (by omega), if_pos (by omega)]
        congr 1
        omega)
    have hemp : empty d = false := by
      simp [empty, hsz]; omega
    have e1 : wsub d.lastChunk d.firstChunk = d.lastChunk - d.firstChunk := wsub_of_le hfl
    have e2 : wsub (d.lastChunk - d.firstChunk + 1) 1 = d.lastChunk - d.firstChunk :=
      wsub_of_le (by omega)
    have e3 : wsub (2 * (d.lastChunk - d.firstChunk)) 1 + 1
        = d.lastChunk - d.firstChunk + (d.lastChunk - d.firstChunk) := by
      rw [wsub_of_le (by omega)]; omega
    have hcsz : currentSize d = d.lastChunk - d.firstChunk := by
      simp only [currentSize, hz, hemp, e1, e2, beq_self_eq_true, Bool.not_false,
        Bool.and_self, if_true]
    refine ⟨_, ln1, ?_, hsh, ?_, ?_, ?_, ?_, ?_, ?_⟩
    · unfold grow
      rw [if_neg h1, if_neg h2]
      simp only [hz, hemp, e1, e2, e3, hw.dir, hrun, beq_self_eq_true, Bool.not_false,
        Bool.and_self, if_true]
    · simp only []; omega
    · simp only []; omega
    · rw [hcsz]
    · rw [hcsz]
    · intro j hj
      rw [hcsz] at hj
      rw [hk, if_pos (by omega)]
    · intro i hi
      rw [hcsz] at hi ⊢
      rw [hk, if_neg (by omega), if_pos (by omega)]
      congr 1
      omega
  · have hlt : d.lastChunk < d.cap := by
      by_contra hc
      have : d.lastChunk = d.cap := by omega
      have := hsafe this
      omega
    obtain ⟨lo1, ln1, hrun, hlen1, hk⟩ := growLoop_spec d.firstChunk (d.lastChunk - d.firstChunk + 1)
      (d.lastChunk - d.firstChunk + 1) 0 l
      (List.replicate (3 * (d.lastChunk - d.firstChunk + 1)) Ptr.wild) (by omega) (by simp)
      (by omega)
    have hsh := grow_core hw (d.lastChunk - d.firstChunk + 1) (by omega) (by omega)
      (fun e => by omega) ln1 hlen1
      (by
        intro k hk1
        rw [hk]
        rw [if_neg (by omega), if_pos (by omega)]
        congr 1
        omega)
    have hcap : (d.endCursor == 0 && !(empty d)) = false := by
      by_cases hz : d.endCursor = 0
      · have : empty d = true := by
          simp [empty, hsz]; omega
        simp [this]
      · simp [hz]
    have e1 : wsub d.lastChunk d.firstChunk = d.lastChunk - d.firstChunk := wsub_of_le hfl
    have e3 : wsub (2 * (d.lastChunk - d.firstChunk + 1)) 1
        = d.lastChunk - d.firstChunk + 1 + (d.lastChunk - d.firstChunk) := by
      rw [wsub_of_le (by omega)]; omega
    have hcsz : currentSize d = d.lastChunk - d.firstChunk + 1 := by
      simp only [currentSize, hcap, e1, if_false, Bool.false_eq_true]
    refine ⟨_, ln1, ?_, hsh, ?_, ?_, ?_, ?_, ?_, ?_⟩
    · unfold grow
      rw [if_neg h1, if_neg h2]
      simp only [hcap, e1, e3, hw.dir, hrun, if_false, Bool.false_eq_true]
    · simp only []; omega
    · simp only []; omega
    · rw [hcsz]
    · rw [hcsz]
    · intro j hj
      rw [hcsz] at hj
      rw [hk, if_pos (by omega)]
    · intro i hi
      rw [hcsz] at hi ⊢
      rw [hk, if_neg (by omega), if_pos (by omega)]
      congr 1
      omega

theorem grow_back_spec {α : Type} {d : Deque} {h : Heap α} {l : List Ptr} (hw : WF d h l)
    (hsafe : d.lastChunk = d.cap → begPos d < finPos d) :
    ∃ d1 l1, grow "back" d = .ok d1 ∧ Shifted d l h d1 l1 ∧ d1.lastChunk < d1.cap := by
  by_cases hne : d.lastChunk = d.cap
  · obtain ⟨d1, l1, hg, hs, hl, -⟩ := grow_trigger_spec hw "back" (by simp [hne])
      (fun hc => absurd hc.1 (by decide)) hsafe
    exact ⟨d1, l1, hg, hs, hl⟩
  · refine ⟨d, l, grow_back_noop hne, Shifted.same hw, ?_⟩
    have := hw.fit
    have := hw.ec
    simp only [finPos] at *
    omega

theorem grow_front_spec {α : Type} {d : Deque} {h : Heap α} {l : List Ptr} (hw : WF d h l) :
    ∃ d1 l1, grow "front" d = .ok d1 ∧ Shifted d l h d1 l1 ∧
      (d1.firstChunk ≠ 0 ∨ d1.startCursor ≠ 0) := by
  by_cases hne : d.firstChunk ≠ 0 ∨ d.startCursor ≠ 0
  · exact ⟨d, l, grow_front_noop hne, Shifted.same hw, hne⟩
  · have hsafe : d.lastChunk = d.cap → begPos d < finPos d := by
      intro e
      have := hw.capPos
      simp only [begPos, finPos]
      omega
    obtain ⟨d1, l1, hg, hs, -, hf, -⟩ := grow_trigger_spec hw "front"
      (fun hc => absurd hc.1 (by decide)) (by simp [hne]) hsafe
    exact ⟨d1, l1, hg, hs, Or.inl hf⟩

theorem alloc_slot {α : Type} {d : Deque} {h : Heap α} {l : List Ptr} (hw : WF d h l)
    (k : Nat) (hnl : ¬ Live d k) (blk : Chunk α) :
    WF { d with theDeque := some (l.set k (Ptr.addr h.length)) } (h ++ [some blk])
        (l.set k (Ptr.addr h.length)) ∧
      (∀ p, begPos d ≤ p → p < finPos d →
        cellE { d with theDeque := some (l.set k (Ptr.addr h.length)) } (h ++ [some blk]) p
          = cellE d h p) ∧
      (∀ c, Live d c → (l.set k (Ptr.addr h.length))[c]? = l[c]? ∧
        l[c]? ≠ some (Ptr.addr h.length)) := by
  have hslot : ∀ c, Live d c → (l.set k (Ptr.addr h.length))[c]? = l[c]? ∧
      l[c]? ≠ some (Ptr.addr h.length) := by
    intro c hc
    constructor
    · have : k ≠ c := by
        intro e; subst e; exact hnl hc
      exact List.getElem?_set_ne this
    · intro e
      obtain ⟨a, ch, hl, hh, -, -⟩ := hw.live c hc
      rw [hl] at e
      cases e
      have := heap_lt_of_get hh
      omega
  have hheap : ∀ (a : Nat) (x : Option (Chunk α)), h[a]? = some x →
      (h ++ [some blk] : Heap α)[a]? = some x := by
    intro a x hx
    rw [List.getElem?_append_left (heap_lt_of_get hx)]
    exact hx
  refine ⟨⟨rfl, by simp [hw.len], hw.capPos, hw.sc, hw.ec, hw.le, hw.fit, ?_, ?_⟩, ?_, hslot⟩
  · intro c hc
    have hc1 : Live d c := hc
    obtain ⟨a, ch, hl, hh, hlen, hel⟩ := hw.live c hc1
    exact ⟨a, ch, by rw [(hslot c hc1).1]; exact hl, hheap _ _ hh, hlen, hel⟩
  · intro c c1 a hc hc1 hl1 hl2
    have hc0 : Live d c := hc
    have hc10 : Live d c1 := hc1
    rw [(hslot c hc0).1] at hl1
    rw [(hslot c1 hc10).1] at hl2
    exact hw.inj c c1 a hc0 hc10 hl1 hl2
  · intro p hp1 hp2
    have hc : Live d (p / 10) := by
      simp only [Live, begPos, finPos] at hp1 hp2 ⊢; omega
    obtain ⟨a, ch, hl, hh, -, -⟩ := hw.live _ hc
    have hl2 := (hslot _ hc).1
    rw [hl] at hl2
    simp only [cellE, hw.dir, dirGet_some hl, dirGet_some hl2]
    exact readElem_congr _ (by rw [hheap _ _ hh, hh])

theorem push_back_write {α : Type} {d : Deque} {h : Heap α} {l : List Ptr} (hw : WF d h l)
    (x : α) (hlt : d.lastChunk < d.cap) (a : Nat) (ch : Chunk α)
    (hl : l[d.lastChunk]? = some (Ptr.addr a)) (hh : h[a]? = some (some ch))
    (hlen : ch.length = 10)
    (hfresh : ∀ c, Live d c → c ≠ d.lastChunk → l[c]? ≠ some (Ptr.addr a))
    (d3 : Deque)
    (hd3 : d3 = { d with endCursor := increment d.endCursor,
                         lastChunk := if increment d.endCursor = 0 then d.lastChunk + 1
                                      else d.lastChunk }) :
    WF d3 (h.set a (some (ch.set d.endCursor (some x)))) l ∧
      begPos d3 = begPos d ∧ finPos d3 = finPos d + 1 ∧
      (∀ p, begPos d ≤ p → p < finPos d →
        cellE d3 (h.set a (some (ch.set d.endCursor (some x)))) p = cellE d h p) ∧
      cellE d3 (h.set a (some (ch.set d.endCursor (some x)))) (finPos d) = .ok x ∧
      (∀ a0, Owns d3 l a0 → Owns d l a0 ∨ a0 = a) := by
  have hsc := hw.sc
  have hec := hw.ec
  have hle := hw.le
  have hfit := hw.fit
  have ha := heap_lt_of_get hh
  have hdir : d3.theDeque = some l := by rw [hd3]; exact hw.dir
  have hfin : finPos d3 = finPos d + 1 := by
    rw [hd3]
    simp only [finPos, increment]
    split <;> simp <;> omega
  have hbeg : begPos d3 = begPos d := by rw [hd3]; rfl
  have hfc : d3.firstChunk = d.firstChunk := by rw [hd3]
  have hlv : ∀ c, Live d3 c → Live d c ∨ c = d.lastChunk := by
    intro c hc
    simp only [Live, hfin, hfc] at hc
    simp only [Live, finPos] at hc ⊢
    omega
  have hset : (h.set a (some (ch.set d.endCursor (some x))))[a]?
      = some (some (ch.set d.endCursor (some x))) := by
    simp [ha]
  have hag : ∀ a0, a ≠ a0 → (h.set a (some (ch.set d.endCursor (some x))))[a0]? = h[a0]? := by
    intro a0 hne0
    simp [List.getElem?_set_ne hne0]
  refine ⟨⟨hdir, ?_, ?_, ?_, ?_, ?_, ?_, ?_, ?_⟩, hbeg, hfin, ?_, ?_, ?_⟩
  · rw [hd3]; exact hw.len
  · rw [hd3]; exact hw.capPos
  · rw [hd3]; exact hw.sc
  · rw [hd3]; exact increment_lt hw.ec
  · rw [hbeg, hfin]; omega
  · rw [hfin]
    have : d3.cap = d.cap := by rw [hd3]
    rw [this]
    simp only [finPos]; omega
  · intro c hc
    by_cases hcl : c = d.lastChunk
    · subst hcl
      refine ⟨a, _, hl, hset, by simp [hlen], ?_⟩
      intro j hj hb hf
      by_cases hje : d.endCursor = j
      · subst hje
        exact ⟨x, by simp [hlen, hec]⟩
      · have hlive : Live d d.lastChunk := by
          rw [hfin] at hf
          simp only [Live, finPos, hfc] at hc hf ⊢
          omega
        obtain ⟨a1, ch1, hl1, hh1, -, hel1⟩ := hw.live _ hlive
        rw [hl] at hl1
        cases hl1
        rw [hh] at hh1
        cases hh1
        obtain ⟨v, hv⟩ := hel1 j hj (by rw [hbeg] at hb; exact hb)
          (by rw [hfin] at hf; simp only [finPos] at hf ⊢; omega)
        exact ⟨v, by rw [List.getElem?_set_ne hje]; exact hv⟩
    · have hc1 : Live d c := by
        rcases hlv c hc with h1 | h1
        · exact h1
        · exact absurd h1 hcl
      obtain ⟨a1, ch1, hl1, hh1, hlen1, hel1⟩ := hw.live c hc1
      have hne1 : a ≠ a1 := by
        intro e; subst e; exact hfresh c hc1 hcl hl1
      refine ⟨a1, ch1, hl1, by rw [hag a1 hne1]; exact hh1, hlen1, ?_⟩
      intro j hj hb hf
      apply hel1 j hj (by rw [hbeg] at hb; exact hb)
      simp only [Live] at hc1
      rw [hfin] at hf
      simp only [finPos] at hf hc1 ⊢
      omega
  · intro c c1 a1 hc hc1 hl1 hl2
    by_cases e1 : c = d.lastChunk
    · by_cases e2 : c1 = d.lastChunk
      · omega
      · exfalso
        subst e1
        rw [hl] at hl1
        cases hl1
        have : Live d c1 := by
          rcases hlv c1 hc1 with h1 | h1
          · exact h1
          · exact absurd h1 e2
        exact hfresh c1 this e2 hl2
    · by_cases e2 : c1 = d.lastChunk
      · exfalso
        subst e2
        rw [hl] at hl2
        cases hl2
        have : Live d c := by
          rcases hlv c hc with h1 | h1
          · exact h1
          · exact absurd h1 e1
        exact hfresh c this e1 hl1
      · have h1 : Live d c := by
          rcases hlv c hc with h1 | h1
          · exact h1
          · exact absurd h1 e1
        have h2 : Live d c1 := by
          rcases hlv c1 hc1 with h1 | h1
          · exact h1
          · exact absurd h1 e2
        exact hw.inj c c1 a1 h1 h2 hl1 hl2
  · intro p hp1 hp2
    have hc : Live d (p / 10) := by
      simp only [Live, begPos, finPos] at hp1 hp2 ⊢; omega
    obtain ⟨a1, ch1, hl1, hh1, -, -⟩ := hw.live _ hc
    simp only [cellE, hdir, hw.dir, dirGet_some hl1]
    by_cases hcl : p / 10 = d.lastChunk
    · rw [hcl, hl] at hl1
      cases hl1
      have hjne : d.endCursor ≠ p % 10 := by
        simp only [finPos] at hp2; omega
      simp [readElem, chunkAt, hset, hh, List.getElem?_set_ne hjne]
    · have hne1 : a ≠ a1 := by
        intro e; subst e; exact hfresh _ hc hcl hl1
      exact readElem_congr _ (hag a1 hne1)
  · have e1 : finPos d / 10 = d.lastChunk := by simp only [finPos]; omega
    have e2 : finPos d % 10 = d.endCursor := by simp only [finPos]; omega
    simp only [cellE, hdir, e1, e2, dirGet_some hl]
    exact readElem_addr hset (by simp [hlen, hec])
  · intro a0 ⟨c, hc, hl0⟩
    rcases hlv c hc with h1 | h1
    · exact Or.inl ⟨c, h1, hl0⟩
    · subst h1
      rw [hl] at hl0
      cases hl0
      exact Or.inr rfl

theorem push_front_write {α : Type} {d : Deque} {h : Heap α} {l : List Ptr} (hw : WF d h l)
    (x : α) (c0 j0 : Nat) (hpos : c0 * 10 + j0 + 1 = begPos d) (hj0 : j0 < 10)
    (a : Nat) (ch : Chunk α)
    (hl : l[c0]? = some (Ptr.addr a)) (hh : h[a]? = some (some ch))
    (hlen : ch.length = 10)
    (hfresh : ∀ c, Live d c → c ≠ c0 → l[c]? ≠ some (Ptr.addr a))
    (d3 : Deque) (hd3 : d3 = { d with firstChunk := c0, startCursor := j0 }) :
    WF d3 (h.set a (some (ch.set j0 (some x)))) l ∧
      begPos d3 + 1 = begPos d ∧ finPos d3 = finPos d ∧
      (∀ p, begPos d ≤ p → p < finPos d →
        cellE d3 (h.set a (some (ch.set j0 (some x)))) p = cellE d h p) ∧
      cellE d3 (h.set a (some (ch.set j0 (some x)))) (begPos d3) = .ok x ∧
      (∀ a0, Owns d3 l a0 → Owns d l a0 ∨ a0 = a) := by
  have hsc := hw.sc
  have hec := hw.ec
  have hle := hw.le
  have hfit := hw.fit
  have ha := heap_lt_of_get hh
  have hdir : d3.theDeque = some l := by rw [hd3]; exact hw.dir
  have hfin : finPos d3 = finPos d := by rw [hd3]; rfl
  have hbeg : begPos d3 = c0 * 10 + j0 := by rw [hd3]; rfl
  have hfc : d3.firstChunk = c0 := by rw [hd3]
  have hlv : ∀ c, Live d3 c → Live d c ∨ c = c0 := by
    intro c hc
    simp only [Live, hfin, hfc] at hc
    simp only [Live, finPos, begPos] at hc hpos ⊢
    omega
  have hset : (h.set a (some (ch.set j0 (some x))))[a]?
      = some (some (ch.set j0 (some x))) := by
    simp [ha]
  have hag : ∀ a0, a ≠ a0 → (h.set a (some (ch.set j0 (some x))))[a0]? = h[a0]? := by
    intro a0 hne0
    simp [List.getElem?_set_ne hne0]
  have hlive_of : ∀ c, Live d3 c → c ≠ c0 → Live d c := by
    intro c hc hne
    rcases hlv c hc with h1 | h1
    · exact h1
    · exact absurd h1 hne
  refine ⟨⟨hdir, ?_, ?_, ?_, ?_, ?_, ?_, ?_, ?_⟩, by omega, hfin, ?_, ?_, ?_⟩
  · rw [hd3]; exact hw.len
  · rw [hd3]; exact hw.capPos
  · rw [hd3]; exact hj0
  · rw [hd3]; exact hw.ec
  · rw [hbeg, hfin]; omega
  · rw [hfin]
    have : d3.cap = d.cap := by rw [hd3]
    rw [this]
    exact hfit
  · intro c hc
    by_cases hcl : c = c0
    · subst hcl
      refine ⟨a, _, hl, hset, by simp [hlen], ?_⟩
      intro j hj hb hf
      by_cases hje : j0 = j
      · subst hje
        exact ⟨x, by simp [hlen, hj0]⟩
      · have hlive : Live d c := by
          rw [hfin] at hf
          rw [hbeg] at hb
          simp only [Live, finPos, begPos] at hf hpos ⊢
          omega
        obtain ⟨a1, ch1, hl1, hh1, -, hel1⟩ := hw.live _ hlive
        rw [hl] at hl1
        cases hl1
        rw [hh] at hh1
        cases hh1
        obtain ⟨v, hv⟩ := hel1 j hj (by rw [hbeg] at hb; omega) (by rw [hfin] at hf; exact hf)
        exact ⟨v, by rw [List.getElem?_set_ne hje]; exact hv⟩
    · have hc1 : Live d c := hlive_of c hc hcl
      obtain ⟨a1, ch1, hl1, hh1, hlen1, hel1⟩ := hw.live c hc1
      have hne1 : a ≠ a1 := by
        intro e; subst e; exact hfresh c hc1 hcl hl1
      refine ⟨a1, ch1, hl1, by rw [hag a1 hne1]; exact hh1, hlen1, ?_⟩
      intro j hj hb hf
      apply hel1 j hj _ (by rw [hfin] at hf; exact hf)
      simp only [Live] at hc1 hc
      rw [hbeg] at hb
      rw [hfc] at hc
      simp only [begPos] at hpos ⊢
      omega
  · intro c c1 a1 hc hc1 hl1 hl2
    by_cases e1 : c = c0
    · by_cases e2 : c1 = c0
      · omega
      · exfalso
        subst e1
        rw [hl] at hl1
        cases hl1
        exact hfresh c1 (hlive_of c1 hc1 e2) e2 hl2
    · by_cases e2 : c1 = c0
      · exfalso
        subst e2
        rw [hl] at hl2
        cases hl2
        exact hfresh c (hlive_of c hc e1) e1 hl1
      · exact hw.inj c c1 a1 (hlive_of c hc e1) (hlive_of c1 hc1 e2) hl1 hl2
  · intro p hp1 hp2
    have hc : Live d (p / 10) := by
      simp only [Live, begPos, finPos] at hp1 hp2 ⊢; omega
    obtain ⟨a1, ch1, hl1, hh1, -, -⟩ := hw.live _ hc
    simp only [cellE, hdir, hw.dir, dirGet_some hl1]
    by_cases hcl : p / 10 = c0
    · rw [hcl, hl] at hl1
      cases hl1
      have hjne : j0 ≠ p % 10 := by
        simp only [begPos] at hp1 hpos; omega
      simp [readElem, chunkAt, hset, hh, List.getElem?_set_ne hjne]
    · have hne1 : a ≠ a1 := by
        intro e; subst e; exact hfresh _ hc hcl hl1
      exact readElem_congr _ (hag a1 hne1)
  · have e1 : begPos d3 / 10 = c0 := by rw [hbeg]; omega
    have e2 : begPos d3 % 10 = j0 := by rw [hbeg]; omega
    simp only [cellE, hdir, e1, e2, dirGet_some hl]
    exact readElem_addr hset (by simp [hlen, hj0])
  · intro a0 ⟨c, hc, hl0⟩
    rcases hlv c hc with h1 | h1
    · exact Or.inl ⟨c, h1, hl0⟩
    · subst h1
      rw [hl] at hl0
      cases hl0
      exact Or.inr rfl

theorem Frame.trans {α : Type} {d d1 d2 : Deque} {l l1 l2 : List Ptr} {h h1 h2 : Heap α}
    (f1 : Frame d l h d1 l1 h1) (f2 : Frame d1 l1 h1 d2 l2 h2) : Frame d l h d2 l2 h2 := by
  obtain ⟨a1, b1, c1⟩ := f1
  obtain ⟨a2, b2, c2⟩ := f2
  refine ⟨by omega, ?_, ?_⟩
  · intro a ha hno
    rw [b2 a (by omega), b1 a ha hno]
    intro ho
    rcases c1 a ho with h3 | h3
    · exact hno h3
    · omega
  · intro a ho
    rcases c2 a ho with h3 | h3
    · rcases c1 a h3 with h4 | h4
      · exact Or.inl h4
      · exact Or.inr h4
    · exact Or.inr (by omega)

theorem Shifted.frame {α : Type} {d d1 : Deque} {l l1 : List Ptr} {h : Heap α}
    (hs : Shifted d l h d1 l1) : Frame d l h d1 l1 h :=
  ⟨le_refl _, fun _ _ _ => rfl, fun a ha => Or.inl (hs.owns a ha)⟩

theorem push_back_nogrow {α : Type} {d : Deque} {h : Heap α} {l : List Ptr} (hw : WF d h l)
    (x : α) (hlt : d.lastChunk < d.cap) :
    ∃ d3 h3 l3, push_back x d h = .ok (d3, h3) ∧ WF d3 h3 l3 ∧ d3.cap = d.cap ∧
      begPos d3 = begPos d ∧ finPos d3 = finPos d + 1 ∧
      (∀ p, begPos d ≤ p → p < finPos d → cellE d3 h3 p = cellE d h p) ∧
      cellE d3 h3 (finPos d) = .ok x ∧ Frame d l h d3 l3 h3 := by
  have hne : d.lastChunk ≠ d.cap := by omega
  have hec := hw.ec
  have hle := hw.le
  unfold push_back
  rw [grow_back_noop hne]
  by_cases h0 : d.endCursor = 0
  · have hnl : ¬ Live d d.lastChunk := by
      simp only [Live, finPos]; omega
    obtain ⟨hw2, hcell2, hslot2⟩ := alloc_slot hw d.lastChunk hnl (List.replicate chunkSize none)
    have hlk : d.lastChunk < l.length := by rw [hw.len]; exact hlt
    have hl2 : (l.set d.lastChunk (Ptr.addr h.length))[d.lastChunk]? = some (Ptr.addr h.length) :=
      List.getElem?_set_self hlk
    have hh2 : (h ++ [some (List.replicate chunkSize none)] : Heap α)[h.length]?
        = some (some (List.replicate chunkSize none)) := List.getElem?_concat_length _ _
    have hfresh : ∀ c, Live { d with theDeque := some (l.set d.lastChunk (Ptr.addr h.length)) } c →
        c ≠ d.lastChunk →
        (l.set d.lastChunk (Ptr.addr h.length))[c]? ≠ some (Ptr.addr h.length) := by
      intro c hc _
      have hc0 : Live d c := hc
      rw [(hslot2 c hc0).1]
      exact (hslot2 c hc0).2
    obtain ⟨w1, w2, w3, w4, w5, w6⟩ := push_back_write hw2 x hlt h.length _ hl2 hh2
      (by simp [chunkSize]) hfresh _ rfl
    refine ⟨_, _, _, ?_, w1, rfl, w2, w3, ?_, w5, ?_⟩
    · simp only [h0, if_true, allocChunk, hw.dir, dirSet_some _ hlk, dirGet_some hl2]
      rw [construct_addr x hh2 (by simp [chunkSize])]
    · intro p hp1 hp2
      rw [w4 p hp1 hp2, hcell2 p hp1 hp2]
    · refine ⟨by simp, ?_, ?_⟩
      · intro a0 ha0 _
        have : h.length ≠ a0 := by omega
        rw [List.getElem?_set_ne this, List.getElem?_append_left ha0]
      · intro a0 ho
        rcases w6 a0 ho with ⟨c, hc, hl0⟩ | h1
        · have hc0 : Live d c := hc
          rw [(hslot2 c hc0).1] at hl0
          exact Or.inl ⟨c, hc0, hl0⟩
        · exact Or.inr (by omega)
  · have hlive : Live d d.lastChunk := by
      have := hw.fc_le_lc
      simp only [Live, finPos]; omega
    obtain ⟨a, ch, hl, hh, hlen, -⟩ := hw.live _ hlive
    have hfresh : ∀ c, Live d c → c ≠ d.lastChunk → l[c]? ≠ some (Ptr.addr a) := by
      intro c hc hne1 e
      exact hne1 (hw.inj _ _ _ hc hlive e hl)
    obtain ⟨w1, w2, w3, w4, w5, w6⟩ := push_back_write hw x hlt a ch hl hh hlen hfresh _ rfl
    refine ⟨_, _, _, ?_, w1, rfl, w2, w3, w4, w5, ?_⟩
    · simp only [h0, if_false, hw.dir, dirGet_some hl]
      rw [construct_addr x hh (by omega)]
    · refine ⟨by simp, ?_, ?_⟩
      · intro a0 _ hno
        have : a ≠ a0 := by
          intro e; subst e; exact hno ⟨_, hlive, hl⟩
        rw [List.getElem?_set_ne this]
      · intro a0 ho
        rcases w6 a0 ho with h1 | h1
        · exact Or.inl h1
        · subst h1
          exact Or.inl ⟨_, hlive, hl⟩

theorem push_back_spec {α : Type} {d : Deque} {h : Heap α} {l : List Ptr} (hw : WF d h l)
    (x : α) (hsafe : d.lastChunk = d.cap → begPos d < finPos d) :
    ∃ d3 h3 l3, push_back x d h = .ok (d3, h3) ∧ WF d3 h3 l3 ∧
      size d3 = size d + 1 ∧ «at» d3 h3 (size d) = .ok x ∧
      (∀ i, i < size d → «at» d3 h3 i = «at» d h i) ∧ Frame d l h d3 l3 h3 := by
  obtain ⟨d1, l1, hg, hs, hlt⟩ := grow_back_spec hw hsafe
  obtain ⟨d3, h3, l3, hp, hw3, -, hb, hf, hc, hx, hfr⟩ := push_back_nogrow hs.wf x hlt
  have hpe : push_back x d h = push_back x d1 h := by
    unfold push_back
    rw [hg, grow_back_noop (by omega)]
  have hle := hw.le
  have hle1 := hs.wf.le
  have hle3 := hw3.le
  have hb1 : begPos d1 + d.firstChunk * 10 = begPos d + d1.firstChunk * 10 := by
    have := hs.sc
    simp only [begPos]; omega
  have hf1 : finPos d1 + d.firstChunk * 10 = finPos d + d1.firstChunk * 10 := by
    have := hs.ec
    have := hs.span
    simp only [finPos]; omega
  have hsz : size d3 = size d + 1 := by
    rw [size_eq hle3, size_eq hle]; omega
  have hbd : d.firstChunk * 10 ≤ begPos d := by simp only [begPos]; omega
  refine ⟨d3, h3, l3, by rw [hpe]; exact hp, hw3, hsz, ?_, ?_, Frame.trans hs.frame hfr⟩
  · rw [at_eq_cellE d3 h3 _ hw3.sc (by omega)]
    have : begPos d3 + size d = finPos d1 := by
      rw [size_eq hle]; omega
    rw [this]; exact hx
  · intro i hi
    rw [at_eq_cellE d3 h3 _ hw3.sc (by omega), at_eq_cellE d h _ hw.sc hi]
    rw [size_eq hle] at hi
    rw [hc _ (by omega) (by omega), ← hs.cells (begPos d + i) (by omega) (by omega)]
    congr 1
    omega

theorem push_front_nogrow {α : Type} {d : Deque} {h : Heap α} {l : List Ptr} (hw : WF d h l)
    (x : α) (hne : d.firstChunk ≠ 0 ∨ d.startCursor ≠ 0) :
    ∃ d3 h3 l3, push_front x d h = .ok (d3, h3) ∧ WF d3 h3 l3 ∧ d3.cap = d.cap ∧
      begPos d3 + 1 = begPos d ∧ finPos d3 = finPos d ∧
      (∀ p, begPos d ≤ p → p < finPos d → cellE d3 h3 p = cellE d h p) ∧
      cellE d3 h3 (begPos d3) = .ok x ∧ Frame d l h d3 l3 h3 := by
  have hsc := hw.sc
  have hec := hw.ec
  have hle := hw.le
  have hfit := hw.fit
  have hfl := hw.fc_le_lc
  unfold push_front
  rw [grow_front_noop hne]
  by_cases h0 : d.startCursor = 0
  · have hfc : 1 ≤ d.firstChunk := by omega
    have hnl : ¬ Live d (d.firstChunk - 1) := by
      simp only [Live]; omega
    obtain ⟨hw2, hcell2, hslot2⟩ := alloc_slot hw (d.firstChunk - 1) hnl
      (List.replicate chunkSize none)
    have hlk : d.firstChunk - 1 < l.length := by
      rw [hw.len]
      simp only [finPos] at hfit
      omega
    have hl2 : (l.set (d.firstChunk - 1) (Ptr.addr h.length))[d.firstChunk - 1]?
        = some (Ptr.addr h.length) := List.getElem?_set_self hlk
    have hh2 : (h ++ [some (List.replicate chunkSize none)] : Heap α)[h.length]?
        = some (some (List.replicate chunkSize none)) := List.getElem?_concat_length _ _
    have hfresh : ∀ c,
        Live { d with theDeque := some (l.set (d.firstChunk - 1) (Ptr.addr h.length)) } c →
        c ≠ d.firstChunk - 1 →
        (l.set (d.firstChunk - 1) (Ptr.addr h.length))[c]? ≠ some (Ptr.addr h.length) := by
      intro c hc _
      have hc0 : Live d c := hc
      rw [(hslot2 c hc0).1]
      exact (hslot2 c hc0).2
    obtain ⟨w1, w2, w3, w4, w5, w6⟩ := push_front_write hw2 x (d.firstChunk - 1) 9
      (by simp only [begPos]; omega) (by omega) h.length _ hl2 hh2
      (by simp [chunkSize]) hfresh _ rfl
    refine ⟨_, _, _, ?_, w1, rfl, w2, w3, ?_, w5, ?_⟩
    · simp only [h0, if_true, allocChunk, hw.dir, wsub_of_le hfc, dirSet_some _ hlk,
        dirGet_some hl2, decrement]
      rw [construct_addr x hh2 (by simp [chunkSize])]
    · intro p hp1 hp2
      rw [w4 p hp1 hp2, hcell2 p hp1 hp2]
    · refine ⟨by simp, ?_, ?_⟩
      · intro a0 ha0 _
        have : h.length ≠ a0 := by omega
        rw [List.getElem?_set_ne this, List.getElem?_append_left ha0]
      · intro a0 ho
        rcases w6 a0 ho with ⟨c, hc, hl0⟩ | h1
        · have hc0 : Live d c := hc
          rw [(hslot2 c hc0).1] at hl0
          exact Or.inl ⟨c, hc0, hl0⟩
        · exact Or.inr (by omega)
  · have hlive : Live d d.firstChunk := by
      simp only [Live, begPos, finPos] at hle ⊢; omega
    obtain ⟨a, ch, hl, hh, hlen, -⟩ := hw.live _ hlive
    have hfresh : ∀ c, Live d c → c ≠ d.firstChunk → l[c]? ≠ some (Ptr.addr a) := by
      intro c hc hne1 e
      exact hne1 (hw.inj _ _ _ hc hlive e hl)
    obtain ⟨w1, w2, w3, w4, w5, w6⟩ := push_front_write hw x d.firstChunk (d.startCursor - 1)
      (by simp only [begPos]; omega) (by omega) a ch hl hh hlen hfresh _ rfl
    refine ⟨_, _, _, ?_, w1, rfl, w2, w3, w4, w5, ?_⟩
    · simp only [h0, if_false, hw.dir, dirGet_some hl, decrement]
      rw [construct_addr x hh (by omega)]
    · refine ⟨by simp, ?_, ?_⟩
      · intro a0 _ hno
        have : a ≠ a0 := by
          intro e; subst e; exact hno ⟨_, hlive, hl⟩
        rw [List.getElem?_set_ne this]
      · intro a0 ho
        rcases w6 a0 ho with h1 | h1
        · exact Or.inl h1
        · subst h1
          exact Or.inl ⟨_, hlive, hl⟩

theorem push_front_spec {α : Type} {d : Deque} {h : Heap α} {l : List Ptr} (hw : WF d h l)
    (x : α) :
    ∃ d3 h3 l3, push_front x d h = .ok (d3, h3) ∧ WF d3 h3 l3 ∧
      size d3 = size d + 1 ∧ «at» d3 h3 0 = .ok x ∧
      (∀ i, i < size d → «at» d3 h3 (i + 1) = «at» d h i) ∧ Frame d l h d3 l3 h3 := by
  obtain ⟨d1, l1, hg, hs, hne⟩ := grow_front_spec hw
  obtain ⟨d3, h3, l3, hp, hw3, -, hb, hf, hc, hx, hfr⟩ := push_front_nogrow hs.wf x hne
  have hpe : push_front x d h = push_front x d1 h := by
    unfold push_front
    rw [hg, grow_front_noop hne]
  have hle := hw.le
  have hle1 := hs.wf.le
  have hle3 := hw3.le
  have hb1 : begPos d1 + d.firstChunk * 10 = begPos d + d1.firstChunk * 10 := by
    have := hs.sc
    simp only [begPos]; omega
  have hf1 : finPos d1 + d.firstChunk * 10 = finPos d + d1.firstChunk * 10 := by
    have := hs.ec
    have := hs.span
    simp only [finPos]; omega
  have hsz : size d3 = size d + 1 := by
    rw [size_eq hle3, size_eq hle]; omega
  have hbd : d.firstChunk * 10 ≤ begPos d := by simp only [begPos]; omega
  refine ⟨d3, h3, l3, by rw [hpe]; exact hp, hw3, hsz, ?_, ?_, Frame.trans hs.frame hfr⟩
  · rw [at_eq_cellE d3 h3 _ hw3.sc (by omega)]
    exact hx
  · intro i hi
    rw [at_eq_cellE d3 h3 _ hw3.sc (by omega), at_eq_cellE d h _ hw.sc hi]
    rw [size_eq hle] at hi
    have e : begPos d3 + (i + 1) = begPos d1 + i := by omega
    rw [e, hc _ (by omega) (by omega), ← hs.cells (begPos d + i) (by omega) (by omega)]
    congr 1
    omega

theorem pop_front_ok {α : Type} {d : Deque} {h : Heap α} {l : List Ptr} (hw : WF d h l)
    (hne : size d ≠ 0) :
    ∃ d1 h1, pop_front d h = .ok (d1, h1) ∧ WF d1 h1 l ∧ size d1 + 1 = size d ∧
      (∀ i, i + 1 < size d → «at» d1 h1 i = «at» d h (i + 1)) ∧ Frame d l h d1 l h1 := by
  have hle := hw.le
  rw [size_eq hle] at hne
  obtain ⟨d1, h1, hp, hw1, hb, hf, hc, hfr⟩ := pop_front_spec hw (by omega)
  have hle1 := hw1.le
  refine ⟨d1, h1, hp, hw1, by rw [size_eq hle1, size_eq hle]; omega, ?_, hfr⟩
  intro i hi
  rw [at_eq_cellE d1 h1 _ hw1.sc (by rw [size_eq hle1]; rw [size_eq hle] at hi; omega),
    at_eq_cellE d h _ hw.sc hi]
  rw [size_eq hle] at hi
  have e : begPos d1 + i = begPos d + (i + 1) := by omega
  rw [e]
  exact hc _ (by omega) (by omega)

theorem pop_back_ok {α : Type} {d : Deque} {h : Heap α} {l : List Ptr} (hw : WF d h l)
    (hne : size d ≠ 0) :
    ∃ d1 h1, pop_back d h = .ok (d1, h1) ∧ WF d1 h1 l ∧ size d1 + 1 = size d ∧
      (∀ i, i + 1 < size d → «at» d1 h1 i = «at» d h i) ∧ Frame d l h d1 l h1 := by
  have hle := hw.le
  rw [size_eq hle] at hne
  obtain ⟨d1, h1, hp, hw1, hb, hf, hc, hfr⟩ := pop_back_spec hw (by omega)
  have hle1 := hw1.le
  refine ⟨d1, h1, hp, hw1, by rw [size_eq hle1, size_eq hle]; omega, ?_, hfr⟩
  intro i hi
  rw [at_eq_cellE d1 h1 _ hw1.sc (by rw [size_eq hle1]; rw [size_eq hle] at hi; omega),
    at_eq_cellE d h _ hw.sc (by omega)]
  rw [size_eq hle] at hi
  rw [hb]
  exact hc _ (by omega) (by omega)

theorem pop_front_empty {α : Type} (d : Deque) (h : Heap α) (he : size d = 0) :
    pop_front d h = .ok (d, h) := by
  simp [pop_front, empty, he]

theorem pop_back_empty {α : Type} (d : Deque) (h : Heap α) (he : size d = 0) :
    pop_back d h = .ok (d, h) := by
  simp [pop_back, empty, he]

/-- A fresh deque with `cap` directory slots whose first slot holds a new,
empty chunk and whose cursors both sit at `middleOfChunk`. -/
theorem fresh_wf {α : Type} (h0 : Heap α) (cap : Nat) (hcap : 1 ≤ cap) :
    WF { firstChunk := 0, startCursor := middleOfChunk, lastChunk := 0,
         endCursor := middleOfChunk, cap := cap,
         theDeque := some ((List.replicate cap Ptr.wild).set 0 (Ptr.addr h0.length)) }
       (h0 ++ [some (List.replicate chunkSize none)])
       ((List.replicate cap Ptr.wild).set 0 (Ptr.addr h0.length)) := by
  refine ⟨rfl, by simp, hcap, by simp [middleOfChunk], by simp [middleOfChunk], le_refl _, ?_,
    ?_, ?_⟩
  · simp only [finPos, middleOfChunk]; omega
  · intro c hc
    have hc0 : c = 0 := by
      simp only [Live, finPos, middleOfChunk] at hc; omega
    subst hc0
    refine ⟨h0.length, List.replicate chunkSize none, ?_, ?_, by simp [chunkSize], ?_⟩
    · exact List.getElem?_set_self (by simp; omega)
    · exact List.getElem?_concat_length _ _
    · intro j _ hb hf
      simp only [begPos, finPos] at hb hf
      omega
  · intro c c1 a hc hc1 _ _
    simp only [Live, finPos, middleOfChunk] at hc hc1
    omega

theorem mkDefault_spec {α : Type} (h0 : Heap α) :
    ∃ d h l, mkDefault h0 = .ok (d, h) ∧ WF d h l ∧ begPos d = 4 ∧ finPos d = 4 ∧ d.cap = 1 ∧
      h0.length ≤ h.length ∧ (∀ a, a < h0.length → h[a]? = h0[a]?) ∧
      (∀ a, Owns d l a → h0.length ≤ a) := by
  refine ⟨_, _, _, ?_, fresh_wf h0 1 (le_refl _), rfl, rfl, rfl, by simp, ?_, ?_⟩
  · simp [mkDefault, allocChunk, dirSet]
  · intro a ha
    exact List.getElem?_append_left ha
  · intro a ⟨c, hc, hl⟩
    have hc0 : c = 0 := by
      simp only [Live, finPos, middleOfChunk] at hc; omega
    subst hc0
    simp at hl
    omega

theorem initLoop_step {α : Type} {d : Deque} {h : Heap α} {l : List Ptr} (hw : WF d h l)
    (hlt : d.lastChunk < d.cap) (t : α) (ts : List α) :
    initLoop (t :: ts) (finPos d) d.theDeque h =
      match push_back t d h with
      | .ok (d3, h3) => initLoop ts (finPos d + 1) d3.theDeque h3
      | .error e => .error e := by
  have hne : d.lastChunk ≠ d.cap := by omega
  have hec := hw.ec
  have e1 : finPos d / 10 = d.lastChunk := by simp only [finPos]; omega
  have e2 : finPos d % 10 = d.endCursor := by simp only [finPos]; omega
  unfold push_back
  rw [grow_back_noop hne]
  rw [initLoop, e1, e2]
  by_cases h0 : d.endCursor = 0
  · have hlk : d.lastChunk < l.length := by rw [hw.len]; exact hlt
    have hl2 : (l.set d.lastChunk (Ptr.addr h.length))[d.lastChunk]? = some (Ptr.addr h.length) :=
      List.getElem?_set_self hlk
    have hh2 : (h ++ [some (List.replicate chunkSize none)] : Heap α)[h.length]?
        = some (some (List.replicate chunkSize none)) := List.getElem?_concat_length _ _
    simp only [h0, if_true, allocChunk, hw.dir, dirSet_some _ hlk, dirGet_some hl2]
    rw [construct_addr t hh2 (by simp [chunkSize])]
  · have hlive : Live d d.lastChunk := by
      have := hw.fc_le_lc
      simp only [Live, finPos]; omega
    obtain ⟨a, ch, hl, hh, hlen, -⟩ := hw.live _ hlive
    simp only [h0, if_false, hw.dir, dirGet_some hl]
    rw [construct_addr t hh (by omega)]

theorem initLoop_spec {α : Type} : ∀ (ts : List α) (d : Deque) (h : Heap α) (l : List Ptr),
    WF d h l → finPos d + ts.length ≤ d.cap * 10 →
    ∃ d1 h1 l1, initLoop ts (finPos d) d.theDeque h = .ok (d1.theDeque, h1) ∧ WF d1 h1 l1 ∧
      d1.cap = d.cap ∧ begPos d1 = begPos d ∧ finPos d1 = finPos d + ts.length ∧
      (∀ p, begPos d ≤ p → p < finPos d → cellE d1 h1 p = cellE d h p) ∧
      (∀ k, (hk : k < ts.length) → cellE d1 h1 (finPos d + k) = .ok ts[k]) ∧
      Frame d l h d1 l1 h1
  | [], d, h, l, hw, _ => by
    refine ⟨d, h, l, rfl, hw, rfl, rfl, rfl, fun _ _ _ => rfl, ?_, ?_⟩
    · intro k hk
      exact absurd hk (by simp)
    · exact ⟨le_refl _, fun _ _ _ => rfl, fun a ha => Or.inl ha⟩
  | t :: ts, d, h, l, hw, hfit => by
    have hec := hw.ec
    have hlt : d.lastChunk < d.cap := by
      simp only [finPos, List.length_cons] at hfit; omega
    obtain ⟨d3, h3, l3, hp, hw3, hcap3, hb3, hf3, hc3, hx3, hfr3⟩ := push_back_nogrow hw t hlt
    obtain ⟨d1, h1, l1, hrun, hw1, hcap1, hb1, hf1, hc1, hk1, hfr1⟩ :=
      initLoop_spec ts d3 h3 l3 hw3 (by
        rw [hcap3, hf3]; simp only [List.length_cons] at hfit; omega)
    have hle := hw.le
    refine ⟨d1, h1, l1, ?_, hw1, by rw [hcap1, hcap3], by rw [hb1, hb3], ?_, ?_, ?_,
      Frame.trans hfr3 hfr1⟩
    · rw [initLoop_step hw hlt, hp]
      simp only []
      rw [← hf3]
      exact hrun
    · rw [hf1, hf3]; simp only [List.length_cons]; omega
    · intro p hp1 hp2
      rw [hc1 p (by omega) (by omega), hc3 p hp1 hp2]
    · intro k hk
      cases k with
      | zero =>
        simp only [Nat.add_zero, List.getElem_cons_zero]
        rw [hc1 _ (by omega) (by omega)]
        exact hx3
      | succ k =>
        simp only [List.getElem_cons_succ]
        have := hk1 k (by simp only [List.length_cons] at hk; omega)
        rw [hf3] at this
        have e : finPos d + (k + 1) = finPos d + 1 + k := by omega
        rw [e]
        exact this

theorem fresh_owns {α : Type} (h0 : Heap α) (cap : Nat) (hcap : 1 ≤ cap) (a : Nat)
    (ho : Owns { firstChunk := 0, startCursor := middleOfChunk, lastChunk := 0,
                 endCursor := middleOfChunk, cap := cap,
                 theDeque := some ((List.replicate cap Ptr.wild).set 0 (Ptr.addr h0.length)) }
      ((List.replicate cap Ptr.wild).set 0 (Ptr.addr h0.length)) a) : a = h0.length := by
  obtain ⟨c, hc, hl⟩ := ho
  have hc0 : c = 0 := by
    simp only [Live, finPos, middleOfChunk] at hc; omega
  subst hc0
  rw [List.getElem?_set_self (by simp; omega)] at hl
  cases hl
  rfl

theorem mkInit_spec {α : Type} (init : List α) (h0 : Heap α) :
    ∃ d h l, mkInit init h0 = .ok (d, h) ∧ WF d h l ∧ begPos d = 4 ∧
      finPos d = 4 + init.length ∧
      (∀ k, (hk : k < init.length) → cellE d h (4 + k) = .ok init[k]) ∧
      h0.length ≤ h.length ∧ (∀ a, a < h0.length → h[a]? = h0[a]?) ∧
      (∀ a, Owns d l a → h0.length ≤ a) := by
  obtain ⟨cp, hcp⟩ : ∃ cp, cp = (if (init.length + middleOfChunk) % 10 = 0
      then (init.length + middleOfChunk) / 10 else (init.length + middleOfChunk) / 10 + 1) :=
    ⟨_, rfl⟩
  have hcap : 1 ≤ cp := by
    rw [hcp]; simp only [middleOfChunk]; split <;> omega
  have hfit : 4 + init.length ≤ cp * 10 := by
    rw [hcp]; simp only [middleOfChunk]; split <;> omega
  have hw0 := fresh_wf h0 cp hcap
  obtain ⟨d1, h1, l1, hrun, hw1, hcap1, hb1, hf1, hc1, hk1, hfr1⟩ :=
    initLoop_spec init _ _ _ hw0 hfit
  have hsc1 := hw1.sc
  have hec1 := hw1.ec
  have hb : begPos d1 = 4 := hb1
  have hf : finPos d1 = 4 + init.length := hf1
  have hcp1 : d1.cap = cp := hcap1
  change initLoop init 4 (some ((List.replicate cp Ptr.wild).set 0 (Ptr.addr h0.length))) _ = _
    at hrun
  have hd1 :
      ({ firstChunk := 0, startCursor := 4,
         lastChunk := (init.length + 4) / 10,
         endCursor := (init.length + 4) % 10,
         cap := cp, theDeque := d1.theDeque } : Deque) = d1 := by
    cases d1 with
    | mk fc sc lc ec cp1 dq =>
      simp only [begPos, finPos] at hb hf hsc1 hec1 hcp1 ⊢
      simp only [Deque.mk.injEq, and_true]
      refine ⟨by omega, by omega, by omega, by omega, ?_⟩
      rw [hcp1]
  refine ⟨d1, h1, l1, ?_, hw1, hb, hf, ?_, ?_, ?_, ?_⟩
  · unfold mkInit
    simp only [allocChunk, ← hcp]
    rw [dirSet_some _ (by simp; omega)]
    simp only [middleOfChunk, hrun, hd1]
  · intro k hk
    exact hk1 k hk
  · have := hfr1.1
    simp at this
    omega
  · intro a ha
    rw [hfr1.2.1 a (by simp; omega)]
    · exact List.getElem?_append_left ha
    · intro ho
      have := fresh_owns h0 cp hcap a ho
      omega
  · intro a ho
    rcases hfr1.2.2 a ho with h2 | h2
    · have := fresh_owns h0 cp hcap a h2
      omega
    · simp at h2
      omega

theorem grow_back_fault {α : Type} {d : Deque} {h : Heap α} {l : List Ptr} (hw : WF d h l)
    (hcap : d.lastChunk = d.cap) (hemp : begPos d = finPos d) :
    grow "back" d = .error Err.fault := by
  have hsc := hw.sc
  have hec := hw.ec
  have hfit := hw.fit
  have hsz := size_eq hw.le
  simp only [begPos, finPos] at hemp hfit hsz
  have hfc : d.firstChunk = d.lastChunk := by omega
  have he : empty d = true := by
    simp [empty, hsz]; omega
  have e1 : wsub d.lastChunk d.firstChunk = 0 := by
    rw [wsub_of_le (by omega)]; omega
  have hoob : dirGet (some l) (d.firstChunk + 0) = .error Err.fault :=
    dirGet_oob (by rw [hw.len]; omega)
  unfold grow
  rw [if_neg (by simp [hcap]), if_neg (fun hc => absurd hc.1 (by decide))]
  simp only [he, e1, hw.dir, Bool.not_true, Bool.and_false, if_false, growLoop, hoob,
    Bool.false_eq_true]
  rw [dirSet_some _ (by simp)]

theorem push_back_fault {α : Type} {d : Deque} {h : Heap α} {l : List Ptr} (hw : WF d h l)
    (x : α) (hcap : d.lastChunk = d.cap) (hemp : begPos d = finPos d) :
    push_back x d h = .error Err.fault := by
  unfold push_back
  rw [grow_back_fault hw hcap hemp]

theorem applyOp_inv {α : Type} {o : Op α} {d d1 : Deque} {h h1 : Heap α}
    (hi : Inv d h) (hr : applyOp o d h = .ok (d1, h1)) : Inv d1 h1 := by
  obtain ⟨l, hw⟩ := hi
  cases o with
  | pushBack x =>
    simp only [applyOp] at hr
    by_cases hsafe : d.lastChunk = d.cap → begPos d < finPos d
    · obtain ⟨d3, h3, l3, hp, hw3, -⟩ := push_back_spec hw x hsafe
      rw [hp] at hr
      cases hr
      exact ⟨l3, hw3⟩
    · have hle := hw.le
      have hcap : d.lastChunk = d.cap := by
        by_contra hc; exact hsafe (fun e => absurd e hc)
      have hemp : begPos d = finPos d := by
        by_contra hc; exact hsafe (fun _ => by omega)
      rw [push_back_fault hw x hcap hemp] at hr
      cases hr
  | pushFront x =>
    simp only [applyOp] at hr
    obtain ⟨d3, h3, l3, hp, hw3, -⟩ := push_front_spec hw x
    rw [hp] at hr
    cases hr
    exact ⟨l3, hw3⟩
  | popBack =>
    simp only [applyOp] at hr
    by_cases he : size d = 0
    · rw [pop_back_empty d h he] at hr
      cases hr
      exact ⟨l, hw⟩
    · obtain ⟨d3, h3, hp, hw3, -⟩ := pop_back_ok hw he
      rw [hp] at hr
      cases hr
      exact ⟨l, hw3⟩
  | popFront =>
    simp only [applyOp] at hr
    by_cases he : size d = 0
    · rw [pop_front_empty d h he] at hr
      cases hr
      exact ⟨l, hw⟩
    · obtain ⟨d3, h3, hp, hw3, -⟩ := pop_front_ok hw he
      rw [hp] at hr
      cases hr
      exact ⟨l, hw3⟩

theorem Reachable.inv {α : Type} {d : Deque} {h : Heap α} (hr : Reachable d h) : Inv d h := by
  induction hr with
  | dflt h0 d h hd =>
    obtain ⟨d1, h1, l1, hm, hw, -⟩ := mkDefault_spec h0
    rw [hm] at hd
    cases hd
    exact ⟨l1, hw⟩
  | init l h0 d h hd =>
    obtain ⟨d1, h1, l1, hm, hw, -⟩ := mkInit_spec l h0
    rw [hm] at hd
    cases hd
    exact ⟨l1, hw⟩
  | step o d h d1 h1 _ hs ih => exact applyOp_inv ih hs

theorem runOps_reachable {α : Type} : ∀ (os : List (Op α)) (d : Deque) (h : Heap α)
    (d1 : Deque) (h1 : Heap α), Reachable d h → runOps os d h = .ok (d1, h1) → Reachable d1 h1
  | [], d, h, d1, h1, hr, he => by
    simp only [runOps] at he
    cases he
    exact hr
  | o :: os, d, h, d1, h1, hr, he => by
    simp only [runOps] at he
    cases hs : applyOp o d h with
    | error e => rw [hs] at he; cases he
    | ok r =>
      obtain ⟨d2, h2⟩ := r
      rw [hs] at he
      exact runOps_reachable os d2 h2 d1 h1 (Reachable.step o d h d2 h2 hr hs) he

theorem at_ok {α : Type} {d : Deque} {h : Heap α} {l : List Ptr} (hw : WF d h l) (i : Nat)
    (hi : i < size d) : ∃ v, «at» d h i = .ok v := by
  have hle := hw.le
  rw [at_eq_cellE d h i hw.sc hi]
  rw [size_eq hle] at hi
  have hc : Live d ((begPos d + i) / 10) := by
    simp only [Live, begPos, finPos] at hi ⊢; omega
  obtain ⟨a, ch, hl, hh, -, hel⟩ := hw.live _ hc
  obtain ⟨v, hv⟩ := hel ((begPos d + i) % 10) (by omega) (by omega) (by omega)
  exact ⟨v, by simp only [cellE, hw.dir, dirGet_some hl]; exact readElem_addr hh hv⟩

theorem applyOp_size {α : Type} {o : Op α} {d d1 : Deque} {h h1 : Heap α}
    (hi : Inv d h) (hr : applyOp o d h = .ok (d1, h1)) :
    size d1 = if o.isPush then size d + 1 else size d - 1 := by
  obtain ⟨l, hw⟩ := hi
  cases o with
  | pushBack x =>
    simp only [applyOp] at hr
    by_cases hsafe : d.lastChunk = d.cap → begPos d < finPos d
    · obtain ⟨d3, h3, l3, hp, -, hs, -⟩ := push_back_spec hw x hsafe
      rw [hp] at hr
      cases hr
      simpa [Op.isPush] using hs
    · have hle := hw.le
      have hcap : d.lastChunk = d.cap := by
        by_contra hc; exact hsafe (fun e => absurd e hc)
      have hemp : begPos d = finPos d := by
        by_contra hc; exact hsafe (fun _ => by omega)
      rw [push_back_fault hw x hcap hemp] at hr
      cases hr
  | pushFront x =>
    simp only [applyOp] at hr
    obtain ⟨d3, h3, l3, hp, -, hs, -⟩ := push_front_spec hw x
    rw [hp] at hr
    cases hr
    simpa [Op.isPush] using hs
  | popBack =>
    simp only [applyOp] at hr
    by_cases he : size d = 0
    · rw [pop_back_empty d h he] at hr
      cases hr
      simp [Op.isPush, he]
    · obtain ⟨d3, h3, hp, -, hs, -⟩ := pop_back_ok hw he
      rw [hp] at hr
      cases hr
      simp only [Op.isPush]
      simp
      omega
  | popFront =>
    simp only [applyOp] at hr
    by_cases he : size d = 0
    · rw [pop_front_empty d h he] at hr
      cases hr
      simp [Op.isPush, he]
    · obtain ⟨d3, h3, hp, -, hs, -⟩ := pop_front_ok hw he
      rw [hp] at hr
      cases hr
      simp only [Op.isPush]
      simp
      omega

/-- C1 (failing input).  On a default-constructed deque, six `push_back`
followed by six `pop_front` complete and leave an empty deque whose
`lastChunk` equals `cap`; the next `push_back` then makes `grow` access
directory slot `theDeque[cap]`, outside the array, so the thirteenth step has
no defined outcome and no size. -/
theorem C1_size_sequence_faults :
    ∃ (d0 : Deque) (h0 : Heap Nat) (d12 : Deque) (h12 : Heap Nat),
      mkDefault ([] : Heap Nat) = .ok (d0, h0) ∧
      runOps (List.replicate 6 (Op.pushBack 0) ++ List.replicate 6 Op.popFront) d0 h0
        = .ok (d12, h12) ∧
      size d12 = 0 ∧ d12.lastChunk = d12.cap ∧
      applyOp (Op.pushBack 0) d12 h12 = .error Err.fault ∧
      runOps (List.replicate 6 (Op.pushBack 0) ++ List.replicate 6 Op.popFront ++
        [Op.pushBack 0]) d0 h0 = .error Err.fault :=
  ⟨_, _, _, _, rfl, rfl, rfl, rfl, rfl, rfl⟩

/-- C2 (failing input).  The state reached from the default constructor by six
`push_back` and six `pop_front` is reachable and empty, and `push_back` on it
does not complete: `grow` reads and writes `theDeque[1]` of a one-slot
directory. -/
theorem C2_push_back_faults :
    ∃ (d : Deque) (h : Heap Nat), Reachable d h ∧ size d = 0 ∧ d.lastChunk = d.cap ∧
      push_back 7 d h = .error Err.fault := by
  refine ⟨{ firstChunk := 1, startCursor := 0, lastChunk := 1, endCursor := 0, cap := 1,
            theDeque := some [Ptr.addr 0] }, [none], ?_, rfl, rfl, rfl⟩
  have h0 : Reachable
      { firstChunk := 0, startCursor := 4, lastChunk := 0, endCursor := 4, cap := 1,
        theDeque := some [Ptr.addr 0] }
      ([some (List.replicate 10 none)] : Heap Nat) := Reachable.dflt [] _ _ (by rfl)
  exact runOps_reachable
    (List.replicate 6 (Op.pushBack 0) ++ List.replicate 6 Op.popFront) _ _ _ _ h0 (by rfl)

theorem sample_reachable : Reachable sampleDeque sampleHeap :=
  Reachable.init [1, 2] [] _ _ (by rfl)

theorem empty_reachable : Reachable emptyDeque emptyHeap :=
  Reachable.dflt [] _ _ (by rfl)

theorem readElem_ne_outOfRange {α : Type} (p : Ptr) (j : Nat) (h : Heap α) :
    readElem p j h ≠ .error Err.outOfRange := by
  unfold readElem
  split
  · split <;> simp
  · simp

theorem dirGet_ne_outOfRange (dq : Option (List Ptr)) (i : Nat) :
    dirGet dq i ≠ .error Err.outOfRange := by
  unfold dirGet
  split
  · simp
  · split <;> simp

theorem getElem_ne_outOfRange {α : Type} (d : Deque) (h : Heap α) (i : Nat) :
    getElem d h i ≠ .error Err.outOfRange := by
  unfold getElem
  split
  · split
    · rename_i e he
      intro hc
      cases hc
      exact dirGet_ne_outOfRange _ _ he
    · exact readElem_ne_outOfRange _ _ _
  · simp only []
    split
    · simp
    · split
      · rename_i e he
        intro hc
        cases hc
        exact dirGet_ne_outOfRange _ _ he
      · exact readElem_ne_outOfRange _ _ _

/-- C3.  In every state reachable from the default or the initializer-list
constructor by push and pop operations, `push_front(x)` completes; afterwards
`size()` has grown by one, `at(0)` returns `x`, and for every `i` below the
old size `at(i + 1)` returns the element that `at(i)` returned before the call
(growth and chunk allocation included). -/
theorem C3_push_front {α : Type} (d : Deque) (h : Heap α) (x : α) (hr : Reachable d h) :
    ∃ d1 h1, push_front x d h = .ok (d1, h1) ∧ size d1 = size d + 1 ∧
      «at» d1 h1 0 = .ok x ∧
      ∀ i, i < size d → ∃ v, «at» d h i = .ok v ∧ «at» d1 h1 (i + 1) = .ok v := by
  obtain ⟨l, hw⟩ := hr.inv
  obtain ⟨d1, h1, l1, hp, -, hs, h0, hi, -⟩ := push_front_spec hw x
  refine ⟨d1, h1, hp, hs, h0, ?_⟩
  intro i hlt
  obtain ⟨v, hv⟩ := at_ok hw i hlt
  exact ⟨v, hv, by rw [hi i hlt]; exact hv⟩

/-- C3 at a concrete input: `push_front(7)` on the deque built from `[1, 2]`. -/
theorem C3_push_front_witness :
    Reachable sampleDeque sampleHeap ∧
      ∃ d1 h1, push_front 7 sampleDeque sampleHeap = .ok (d1, h1) ∧
        size d1 = size sampleDeque + 1 ∧ «at» d1 h1 0 = .ok 7 ∧
        ∀ i, i < size sampleDeque →
          ∃ v, «at» sampleDeque sampleHeap i = .ok v ∧ «at» d1 h1 (i + 1) = .ok v :=
  ⟨sample_reachable, C3_push_front sampleDeque sampleHeap 7 sample_reachable⟩

/-- C4.  In every non-empty state reachable from the default or the
initializer-list constructor by push and pop operations, `pop_front()`
completes; afterwards `size()` is one less and for every `i` below the new
size `at(i)` returns the element that `at(i + 1)` returned before the call
(also when the first chunk is freed). -/
theorem C4_pop_front {α : Type} (d : Deque) (h : Heap α) (hr : Reachable d h)
    (hne : empty d = false) :
    ∃ d1 h1, pop_front d h = .ok (d1, h1) ∧ size d1 = size d - 1 ∧
      ∀ i, i < size d - 1 → ∃ v, «at» d h (i + 1) = .ok v ∧ «at» d1 h1 i = .ok v := by
  obtain ⟨l, hw⟩ := hr.inv
  have hsz : size d ≠ 0 := by
    intro e; simp [empty, e] at hne
  obtain ⟨d1, h1, hp, -, hs, hi, -⟩ := pop_front_ok hw hsz
  refine ⟨d1, h1, hp, by omega, ?_⟩
  intro i hlt
  obtain ⟨v, hv⟩ := at_ok hw (i + 1) (by omega)
  exact ⟨v, hv, by rw [hi i (by omega)]; exact hv⟩

/-- C4 at a concrete input: `pop_front()` on the deque built from `[1, 2]`. -/
theorem C4_pop_front_witness :
    (Reachable sampleDeque sampleHeap ∧ empty sampleDeque = false) ∧
      ∃ d1 h1, pop_front sampleDeque sampleHeap = .ok (d1, h1) ∧
        size d1 = size sampleDeque - 1 ∧
        ∀ i, i < size sampleDeque - 1 →
          ∃ v, «at» sampleDeque sampleHeap (i + 1) = .ok v ∧ «at» d1 h1 i = .ok v :=
  ⟨⟨sample_reachable, by decide⟩, C4_pop_front sampleDeque sampleHeap sample_reachable (by decide)⟩

/-- C5.  In every non-empty state reachable from the default or the
initializer-list constructor by push and pop operations, `pop_back()`
completes; afterwards `size()` is one less and for every `i` below the new
size `at(i)` returns the same element as before the call (also when
`lastChunk` is decremented first and when the last chunk is freed). -/
theorem C5_pop_back {α : Type} (d : Deque) (h : Heap α) (hr : Reachable d h)
    (hne : empty d = false) :
    ∃ d1 h1, pop_back d h = .ok (d1, h1) ∧ size d1 = size d - 1 ∧
      ∀ i, i < size d - 1 → ∃ v, «at» d h i = .ok v ∧ «at» d1 h1 i = .ok v := by
  obtain ⟨l, hw⟩ := hr.inv
  have hsz : size d ≠ 0 := by
    intro e; simp [empty, e] at hne
  obtain ⟨d1, h1, hp, -, hs, hi, -⟩ := pop_back_ok hw hsz
  refine ⟨d1, h1, hp, by omega, ?_⟩
  intro i hlt
  obtain ⟨v, hv⟩ := at_ok hw i (by omega)
  exact ⟨v, hv, by rw [hi i (by omega)]; exact hv⟩

/-- C5 at a concrete input: `pop_back()` on the deque built from `[1, 2]`. -/
theorem C5_pop_back_witness :
    (Reachable sampleDeque sampleHeap ∧ empty sampleDeque = false) ∧
      ∃ d1 h1, pop_back sampleDeque sampleHeap = .ok (d1, h1) ∧
        size d1 = size sampleDeque - 1 ∧
        ∀ i, i < size sampleDeque - 1 →
          ∃ v, «at» sampleDeque sampleHeap i = .ok v ∧ «at» d1 h1 i = .ok v :=
  ⟨⟨sample_reachable, by decide⟩, C5_pop_back sampleDeque sampleHeap sample_reachable (by decide)⟩

/-- C6.  For every deque state, heap and index `i`: `at(i)` throws the
out-of-range error exactly when `i >= size()`; when `i < size()` it gives what
the unchecked translation `getElem(i)`, and so `operator[](i)`, gives; and
`at(size() + k)` throws for every `k`.  The function `at` returns only the
element: it has no way to change the deque or the heap. -/
theorem C6_at_range {α : Type} (d : Deque) (h : Heap α) (i : Nat) :
    («at» d h i = .error Err.outOfRange ↔ size d ≤ i) ∧
      (i < size d → «at» d h i = getElem d h i ∧ «at» d h i = index d h i) ∧
      ∀ k, «at» d h (size d + k) = .error Err.outOfRange := by
  refine ⟨?_, ?_, ?_⟩
  · unfold «at»
    constructor
    · intro he
      by_contra hc
      rw [if_neg (by omega)] at he
      exact getElem_ne_outOfRange d h i he
    · intro hle
      rw [if_pos hle]
  · intro hlt
    unfold «at» index
    rw [if_neg (by omega)]
    exact ⟨rfl, rfl⟩
  · intro k
    unfold «at»
    rw [if_pos (by omega)]

/-- C6 at a concrete input: index `1` of the deque built from `[1, 2]`. -/
theorem C6_at_range_witness :
    («at» sampleDeque sampleHeap 1 = .error Err.outOfRange ↔ size sampleDeque ≤ 1) ∧
      (1 < size sampleDeque → «at» sampleDeque sampleHeap 1 = getElem sampleDeque sampleHeap 1 ∧
        «at» sampleDeque sampleHeap 1 = index sampleDeque sampleHeap 1) ∧
      ∀ k, «at» sampleDeque sampleHeap (size sampleDeque + k) = .error Err.outOfRange :=
  C6_at_range sampleDeque sampleHeap 1

/-- C7.  For every list, the initializer-list constructor completes and the
deque it builds has `size()` equal to the length of the list and `at(i)` equal
to the `i`-th element of the list for every valid `i`. -/
theorem C7_init_list {α : Type} (init : List α) (h0 : Heap α) :
    ∃ d h, mkInit init h0 = .ok (d, h) ∧ size d = init.length ∧
      ∀ i, (hi : i < init.length) → «at» d h i = .ok init[i] := by
  obtain ⟨d, h, l, hm, hw, hb, hf, hc, -⟩ := mkInit_spec init h0
  have hsz : size d = init.length := by
    rw [size_eq hw.le]; omega
  refine ⟨d, h, hm, hsz, ?_⟩
  intro i hi
  rw [at_eq_cellE d h i hw.sc (by omega), hb]
  exact hc i hi

/-- C7 at a concrete input: the list `0, 1, ..., 15`, whose length plus four is
a multiple of ten. -/
theorem C7_init_list_witness :
    ∃ d h, mkInit (List.range 16) ([] : Heap Nat) = .ok (d, h) ∧
      size d = (List.range 16).length ∧
      ∀ i, (hi : i < (List.range 16).length) → «at» d h i = .ok (List.range 16)[i] :=
  C7_init_list (List.range 16) []

/-- C9.  In every state where `empty()` is true, `pop_front()` and
`pop_back()` complete without error and return the state unchanged (all five
counters, the directory and the heap); hence any sequence of pops leaves the
state unchanged, and `empty()` true. -/
theorem C9_pop_on_empty {α : Type} (d : Deque) (h : Heap α) (he : empty d = true) :
    pop_front d h = .ok (d, h) ∧ pop_back d h = .ok (d, h) ∧
      ∀ ops : List (Op α), (∀ o, o ∈ ops → o = Op.popFront ∨ o = Op.popBack) →
        runOps ops d h = .ok (d, h) := by
  have hsz : size d = 0 := by
    simpa [empty] using he
  refine ⟨pop_front_empty d h hsz, pop_back_empty d h hsz, ?_⟩
  intro ops
  induction ops with
  | nil => intro _; rfl
  | cons o os ih =>
    intro hall
    have ho := hall o (List.mem_cons_self o os)
    have hos : ∀ o1, o1 ∈ os → o1 = Op.popFront ∨ o1 = Op.popBack :=
      fun o1 h1 => hall o1 (List.mem_cons_of_mem o h1)
    rcases ho with e | e
    · subst e
      simp only [runOps, applyOp, pop_front_empty d h hsz]
      exact ih hos
    · subst e
      simp only [runOps, applyOp, pop_back_empty d h hsz]
      exact ih hos

/-- C9 at a concrete input: pops on a default-constructed deque. -/
theorem C9_pop_on_empty_witness :
    empty emptyDeque = true ∧
      (pop_front emptyDeque emptyHeap = .ok (emptyDeque, emptyHeap) ∧
       pop_back emptyDeque emptyHeap = .ok (emptyDeque, emptyHeap) ∧
       ∀ ops : List (Op Nat), (∀ o, o ∈ ops → o = Op.popFront ∨ o = Op.popBack) →
         runOps ops emptyDeque emptyHeap = .ok (emptyDeque, emptyHeap)) :=
  ⟨by decide, C9_pop_on_empty emptyDeque emptyHeap (by decide)⟩

theorem Iter.deref_eq_cellE {α : Type} (d : Deque) (h : Heap α) (p : Nat) :
    Iter.deref d h { p := p / 10, cursor := p % 10 } = cellE d h p := rfl

theorem Iter.next_pos (p : Nat) :
    Iter.next { p := p / 10, cursor := p % 10 } = { p := (p + 1) / 10, cursor := (p + 1) % 10 } := by
  unfold Iter.next
  by_cases h9 : p % 10 = 9
  · have e1 : (p + 1) / 10 = p / 10 + 1 := by omega
    have e2 : (p + 1) % 10 = 0 := by omega
    simp [h9, e1, e2]
  · have e1 : (p + 1) / 10 = p / 10 := by omega
    have e2 : (p + 1) % 10 = p % 10 + 1 := by omega
    simp [h9, e1, e2]

theorem Iter.ne_end (d : Deque) (hec : d.endCursor < 10) (p : Nat) :
    Iter.ne { p := p / 10, cursor := p % 10 } («end» d) = decide (p ≠ finPos d) := by
  unfold Iter.ne «end» finPos
  by_cases e : p = d.lastChunk * 10 + d.endCursor
  · have e1 : p / 10 = d.lastChunk := by omega
    have e2 : p % 10 = d.endCursor := by omega
    simp [e1, e2, e]
    rw [← e]
    exact ⟨e1, e2⟩
  · have : p / 10 ≠ d.lastChunk ∨ p % 10 ≠ d.endCursor := by omega
    rcases this with h1 | h1 <;> simp [e, h1]

theorem traverse_spec {α : Type} (d : Deque) (h : Heap α) (hec : d.endCursor < 10) :
    ∀ (vs : List α) (p : Nat), p + vs.length = finPos d →
      (∀ k, (hk : k < vs.length) → cellE d h (p + k) = .ok vs[k]) →
      ∀ fuel,
        (vs.length ≤ fuel →
          traverse d h fuel { p := p / 10, cursor := p % 10 } («end» d) = some (.ok vs)) ∧
        (fuel < vs.length →
          traverse d h fuel { p := p / 10, cursor := p % 10 } («end» d) = none)
  | [], p, hp, _, fuel => by
    have hne : Iter.ne { p := p / 10, cursor := p % 10 } («end» d) = false := by
      rw [Iter.ne_end d hec]; simp at hp ⊢; exact hp
    constructor
    · intro _
      cases fuel <;> simp [traverse, hne]
    · intro hlt
      simp at hlt
  | v :: vs, p, hp, hc, fuel => by
    have hne : Iter.ne { p := p / 10, cursor := p % 10 } («end» d) = true := by
      rw [Iter.ne_end d hec]; simp only [List.length_cons] at hp; simp; omega
    cases fuel with
    | zero =>
      constructor
      · intro hle; simp at hle
      · intro _; simp [traverse, hne]
    | succ fuel =>
      have h0 := hc 0 (by simp)
      simp only [Nat.add_zero, List.getElem_cons_zero] at h0
      have ih := traverse_spec d h hec vs (p + 1)
        (by simp only [List.length_cons] at hp; omega)
        (by
          intro k hk
          have := hc (k + 1) (by simp only [List.length_cons]; omega)
          simp only [List.getElem_cons_succ] at this
          rw [← this]
          congr 1
          omega) fuel
      constructor
      · intro hle
        have := ih.1 (by simp only [List.length_cons] at hle; omega)
        simp only [traverse, hne, if_true, Iter.deref_eq_cellE, h0, Iter.next_pos, this]
      · intro hlt
        have := ih.2 (by simp only [List.length_cons] at hlt; omega)
        simp only [traverse, hne, if_true, Iter.deref_eq_cellE, h0, Iter.next_pos, this]

/-- C8.  For every list, on the deque the initializer-list constructor builds
from it, the loop that starts at `begin()` and applies `operator++` while the
iterator differs from `end()` terminates after exactly as many advances as the
list has elements (it completes with that many units of fuel and with no
fewer), dereferences without fault, and the values it reads are the elements
of the list in order. -/
theorem C8_iteration {α : Type} (init : List α) (h0 : Heap α) :
    ∃ d h, mkInit init h0 = .ok (d, h) ∧
      (∀ fuel, init.length ≤ fuel →
        traverse d h fuel (begin d) («end» d) = some (.ok init)) ∧
      (∀ fuel, fuel < init.length → traverse d h fuel (begin d) («end» d) = none) := by
  obtain ⟨d, h, l, hm, hw, hb, hf, hc, -⟩ := mkInit_spec init h0
  have hsc := hw.sc
  have hbeg : begin d = { p := 4 / 10, cursor := 4 % 10 } := by
    simp only [begPos] at hb
    have e1 : d.firstChunk = 0 := by omega
    have e2 : d.startCursor = 4 := by omega
    simp [begin, e1, e2]
  have key := traverse_spec d h hw.ec init 4 (by omega) hc
  refine ⟨d, h, hm, ?_, ?_⟩
  · intro fuel hle
    rw [hbeg]
    exact (key fuel).1 hle
  · intro fuel hlt
    rw [hbeg]
    exact (key fuel).2 hlt

/-- C8 at a concrete input: the sixteen-element list `0, 1, ..., 15`, which
spans two chunks and ends on a chunk boundary. -/
theorem C8_iteration_witness :
    ∃ d h, mkInit (List.range 16) ([] : Heap Nat) = .ok (d, h) ∧
      (∀ fuel, (List.range 16).length ≤ fuel →
        traverse d h fuel (begin d) («end» d) = some (.ok (List.range 16))) ∧
      (∀ fuel, fuel < (List.range 16).length →
        traverse d h fuel (begin d) («end» d) = none) :=
  C8_iteration (List.range 16) []

theorem makeChunkLoop_spec {α : Type} (self other : Option (List Ptr)) (chunk da : Nat)
    (hdst : dirGet self chunk = .ok (Ptr.addr da)) :
    ∀ (n i : Nat) (h : Heap α) (dch : Chunk α), i + n ≤ 10 → h[da]? = some (some dch) →
      dch.length = 10 →
      (0 < n → ∃ sa sch, dirGet other chunk = .ok (Ptr.addr sa) ∧ sa ≠ da ∧
        h[sa]? = some (some sch) ∧ ∀ k, i ≤ k → k < i + n → ∃ v, sch[k]? = some (some v)) →
      ∃ h1 dch1, makeChunkLoop self other chunk n i h = .ok h1 ∧ h1.length = h.length ∧
        (∀ adr, adr ≠ da → h1[adr]? = h[adr]?) ∧ h1[da]? = some (some dch1) ∧
        dch1.length = 10 ∧
        (∀ k, k < i ∨ i + n ≤ k → dch1[k]? = dch[k]?) ∧
        (∀ sa sch, dirGet other chunk = .ok (Ptr.addr sa) → h[sa]? = some (some sch) →
          sa ≠ da → ∀ k, i ≤ k → k < i + n → dch1[k]? = sch[k]?)
  | 0, i, h, dch, _, hd, hlen, _ => by
    refine ⟨h, dch, rfl, rfl, fun _ _ => rfl, hd, hlen, fun _ _ => rfl, ?_⟩
    intro sa sch _ _ _ k h1 h2
    omega
  | n + 1, i, h, dch, hin, hd, hlen, hsrc => by
    obtain ⟨sa, sch, hsa, hne, hhs, hel⟩ := hsrc (by omega)
    obtain ⟨v, hv⟩ := hel i (le_refl _) (by omega)
    have hda := heap_lt_of_get hd
    have hset : (h.set da (some (dch.set i (some v))))[da]? = some (some (dch.set i (some v))) := by
      simp [hda]
    have hother : ∀ adr, adr ≠ da → (h.set da (some (dch.set i (some v))))[adr]? = h[adr]? := by
      intro adr hadr
      exact List.getElem?_set_ne (Ne.symm hadr)
    obtain ⟨h1, dch1, hrun, hlen1, hoth1, hd1, hl1, hout1, hin1⟩ :=
      makeChunkLoop_spec self other chunk da hdst n (i + 1) _ (dch.set i (some v))
        (by omega) hset (by simp [hlen])
        (fun _ => ⟨sa, sch, hsa, hne, by rw [hother sa hne]; exact hhs,
          fun k hk1 hk2 => hel k (by omega) (by omega)⟩)
    refine ⟨h1, dch1, ?_, by rw [hlen1]; simp, ?_, hd1, hl1, ?_, ?_⟩
    · rw [makeChunkLoop, hsa]
      simp only []
      rw [readElem_addr hhs hv]
      simp only []
      rw [hdst]
      simp only []
      rw [construct_addr v hd (by omega)]
      exact hrun
    · intro adr hadr
      rw [hoth1 adr hadr, hother adr hadr]
    · intro k hk
      rw [hout1 k (by omega)]
      exact List.getElem?_set_ne (by omega)
    · intro sa1 sch1 hsa1 hhs1 hne1 k hk1 hk2
      rw [hsa] at hsa1
      cases hsa1
      rw [hhs] at hhs1
      cases hhs1
      by_cases hki : k = i
      · subst hki
        rw [hout1 k (by omega), hv]
        exact List.getElem?_set_self (by omega)
      · exact hin1 sa sch hsa (by rw [hother sa hne]; exact hhs) hne k (by omega) (by omega)

theorem Copied.slot_lt {α : Type} {a : Deque} {h0 h : Heap α} {i : Nat} {lq : List Ptr}
    (hc : Copied a h0 i lq h) (j adr : Nat) (hj : j < i) (hl : lq[j]? = some (Ptr.addr adr)) :
    adr < h.length := by
  by_cases hr : a.firstChunk ≤ j ∧ j ≤ a.lastChunk
  · obtain ⟨adr1, ch, hl1, -, hh, -⟩ := hc.chunk j hj hr.1 hr.2
    rw [hl] at hl1
    cases hl1
    exact heap_lt_of_get hh
  · have := hc.null j hj (by omega)
    rw [hl] at this
    cases this

theorem copy_null_step {α : Type} {a : Deque} {h0 h : Heap α} {i : Nat} {lq : List Ptr}
    (hc : Copied a h0 i lq h) (hi : i < lq.length)
    (hout : i < a.firstChunk ∨ a.lastChunk < i) :
    Copied a h0 (i + 1) (lq.set i Ptr.null) h := by
  refine ⟨by simp [hc.len], hc.ext, hc.old, ?_, ?_, ?_⟩
  · intro j hj ho
    by_cases e : j = i
    · subst e
      exact List.getElem?_set_self hi
    · rw [List.getElem?_set_ne (Ne.symm e)]
      exact hc.null j (by omega) ho
  · intro j hj h1 h2
    have e : j ≠ i := by omega
    rw [List.getElem?_set_ne (Ne.symm e)]
    exact hc.chunk j (by omega) h1 h2
  · intro j j1 adr hj hj1 hl hl1
    have e : j ≠ i := by
      intro e; subst e
      rw [List.getElem?_set_self hi] at hl
      cases hl
    have e1 : j1 ≠ i := by
      intro e; subst e
      rw [List.getElem?_set_self hi] at hl1
      cases hl1
    rw [List.getElem?_set_ne (Ne.symm e)] at hl
    rw [List.getElem?_set_ne (Ne.symm e1)] at hl1
    exact hc.inj j j1 adr (by omega) (by omega) hl hl1

theorem copy_chunk_step {α : Type} {a : Deque} {h0 h : Heap α} {la : List Ptr} {i : Nat}
    {lq : List Ptr} (hw : WF a h0 la) (hc : Copied a h0 i lq h) (hi : i < lq.length)
    (hin1 : a.firstChunk ≤ i) (hin2 : i ≤ a.lastChunk) (lB uB : Nat) (hlB : lB ≤ 10)
    (huB : uB ≤ 10)
    (hchar : ∀ k, k < 10 → ((lB ≤ k ∧ k < uB) ↔ (begPos a ≤ i * 10 + k ∧ i * 10 + k < finPos a))) :
    ∃ h2, makeChunk { a with theDeque := some (lq.set i (Ptr.addr h.length)) } i lB uB a
        (h ++ [some (List.replicate chunkSize none)]) = .ok h2 ∧
      Copied a h0 (i + 1) (lq.set i (Ptr.addr h.length)) h2 := by
  have hext := hc.ext
  have hblk : (h ++ [some (List.replicate chunkSize none)] : Heap α)[h.length]?
      = some (some (List.replicate chunkSize none)) := List.getElem?_concat_length _ _
  have hdst : dirGet (some (lq.set i (Ptr.addr h.length))) i = .ok (Ptr.addr h.length) :=
    dirGet_some (List.getElem?_set_self hi)
  have happ : ∀ adr, adr < h.length →
      (h ++ [some (List.replicate chunkSize none)] : Heap α)[adr]? = h[adr]? := by
    intro adr hadr
    exact List.getElem?_append_left hadr
  have hsrc : 0 < uB - lB → ∃ sa sch, la[i]? = some (Ptr.addr sa) ∧ sa < h0.length ∧
      h0[sa]? = some (some sch) ∧
      ∀ k, k < 10 → begPos a ≤ i * 10 + k → i * 10 + k < finPos a →
        ∃ v, sch[k]? = some (some v) := by
    intro hpos
    have hk := (hchar lB (by omega)).1 ⟨le_refl _, by omega⟩
    have hlive : Live a i := ⟨hin1, by omega⟩
    obtain ⟨sa, sch, hl, hh, -, hel⟩ := hw.live i hlive
    exact ⟨sa, sch, hl, heap_lt_of_get hh, hh, hel⟩
  obtain ⟨h2, dch1, hrun, hlen2, hoth2, hd2, hl2, -, hin2'⟩ :=
    makeChunkLoop_spec (some (lq.set i (Ptr.addr h.length))) a.theDeque i h.length hdst
      (uB - lB) lB (h ++ [some (List.replicate chunkSize none)])
      (List.replicate chunkSize none) (by omega) hblk (by simp [chunkSize])
      (by
        intro hpos
        obtain ⟨sa, sch, hl, hlt, hh, hel⟩ := hsrc hpos
        refine ⟨sa, sch, by rw [hw.dir]; exact dirGet_some hl, by omega, ?_, ?_⟩
        · rw [happ sa (by omega), hc.old sa hlt]; exact hh
        · intro k hk1 hk2
          have hk10 : k < 10 := by omega
          have := (hchar k hk10).1 ⟨hk1, by omega⟩
          exact hel k hk10 this.1 this.2)
  refine ⟨h2, hrun, ?_⟩
  have hold : ∀ adr, adr < h.length → h2[adr]? = h[adr]? := by
    intro adr hadr
    rw [hoth2 adr (by omega), happ adr hadr]
  refine ⟨by simp [hc.len], by rw [hlen2]; simp; omega, ?_, ?_, ?_, ?_⟩
  · intro adr hadr
    rw [hold adr (by omega)]
    exact hc.old adr hadr
  · intro j hj ho
    have e : j ≠ i := by omega
    rw [List.getElem?_set_ne (Ne.symm e)]
    exact hc.null j (by omega) ho
  · intro j hj h1 h2'
    by_cases e : j = i
    · subst e
      refine ⟨h.length, dch1, List.getElem?_set_self hi, hext, hd2, hl2, ?_⟩
      intro k hk hb hf
      have hrange := (hchar k hk).2 ⟨hb, hf⟩
      obtain ⟨sa, sch, hl, hlt, hh, hel⟩ := hsrc (by omega)
      obtain ⟨v, hv⟩ := hel k hk hb hf
      refine ⟨v, ?_, ?_⟩
      · rw [hin2' sa sch (by rw [hw.dir]; exact dirGet_some hl)
          (by rw [happ sa (by omega), hc.old sa hlt]; exact hh) (by omega) k hrange.1 (by omega)]
        exact hv
      · have e1 : (j * 10 + k) / 10 = j := by omega
        have e2 : (j * 10 + k) % 10 = k := by omega
        simp only [cellE, hw.dir, e1, e2, dirGet_some hl]
        exact readElem_addr hh hv
    · rw [List.getElem?_set_ne (Ne.symm e)]
      obtain ⟨adr, ch, hl, hge, hh, hlen, hel⟩ := hc.chunk j (by omega) h1 h2'
      exact ⟨adr, ch, hl, hge, by rw [hold adr (heap_lt_of_get hh)]; exact hh, hlen, hel⟩
  · intro j j1 adr hj hj1 hl hl1
    by_cases e : j = i
    · by_cases e1 : j1 = i
      · omega
      · exfalso
        subst e
        rw [List.getElem?_set_self hi] at hl
        cases hl
        rw [List.getElem?_set_ne (Ne.symm e1)] at hl1
        have := hc.slot_lt j1 _ (by omega) hl1
        omega
    · by_cases e1 : j1 = i
      · exfalso
        subst e1
        rw [List.getElem?_set_self hi] at hl1
        cases hl1
        rw [List.getElem?_set_ne (Ne.symm e)] at hl
        have := hc.slot_lt j _ (by omega) hl
        omega
      · rw [List.getElem?_set_ne (Ne.symm e)] at hl
        rw [List.getElem?_set_ne (Ne.symm e1)] at hl1
        exact hc.inj j j1 adr (by omega) (by omega) hl hl1

theorem copyLoop_spec {α : Type} {a : Deque} {h0 : Heap α} {la : List Ptr} (hw : WF a h0 la) :
    ∀ (n i : Nat) (lq : List Ptr) (h : Heap α), i + n = a.cap → Copied a h0 i lq h →
      ∃ lq1 h1, copyLoop a n i { a with theDeque := some lq } h
          = .ok ({ a with theDeque := some lq1 }, h1) ∧
        Copied a h0 a.cap lq1 h1
  | 0, i, lq, h, hi, hc => by
    have e : i = a.cap := by omega
    subst e
    exact ⟨lq, h, rfl, hc⟩
  | n + 1, i, lq, h, hi, hc => by
    have hsc := hw.sc
    have hec := hw.ec
    have hle := hw.le
    have hlt : i < lq.length := by rw [hc.len]; omega
    rw [copyLoop]
    by_cases hout : i < a.firstChunk ∨ i > a.lastChunk
    · obtain ⟨lq1, h1, hrun, hc1⟩ := copyLoop_spec hw n (i + 1) _ h (by omega)
        (copy_null_step hc hlt hout)
      refine ⟨lq1, h1, ?_, hc1⟩
      simp only [hout, if_true, dirSet_some _ hlt]
      exact hrun
    · have hin1 : a.firstChunk ≤ i := by omega
      have hin2 : i ≤ a.lastChunk := by omega
      simp only [hout, if_false, allocChunk, dirSet_some _ hlt]
      simp only [begPos, finPos] at hle
      by_cases c1 : i = a.firstChunk ∧ i = a.lastChunk
      · obtain ⟨h2, hm, hc2⟩ := copy_chunk_step hw hc hlt hin1 hin2 a.startCursor a.endCursor
          (by omega) (by omega) (by
            intro k hk
            simp only [begPos, finPos]
            omega)
        obtain ⟨lq1, h1, hrun, hc1⟩ := copyLoop_spec hw n (i + 1) _ h2 (by omega) hc2
        refine ⟨lq1, h1, ?_, hc1⟩
        rw [if_pos c1, hm]
        exact hrun
      · by_cases c2 : i = a.firstChunk
        · obtain ⟨h2, hm, hc2⟩ := copy_chunk_step hw hc hlt hin1 hin2 a.startCursor 10
            (by omega) (by omega) (by
              intro k hk
              simp only [begPos, finPos]
              omega)
          obtain ⟨lq1, h1, hrun, hc1⟩ := copyLoop_spec hw n (i + 1) _ h2 (by omega) hc2
          refine ⟨lq1, h1, ?_, hc1⟩
          rw [if_neg c1, if_pos c2, hm]
          exact hrun
        · by_cases c3 : i = a.lastChunk
          · obtain ⟨h2, hm, hc2⟩ := copy_chunk_step hw hc hlt hin1 hin2 0 a.endCursor
              (by omega) (by omega) (by
                intro k hk
                simp only [begPos, finPos]
                omega)
            obtain ⟨lq1, h1, hrun, hc1⟩ := copyLoop_spec hw n (i + 1) _ h2 (by omega) hc2
            refine ⟨lq1, h1, ?_, hc1⟩
            rw [if_neg c1, if_neg c2, if_pos c3, hm]
            exact hrun
          · obtain ⟨h2, hm, hc2⟩ := copy_chunk_step hw hc hlt hin1 hin2 0 10
              (by omega) (by omega) (by
                intro k hk
                simp only [begPos, finPos]
                omega)
            obtain ⟨lq1, h1, hrun, hc1⟩ := copyLoop_spec hw n (i + 1) _ h2 (by omega) hc2
            refine ⟨lq1, h1, ?_, hc1⟩
            rw [if_neg c1, if_neg c2, if_neg c3, hm]
            exact hrun

theorem copyCtor_spec {α : Type} {a : Deque} {h0 : Heap α} {la : List Ptr} (hw : WF a h0 la) :
    ∃ lb h1, copyCtor a h0 = .ok ({ a with theDeque := some lb }, h1) ∧
      Copied a h0 a.cap lb h1 := by
  have hinit : Copied a h0 0 (List.replicate a.cap Ptr.wild) h0 := by
    refine ⟨by simp, le_refl _, fun _ _ => rfl, ?_, ?_, ?_⟩
    · intro j hj; omega
    · intro j hj; omega
    · intro j j1 adr hj; omega
  obtain ⟨lq1, h1, hrun, hc1⟩ := copyLoop_spec hw a.cap 0 _ h0 (by omega) hinit
  refine ⟨lq1, h1, ?_, hc1⟩
  unfold copyCtor copyDeque
  simp only [hw.dir]
  exact hrun

theorem WF.heap_agree {α : Type} {d : Deque} {h h1 : Heap α} {l : List Ptr} (hw : WF d h l)
    (hag : ∀ adr, Owns d l adr → h1[adr]? = h[adr]?) :
    WF d h1 l ∧ ∀ p, begPos d ≤ p → p < finPos d → cellE d h1 p = cellE d h p := by
  constructor
  · refine ⟨hw.dir, hw.len, hw.capPos, hw.sc, hw.ec, hw.le, hw.fit, ?_, hw.inj⟩
    intro c hc
    obtain ⟨a, ch, hl, hh, hlen, hel⟩ := hw.live c hc
    exact ⟨a, ch, hl, by rw [hag a ⟨c, hc, hl⟩]; exact hh, hlen, hel⟩
  · intro p hp1 hp2
    have hsc := hw.sc
    have hc : Live d (p / 10) := by
      simp only [Live, begPos, finPos] at hp1 hp2 ⊢; omega
    obtain ⟨a, ch, hl, hh, -, -⟩ := hw.live _ hc
    simp only [cellE, hw.dir, dirGet_some hl]
    exact readElem_congr _ (hag a ⟨_, hc, hl⟩)

theorem WF.owns_lt {α : Type} {d : Deque} {h : Heap α} {l : List Ptr} (hw : WF d h l)
    (adr : Nat) (ho : Owns d l adr) : adr < h.length := by
  obtain ⟨c, hc, hl⟩ := ho
  obtain ⟨a, ch, hl1, hh, -, -⟩ := hw.live c hc
  rw [hl] at hl1
  cases hl1
  exact heap_lt_of_get hh

theorem at_congr {α : Type} {d : Deque} {h h1 : Heap α} (hsc : d.startCursor < 10)
    (hle : begPos d ≤ finPos d)
    (hcell : ∀ p, begPos d ≤ p → p < finPos d → cellE d h1 p = cellE d h p) (i : Nat) :
    «at» d h1 i = «at» d h i := by
  by_cases hi : i < size d
  · rw [at_eq_cellE d h1 i hsc hi, at_eq_cellE d h i hsc hi]
    rw [size_eq hle] at hi
    exact hcell _ (by omega) (by omega)
  · unfold «at»
    rw [if_pos (by omega), if_pos (by omega)]

theorem Frame.none {α : Type} (d : Deque) (l : List Ptr) (h : Heap α) : Frame d l h d l h :=
  ⟨le_refl _, fun _ _ _ => rfl, fun _ ha => Or.inl ha⟩

theorem applyOp_frame {α : Type} {o : Op α} {d d1 : Deque} {h h1 : Heap α} {l : List Ptr}
    (hw : WF d h l) (hr : applyOp o d h = .ok (d1, h1)) :
    ∃ l1, WF d1 h1 l1 ∧ Frame d l h d1 l1 h1 := by
  cases o with
  | pushBack x =>
    simp only [applyOp] at hr
    by_cases hsafe : d.lastChunk = d.cap → begPos d < finPos d
    · obtain ⟨d3, h3, l3, hp, hw3, -, -, -, hfr⟩ := push_back_spec hw x hsafe
      rw [hp] at hr
      cases hr
      exact ⟨l3, hw3, hfr⟩
    · have hle := hw.le
      have hcap : d.lastChunk = d.cap := by
        by_contra hc; exact hsafe (fun e => absurd e hc)
      have hemp : begPos d = finPos d := by
        by_contra hc; exact hsafe (fun _ => by omega)
      rw [push_back_fault hw x hcap hemp] at hr
      cases hr
  | pushFront x =>
    simp only [applyOp] at hr
    obtain ⟨d3, h3, l3, hp, hw3, -, -, -, hfr⟩ := push_front_spec hw x
    rw [hp] at hr
    cases hr
    exact ⟨l3, hw3, hfr⟩
  | popBack =>
    simp only [applyOp] at hr
    by_cases he : size d = 0
    · rw [pop_back_empty d h he] at hr
      cases hr
      exact ⟨l, hw, Frame.none _ _ _⟩
    · obtain ⟨d3, h3, hp, hw3, -, -, hfr⟩ := pop_back_ok hw he
      rw [hp] at hr
      cases hr
      exact ⟨l, hw3, hfr⟩
  | popFront =>
    simp only [applyOp] at hr
    by_cases he : size d = 0
    · rw [pop_front_empty d h he] at hr
      cases hr
      exact ⟨l, hw, Frame.none _ _ _⟩
    · obtain ⟨d3, h3, hp, hw3, -, -, hfr⟩ := pop_front_ok hw he
      rw [hp] at hr
      cases hr
      exact ⟨l, hw3, hfr⟩

theorem Sep.step {α : Type} {a a1 b : Deque} {la lb : List Ptr} {h h1 : Heap α} {o : Op α}
    (hs : Sep a la b lb h) (hr : applyOp o a h = .ok (a1, h1)) :
    ∃ la1, Sep a1 la1 b lb h1 ∧ ∀ i, «at» b h1 i = «at» b h i := by
  obtain ⟨la1, hw1, hlen, hkeep, hown⟩ := applyOp_frame hs.wfa hr
  have hag : ∀ adr, Owns b lb adr → h1[adr]? = h[adr]? := by
    intro adr ho
    exact hkeep adr (hs.wfb.owns_lt adr ho) (fun hoa => hs.disj adr hoa ho)
  obtain ⟨hwb1, hcell⟩ := hs.wfb.heap_agree hag
  refine ⟨la1, ⟨hw1, hwb1, ?_⟩, at_congr hs.wfb.sc hs.wfb.le hcell⟩
  intro adr ho1 hob
  rcases hown adr ho1 with h2 | h2
  · exact hs.disj adr h2 hob
  · have := hs.wfb.owns_lt adr hob
    omega

theorem Sep.symm {α : Type} {a b : Deque} {la lb : List Ptr} {h : Heap α}
    (hs : Sep a la b lb h) : Sep b lb a la h :=
  ⟨hs.wfb, hs.wfa, fun adr hb ha => hs.disj adr ha hb⟩

theorem Sep.run {α : Type} {b : Deque} {lb : List Ptr} :
    ∀ (os : List (Op α)) (a : Deque) (la : List Ptr) (h : Heap α) (a1 : Deque) (h1 : Heap α),
      Sep a la b lb h → runOps os a h = .ok (a1, h1) →
      (∃ la1, Sep a1 la1 b lb h1) ∧ ∀ i, «at» b h1 i = «at» b h i
  | [], a, la, h, a1, h1, hs, hr => by
    simp only [runOps] at hr
    cases hr
    exact ⟨⟨la, hs⟩, fun _ => rfl⟩
  | o :: os, a, la, h, a1, h1, hs, hr => by
    simp only [runOps] at hr
    cases hst : applyOp o a h with
    | error e => rw [hst] at hr; cases hr
    | ok r =>
      obtain ⟨a2, h2⟩ := r
      rw [hst] at hr
      obtain ⟨la2, hs2, hat2⟩ := hs.step hst
      obtain ⟨hs3, hat3⟩ := Sep.run os a2 la2 h2 a1 h1 hs2 hr
      exact ⟨hs3, fun i => by rw [hat3 i, hat2 i]⟩

theorem Copied.sep {α : Type} {a : Deque} {h0 h1 : Heap α} {la lb : List Ptr}
    (hw : WF a h0 la) (hc : Copied a h0 a.cap lb h1) :
    Sep a la { a with theDeque := some lb } lb h1 ∧
      (∀ p, begPos a ≤ p → p < finPos a →
        cellE { a with theDeque := some lb } h1 p = cellE a h0 p) ∧
      (∀ p, begPos a ≤ p → p < finPos a → cellE a h1 p = cellE a h0 p) := by
  have hsc := hw.sc
  have hec := hw.ec
  have hfit := hw.fit
  have hag : ∀ adr, Owns a la adr → h1[adr]? = h0[adr]? :=
    fun adr ho => hc.old adr (hw.owns_lt adr ho)
  obtain ⟨hwa1, hcella⟩ := hw.heap_agree hag
  have hrange : ∀ c, Live a c → c < a.cap ∧ a.firstChunk ≤ c ∧ c ≤ a.lastChunk := by
    intro c hl
    simp only [Live, finPos] at hl hfit
    omega
  have hwb : WF { a with theDeque := some lb } h1 lb := by
    refine ⟨rfl, hc.len, hw.capPos, hw.sc, hw.ec, hw.le, hw.fit, ?_, ?_⟩
    · intro c hl
      have hl0 : Live a c := hl
      obtain ⟨r1, r2, r3⟩ := hrange c hl0
      obtain ⟨adr, ch, hs, -, hh, hlen, hel⟩ := hc.chunk c r1 r2 r3
      refine ⟨adr, ch, hs, hh, hlen, ?_⟩
      intro k hk hb hf
      obtain ⟨v, hv, -⟩ := hel k hk hb hf
      exact ⟨v, hv⟩
    · intro c c1 adr hl hl1 hs hs1
      have hl0 : Live a c := hl
      have hl10 : Live a c1 := hl1
      exact hc.inj c c1 adr (hrange c hl0).1 (hrange c1 hl10).1 hs hs1
  refine ⟨⟨hwa1, hwb, ?_⟩, ?_, hcella⟩
  · intro adr hoa hob
    have h1' := hw.owns_lt adr hoa
    obtain ⟨c, hl, hs⟩ := hob
    have hl0 : Live a c := hl
    obtain ⟨r1, r2, r3⟩ := hrange c hl0
    obtain ⟨adr1, ch, hs1, hge, -⟩ := hc.chunk c r1 r2 r3
    rw [hs] at hs1
    cases hs1
    omega
  · intro p hp1 hp2
    have hl0 : Live a (p / 10) := by
      simp only [Live, begPos, finPos] at hp1 hp2 ⊢; omega
    obtain ⟨r1, r2, r3⟩ := hrange _ hl0
    obtain ⟨adr, ch, hs, -, hh, -, hel⟩ := hc.chunk _ r1 r2 r3
    obtain ⟨v, hv, hcv⟩ := hel (p % 10) (by omega) (by omega) (by omega)
    have e : p / 10 * 10 + p % 10 = p := by omega
    rw [e] at hcv
    rw [hcv]
    simp only [cellE, dirGet_some hs]
    exact readElem_addr hh hv

/-- Correctness of the copy constructor.  For every deque `a` reachable from
the default or the initializer-list constructor by push and pop operations, the
copy constructor completes and yields a deque `b` with the size of `a` and, at
every valid index, the element `a` has there (and `a` still has there); the
directory of `b` is null in every slot below `firstChunk` or above `lastChunk`
and holds, in every slot from `firstChunk` to `lastChunk`, a block allocated by
the copy itself, while no block that existed before is modified.  Every later
sequence of pushes and pops that completes on `a` leaves every `at(i)` of `b`
unchanged, and every such sequence on `b` leaves every `at(i)` of `a`
unchanged. -/
theorem copyCtor_independent {α : Type} (a : Deque) (h : Heap α) (hr : Reachable a h) :
    ∃ b h1 lb, copyCtor a h = .ok (b, h1) ∧
      size b = size a ∧
      (∀ i, i < size a → ∃ v, «at» a h i = .ok v ∧ «at» b h1 i = .ok v ∧ «at» a h1 i = .ok v) ∧
      b.theDeque = some lb ∧ lb.length = b.cap ∧
      (∀ j, j < b.cap → (j < b.firstChunk ∨ b.lastChunk < j) → lb[j]? = some Ptr.null) ∧
      (∀ j, j < b.cap → b.firstChunk ≤ j → j ≤ b.lastChunk →
        ∃ adr, lb[j]? = some (Ptr.addr adr) ∧ h.length ≤ adr ∧ adr < h1.length) ∧
      (∀ adr, adr < h.length → h1[adr]? = h[adr]?) ∧
      (∀ ops a1 h2, runOps ops a h1 = .ok (a1, h2) → ∀ i, «at» b h2 i = «at» b h1 i) ∧
      (∀ ops b1 h2, runOps ops b h1 = .ok (b1, h2) → ∀ i, «at» a h2 i = «at» a h1 i) := by
  obtain ⟨la, hw⟩ := hr.inv
  obtain ⟨lb, h1, hcopy, hc⟩ := copyCtor_spec hw
  obtain ⟨hsep, hcellb, hcella⟩ := hc.sep hw
  have hle := hw.le
  refine ⟨{ a with theDeque := some lb }, h1, lb, hcopy, rfl, ?_, rfl, hc.len, ?_, ?_, hc.old,
    ?_, ?_⟩
  · intro i hi
    obtain ⟨v, hv⟩ := at_ok hw i hi
    have hi2 := hi
    rw [size_eq hle] at hi2
    refine ⟨v, hv, ?_, ?_⟩
    · rw [← hv, at_eq_cellE a h i hw.sc hi]
      have hib : i < size { a with theDeque := some lb } := hi
      rw [at_eq_cellE { a with theDeque := some lb } h1 i hw.sc hib]
      have hbb : begPos { a with theDeque := some lb } = begPos a := rfl
      rw [hbb]
      exact hcellb _ (by omega) (by omega)
    · rw [← hv, at_eq_cellE a h i hw.sc hi, at_eq_cellE a h1 i hw.sc hi]
      exact hcella _ (by omega) (by omega)
  · intro j hj ho
    exact hc.null j hj ho
  · intro j hj h1' h2'
    obtain ⟨adr, ch, hs, hge, hh, -⟩ := hc.chunk j hj h1' h2'
    exact ⟨adr, hs, hge, heap_lt_of_get hh⟩
  · intro ops a1 h2 hrun i
    exact (Sep.run ops a la h1 a1 h2 hsep hrun).2 i
  · intro ops b1 h2 hrun i
    exact (Sep.run ops _ lb h1 b1 h2 hsep.symm hrun).2 i

theorem boundary_reachable : Reachable boundaryDeque boundaryHeap :=
  runOps_reachable (List.replicate 6 (Op.pushBack 0) ++ List.replicate 6 Op.popFront)
    emptyDeque emptyHeap boundaryDeque boundaryHeap empty_reachable (by rfl)

theorem wide_reachable : Reachable wideDeque wideHeap :=
  runOps_reachable (List.replicate 36 (Op.pushBack 0) ++ List.replicate 26 Op.popFront)
    emptyDeque emptyHeap wideDeque wideHeap empty_reachable (by rfl)

theorem six_reachable : Reachable sixDeque sixHeap :=
  Reachable.init [1, 2, 3, 4, 5, 6] [] _ _ (by rfl)

theorem stale_reachable : Reachable staleDeque staleHeap :=
  runOps_reachable
    (List.replicate 7 (Op.pushBack 0) ++ [Op.popBack, Op.popBack, Op.pushBack 1])
    emptyDeque emptyHeap staleDeque staleHeap empty_reachable (by rfl)

/-- The statement `b = a` completes whenever the copy of `a` and the
destruction of the old state of `b` complete; `b` is then the copy. -/
theorem copyAssign_ok {α : Type} (b a tmp : Deque) (h h1 h2 : Heap α)
    (hc : copyCtor a h = .ok (tmp, h1)) (hd : destructor b h1 = .ok h2) :
    copyAssign b a h = .ok (tmp, h2) := by
  have hb : destructor
      { firstChunk := b.firstChunk, startCursor := b.startCursor, lastChunk := b.lastChunk,
        endCursor := b.endCursor, cap := b.cap, theDeque := b.theDeque } h1 = .ok h2 := hd
  simp only [copyAssign, hc, assign, hb]

/-- The source of a move is the copy constructor's argument: the source after
`deque<T> b(std::move(a))` is `a` itself, and the new deque and heap are those
the copy constructor gives. -/
theorem moveConstruct_source {α : Type} (a b a1 : Deque) (h h1 : Heap α)
    (hm : moveConstruct a h = .ok (b, a1, h1)) :
    a1 = a ∧ copyCtor a h = .ok (b, h1) := by
  unfold moveConstruct at hm
  split at hm
  · cases hm
  · rename_i b0 h0 hc
    cases hm
    exact ⟨rfl, hc⟩

/-- For every reachable deque `a`, `deque<T> b(std::move(a))` completes, leaves
`a` as it was and gives `b` the size of `a`. -/
theorem moveConstruct_ok {α : Type} (a : Deque) (h : Heap α) (hr : Reachable a h) :
    ∃ b h1, moveConstruct a h = .ok (b, a, h1) ∧ size b = size a ∧
      ∀ i, i < size a → ∃ v, «at» a h1 i = .ok v ∧ «at» b h1 i = .ok v := by
  obtain ⟨b, h1, lb, hc, hs, hat, -⟩ := copyCtor_independent a h hr
  refine ⟨b, h1, ?_, hs, ?_⟩
  · simp only [moveConstruct, hc]
  · intro i hi
    obtain ⟨v, -, hb, ha⟩ := hat i hi
    exact ⟨v, ha, hb⟩

/-- C10.  Two reachable inputs on which copying does not give independent
deques because an operation faults.  (1) `staleDeque`, reached from a
default-constructed deque by seven `push_back(0)`, two `pop_back` and one
`push_back(1)`, is the target `b`; `a` is built from `[1, 2]` in the same heap.
The copy of `a` that initialises the parameter of `operator=` completes, but
`b = a` faults: on return the parameter holds the old members of `b`, and its
destructor frees the chunk at `lastChunk` a second time.  Assigning `a` to a
freshly default-constructed deque instead completes and yields a deque of size
2 with the elements 1 and 2.  (2) `boundaryDeque`, reached by six
`push_back(0)` and six `pop_front`, is the source `a`: the copy constructor
completes and gives an empty `b`, and then `push_back(7)` on `a` faults, and
so does `push_back(7)` on `b`. -/
theorem C10_assign_and_push_fault :
    (Reachable staleDeque staleHeap ∧
      ∃ a h, mkInit [1, 2] staleHeap = .ok (a, h) ∧ Reachable a h ∧
        (∃ tmp h1, copyCtor a h = .ok (tmp, h1)) ∧
        copyAssign staleDeque a h = .error Err.fault ∧
        ∃ t ht b1 h2, mkDefault h = .ok (t, ht) ∧ copyAssign t a ht = .ok (b1, h2) ∧
          size b1 = 2 ∧ «at» b1 h2 0 = .ok 1 ∧ «at» b1 h2 1 = .ok 2) ∧
    (Reachable boundaryDeque boundaryHeap ∧
      ∃ b h1, copyCtor boundaryDeque boundaryHeap = .ok (b, h1) ∧ size b = 0 ∧
        applyOp (Op.pushBack 7) boundaryDeque h1 = .error Err.fault ∧
        applyOp (Op.pushBack 7) b h1 = .error Err.fault) :=
  ⟨⟨runOps_reachable
      (List.replicate 7 (Op.pushBack 0) ++ [Op.popBack, Op.popBack, Op.pushBack 1])
      emptyDeque emptyHeap staleDeque staleHeap empty_reachable (by rfl),
    _, _, rfl, Reachable.init [1, 2] staleHeap _ _ (by rfl), ⟨_, _, rfl⟩, rfl,
    _, _, _, _, rfl, rfl, rfl, rfl, rfl⟩,
   ⟨runOps_reachable (List.replicate 6 (Op.pushBack 0) ++ List.replicate 6 Op.popFront)
      emptyDeque emptyHeap boundaryDeque boundaryHeap empty_reachable (by rfl),
    _, _, rfl, rfl, rfl, rfl⟩⟩

/-- C11.  With `a` built from `[1, 2]` (`sampleDeque`), `deque<int>
b(std::move(a))` runs the copy constructor: it completes, `b` has size 2, and
the source after the statement is `a` unchanged, so `a.empty()` is false,
`a.size()` is 2, `a.at(0)` is 1 and `a.at(1)` is 2, and the destructor of `a`
completes.  The same holds for `b = std::move(a)` with a default-constructed
`b`: the statement completes, `b` has size 2 and `a` is unchanged and not
empty. -/
theorem C11_move_source_not_empty :
    Reachable sampleDeque sampleHeap ∧
    (∃ b a1 h1, moveConstruct sampleDeque sampleHeap = .ok (b, a1, h1) ∧
      a1 = sampleDeque ∧ size b = 2 ∧ empty a1 = false ∧ size a1 = 2 ∧
      «at» a1 h1 0 = .ok 1 ∧ «at» a1 h1 1 = .ok 2 ∧
      ∃ h2, destructor a1 h1 = .ok h2) ∧
    (∃ t ht b1 a1 h2, mkDefault sampleHeap = .ok (t, ht) ∧
      moveAssign t sampleDeque ht = .ok (b1, a1, h2) ∧
      a1 = sampleDeque ∧ size b1 = 2 ∧ empty a1 = false ∧ size a1 = 2 ∧
      «at» a1 h2 0 = .ok 1 ∧ «at» a1 h2 1 = .ok 2) :=
  ⟨Reachable.init [1, 2] [] _ _ (by rfl),
   ⟨_, _, _, rfl, rfl, rfl, rfl, rfl, rfl, rfl, _, rfl⟩,
   ⟨_, _, _, _, _, rfl, rfl, rfl, rfl, rfl, rfl, rfl, rfl⟩⟩

/-- C12.  Starting from a default-constructed deque: after `push_back(1)`, ...,
`push_back(25)` the size is 25, `at(0)` is 1 and `at(24)` is 25; after five
further `pop_front()` the size is 20 and `at(0)` is 6; after a further
`push_front(0)`, `at(0)` is 0 and the size is 21. -/
theorem C12_scenario :
    ∃ d0 h0 d1 h1 d2 h2 d3 h3,
      mkDefault ([] : Heap Nat) = .ok (d0, h0) ∧
      runOps ((List.range' 1 25).map Op.pushBack) d0 h0 = .ok (d1, h1) ∧
      size d1 = 25 ∧ «at» d1 h1 0 = .ok 1 ∧ «at» d1 h1 24 = .ok 25 ∧
      runOps (List.replicate 5 Op.popFront) d1 h1 = .ok (d2, h2) ∧
      size d2 = 20 ∧ «at» d2 h2 0 = .ok 6 ∧
      push_front 0 d2 h2 = .ok (d3, h3) ∧
      «at» d3 h3 0 = .ok 0 ∧ size d3 = 21 :=
  ⟨_, _, _, _, _, _, _, _, rfl, rfl, rfl, rfl, rfl, rfl, rfl, rfl, rfl, rfl, rfl⟩

/-- C14 (failing input).  In the reachable, empty state with
`firstChunk = lastChunk = cap = 1`, the first directory slot that `grow("back")`
reads, `theDeque[firstChunk + 0]`, has index 1 in a directory of length 1: the
index is not below `cap`, the read is out of bounds and `grow`, and with it
`push_back`, does not complete. -/
theorem C14_grow_reads_past_directory :
    Reachable boundaryDeque boundaryHeap ∧ empty boundaryDeque = true ∧
      boundaryDeque.lastChunk = boundaryDeque.cap ∧ currentSize boundaryDeque = 1 ∧
      boundaryDeque.theDeque = some [Ptr.addr 0] ∧
      ¬ (boundaryDeque.firstChunk + 0 < boundaryDeque.cap) ∧
      dirGet boundaryDeque.theDeque (boundaryDeque.firstChunk + 0) = .error Err.fault ∧
      grow "back" boundaryDeque = .error Err.fault ∧
      push_back 7 boundaryDeque boundaryHeap = .error Err.fault :=
  ⟨boundary_reachable, rfl, rfl, rfl, rfl, by decide, rfl, rfl, rfl⟩

/-- C15 (counterexample).  The deque built by the initializer-list constructor
from a six-element list has `lastChunk = cap = 1`, and so has a
default-constructed deque after six `push_back`: `cap` is not strictly greater
than `lastChunk`. -/
theorem C15_lastChunk_reaches_cap :
    (∃ d h, mkInit [1, 2, 3, 4, 5, 6] ([] : Heap Nat) = .ok (d, h) ∧ ¬ (d.lastChunk < d.cap)) ∧
    (∃ d h, runOps (List.replicate 6 (Op.pushBack 0)) emptyDeque emptyHeap = .ok (d, h) ∧
      ¬ (d.lastChunk < d.cap)) :=
  ⟨⟨sixDeque, sixHeap, rfl, by decide⟩, ⟨_, _, rfl, by decide⟩⟩

/-- C15 (amended).  In every state reachable from the default or the
initializer-list constructor by push and pop operations, `lastChunk` is at most
`cap`, and it equals `cap` only when `endCursor` is 0. -/
theorem C15_lastChunk_le_cap {α : Type} (d : Deque) (h : Heap α) (hr : Reachable d h) :
    d.lastChunk ≤ d.cap ∧ (d.lastChunk = d.cap → d.endCursor = 0) := by
  obtain ⟨l, hw⟩ := hr.inv
  have h1 := hw.fit
  have h2 := hw.ec
  simp only [finPos] at h1
  constructor
  · omega
  · intro e; omega

/-- C15 (amended) at a concrete input: the deque built from six elements. -/
theorem C15_lastChunk_le_cap_witness :
    Reachable sixDeque sixHeap ∧
      (sixDeque.lastChunk ≤ sixDeque.cap ∧ (sixDeque.lastChunk = sixDeque.cap →
        sixDeque.endCursor = 0)) :=
  ⟨six_reachable, C15_lastChunk_le_cap sixDeque sixHeap six_reachable⟩

/-- C16.  In every state reachable from the default or the initializer-list
constructor by push and pop operations, both cursors are below 10 and the begin
position is not after the end position; hence the subtraction in `size()` does
not wrap, `size()` is the exact difference of the two positions, and `empty()`
is true exactly when the two positions are equal (as numbers and as pairs of
chunk index and cursor). -/
theorem C16_positions_ordered {α : Type} (d : Deque) (h : Heap α) (hr : Reachable d h) :
    d.startCursor < 10 ∧ d.endCursor < 10 ∧
      d.firstChunk * 10 + d.startCursor ≤ d.lastChunk * 10 + d.endCursor ∧
      size d + (d.firstChunk * 10 + d.startCursor) = d.lastChunk * 10 + d.endCursor ∧
      (empty d = true ↔ d.firstChunk * 10 + d.startCursor = d.lastChunk * 10 + d.endCursor) ∧
      (empty d = true ↔ (d.firstChunk = d.lastChunk ∧ d.startCursor = d.endCursor)) := by
  obtain ⟨l, hw⟩ := hr.inv
  have h1 := hw.sc
  have h2 := hw.ec
  have h3 := hw.le
  have h4 := size_eq hw.le
  simp only [begPos, finPos] at h3 h4
  refine ⟨h1, h2, h3, by omega, ?_, ?_⟩
  · simp only [empty, beq_iff_eq]
    omega
  · simp only [empty, beq_iff_eq]
    omega

/-- C16 at a concrete input: the deque built from `[1, 2]`. -/
theorem C16_positions_ordered_witness :
    Reachable sampleDeque sampleHeap ∧
      (sampleDeque.startCursor < 10 ∧ sampleDeque.endCursor < 10 ∧
        sampleDeque.firstChunk * 10 + sampleDeque.startCursor
          ≤ sampleDeque.lastChunk * 10 + sampleDeque.endCursor ∧
        size sampleDeque + (sampleDeque.firstChunk * 10 + sampleDeque.startCursor)
          = sampleDeque.lastChunk * 10 + sampleDeque.endCursor ∧
        (empty sampleDeque = true ↔ sampleDeque.firstChunk * 10 + sampleDeque.startCursor
          = sampleDeque.lastChunk * 10 + sampleDeque.endCursor) ∧
        (empty sampleDeque = true ↔ (sampleDeque.firstChunk = sampleDeque.lastChunk ∧
          sampleDeque.startCursor = sampleDeque.endCursor))) :=
  ⟨sample_reachable, C16_positions_ordered sampleDeque sampleHeap sample_reachable⟩

/-- C17 (failing input).  After six `push_back` and six `pop_front` on a
default-constructed deque, `firstChunk` is 1 and directory slot 0, below it,
still holds the address of the chunk that `pop_front` freed, not null.  After
seven `push_back` and two `pop_back`, `lastChunk` is 1 and slot 2, above it,
still holds the address of the chunk that `pop_back` freed; one more
`push_back` moves `lastChunk` onto that slot and the destructor then frees the
block a second time. -/
theorem C17_freed_slot_not_null :
    (Reachable boundaryDeque boundaryHeap ∧ boundaryDeque.firstChunk = 1 ∧
      dirGet boundaryDeque.theDeque 0 = .ok (Ptr.addr 0) ∧ boundaryHeap[0]? = some none) ∧
    (∃ d h, runOps (List.replicate 7 (Op.pushBack 0) ++ [Op.popBack, Op.popBack])
        emptyDeque emptyHeap = .ok (d, h) ∧
      d.lastChunk = 1 ∧ dirGet d.theDeque 2 = .ok (Ptr.addr 1) ∧ h[1]? = some none ∧
      ∃ d1 h1, push_back 1 d h = .ok (d1, h1) ∧ destructor d1 h1 = .error Err.fault) :=
  ⟨⟨boundary_reachable, rfl, rfl, rfl⟩, ⟨_, _, rfl, rfl, rfl, rfl, _, _, rfl, rfl⟩⟩

/-- C20.  For every state with `startCursor < 10` and every index `i`, the
index translation `getElem(i)` reads the element that the specification names:
offset `(startCursor + i) % 10` of the chunk in slot
`firstChunk + (startCursor + i) / 10`.  When `startCursor + i < 10` it reads
slot `firstChunk` at offset `startCursor + i`; otherwise the subtract-and-count
loop, started at `i - (10 - startCursor)` with counter 1, terminates within
the fuel it is given and ends with exactly that offset and that chunk
distance, which is where `getElem` then reads.  The translation returns only
the element: it cannot change the state. -/
theorem C20_getElem_refines {α : Type} (d : Deque) (h : Heap α) (i : Nat)
    (hsc : d.startCursor < 10) :
    getElem d h i = getElemSpec d h i ∧
      (d.startCursor + i < 10 →
        getElem d h i = slotElem d h d.firstChunk (d.startCursor + i)) ∧
      (¬ d.startCursor + i < 10 →
        getElemLoop (wsub i (wsub 10 d.startCursor)) (wsub i (wsub 10 d.startCursor)) 1
            = some ((d.startCursor + i) % 10, (d.startCursor + i) / 10) ∧
          getElem d h i
            = slotElem d h (d.firstChunk + (d.startCursor + i) / 10)
                ((d.startCursor + i) % 10)) := by
  have hloop : ¬ d.startCursor + i < 10 →
      getElemLoop (wsub i (wsub 10 d.startCursor)) (wsub i (wsub 10 d.startCursor)) 1
        = some ((d.startCursor + i) % 10, (d.startCursor + i) / 10) := by
    intro hge
    have w1 : wsub 10 d.startCursor = 10 - d.startCursor := wsub_of_le (by omega)
    have w2 : wsub i (10 - d.startCursor) = i - (10 - d.startCursor) := wsub_of_le (by omega)
    rw [w1, w2, getElemLoop_fuel]
    have e1 : (i - (10 - d.startCursor)) % 10 = (d.startCursor + i) % 10 := by omega
    have e2 : 1 + (i - (10 - d.startCursor)) / 10 = (d.startCursor + i) / 10 := by omega
    rw [e1, e2]
  have hspec : getElem d h i = getElemSpec d h i := by
    unfold getElem getElemSpec slotElem
    by_cases hlt : d.startCursor + i < 10
    · have e1 : (d.startCursor + i) / 10 = 0 := by omega
      have e2 : (d.startCursor + i) % 10 = d.startCursor + i := by omega
      simp only [hlt, if_true, e1, e2, Nat.add_zero]
    · simp only [hlt, if_false, hloop hlt]
  refine ⟨hspec, ?_, ?_⟩
  · intro hlt
    unfold getElem slotElem
    simp only [hlt, if_true]
  · intro hge
    exact ⟨hloop hge, hspec⟩

/-- C20 at a concrete input: index 17 in a state with `startCursor = 4`. -/
theorem C20_getElem_refines_witness :
    sampleDeque.startCursor < 10 ∧
      (getElem sampleDeque sampleHeap 17 = getElemSpec sampleDeque sampleHeap 17 ∧
        (sampleDeque.startCursor + 17 < 10 →
          getElem sampleDeque sampleHeap 17
            = slotElem sampleDeque sampleHeap sampleDeque.firstChunk
                (sampleDeque.startCursor + 17)) ∧
        (¬ sampleDeque.startCursor + 17 < 10 →
          getElemLoop (wsub 17 (wsub 10 sampleDeque.startCursor))
              (wsub 17 (wsub 10 sampleDeque.startCursor)) 1
            = some ((sampleDeque.startCursor + 17) % 10, (sampleDeque.startCursor + 17) / 10) ∧
          getElem sampleDeque sampleHeap 17
            = slotElem sampleDeque sampleHeap
                (sampleDeque.firstChunk + (sampleDeque.startCursor + 17) / 10)
                ((sampleDeque.startCursor + 17) % 10))) :=
  ⟨by decide, C20_getElem_refines sampleDeque sampleHeap 17 (by decide)⟩

theorem currentSize_pos {α : Type} {d : Deque} {h : Heap α} {l : List Ptr} (hw : WF d h l) :
    1 ≤ currentSize d := by
  have hfl := hw.fc_le_lc
  have hsc := hw.sc
  have hle := hw.le
  have hsz := size_eq hw.le
  simp only [begPos, finPos] at hle hsz
  have e1 : wsub d.lastChunk d.firstChunk = d.lastChunk - d.firstChunk := wsub_of_le hfl
  unfold currentSize
  simp only [e1]
  split
  · rename_i hc
    simp only [Bool.and_eq_true, beq_iff_eq, Bool.not_eq_true', empty, beq_eq_false_iff_ne,
      ne_eq] at hc
    rw [wsub_of_le (by omega)]
    omega
  · omega

theorem push_back_cap {α : Type} {d d3 : Deque} {h h3 : Heap α} {l : List Ptr} (hw : WF d h l)
    (x : α) (hp : push_back x d h = .ok (d3, h3)) :
    (d.lastChunk ≠ d.cap → d3.cap = d.cap) ∧
      (d.lastChunk = d.cap → d3.cap = 3 * currentSize d) := by
  have hle := hw.le
  by_cases hne : d.lastChunk = d.cap
  · by_cases hemp : begPos d = finPos d
    · rw [push_back_fault hw x hne hemp] at hp
      cases hp
    · obtain ⟨d1, l1, hg, hs, hlt, -, hcap, -⟩ := grow_trigger_spec hw "back" (by simp [hne])
        (fun hc => absurd hc.1 (by decide)) (fun _ => by omega)
      obtain ⟨d4, h4, l4, hp4, -, hcap4, -⟩ := push_back_nogrow hs.wf x hlt
      have hpe : push_back x d h = push_back x d1 h := by
        unfold push_back
        rw [hg, grow_back_noop (by omega)]
      rw [hpe, hp4] at hp
      cases hp
      exact ⟨fun hc => absurd hne hc, fun _ => by rw [hcap4, hcap]⟩
  · have hlt : d.lastChunk < d.cap := by
      have := hw.fit
      have := hw.ec
      simp only [finPos] at *
      omega
    obtain ⟨d4, h4, l4, hp4, -, hcap4, -⟩ := push_back_nogrow hw x hlt
    rw [hp4] at hp
    cases hp
    exact ⟨fun _ => hcap4, fun hc => absurd hc hne⟩

theorem push_front_cap {α : Type} {d d3 : Deque} {h h3 : Heap α} {l : List Ptr} (hw : WF d h l)
    (x : α) (hp : push_front x d h = .ok (d3, h3)) :
    ((d.firstChunk ≠ 0 ∨ d.startCursor ≠ 0) → d3.cap = d.cap) ∧
      ((d.firstChunk = 0 ∧ d.startCursor = 0) → d3.cap = 3 * currentSize d) := by
  by_cases hne : d.firstChunk ≠ 0 ∨ d.startCursor ≠ 0
  · obtain ⟨d4, h4, l4, hp4, -, hcap4, -⟩ := push_front_nogrow hw x hne
    rw [hp4] at hp
    cases hp
    exact ⟨fun _ => hcap4, fun hc => by omega⟩
  · have hsafe : d.lastChunk = d.cap → begPos d < finPos d := by
      intro e
      have := hw.capPos
      simp only [begPos, finPos]
      omega
    obtain ⟨d1, l1, hg, hs, -, hf, hcap, -⟩ := grow_trigger_spec hw "front"
      (fun hc => absurd hc.1 (by decide)) (by simp [hne]) hsafe
    obtain ⟨d4, h4, l4, hp4, -, hcap4, -⟩ := push_front_nogrow hs.wf x (Or.inl hf)
    have hpe : push_front x d h = push_front x d1 h := by
      unfold push_front
      rw [hg, grow_front_noop (Or.inl hf)]
    rw [hpe, hp4] at hp
    cases hp
    exact ⟨fun hc => absurd hc hne, fun _ => by rw [hcap4, hcap]⟩

theorem pop_front_cap {α : Type} {d d1 : Deque} {h h1 : Heap α} {l : List Ptr} (hw : WF d h l)
    (hp : pop_front d h = .ok (d1, h1)) : d1.cap = d.cap := by
  by_cases he : size d = 0
  · rw [pop_front_empty d h he] at hp
    cases hp
    rfl
  · obtain ⟨d3, h3, hp3, hw3, -⟩ := pop_front_ok hw he
    rw [hp3] at hp
    cases hp
    rw [← hw3.len, hw.len]

theorem pop_back_cap {α : Type} {d d1 : Deque} {h h1 : Heap α} {l : List Ptr} (hw : WF d h l)
    (hp : pop_back d h = .ok (d1, h1)) : d1.cap = d.cap := by
  by_cases he : size d = 0
  · rw [pop_back_empty d h he] at hp
    cases hp
    rfl
  · obtain ⟨d3, h3, hp3, hw3, -⟩ := pop_back_ok hw he
    rw [hp3] at hp
    cases hp
    rw [← hw3.len, hw.len]

/-- C13 (counterexample).  In the reachable state with ten elements in one
chunk, `firstChunk = 5`, `lastChunk = cap = 6`, `push_back` triggers growth
with `currentSize = 1` and leaves `cap = 3`, lower than the 6 before. -/
theorem C13_growth_lowers_cap :
    Reachable wideDeque wideHeap ∧ wideDeque.cap = 6 ∧
      ∃ d1 h1, push_back 0 wideDeque wideHeap = .ok (d1, h1) ∧ d1.cap = 3 ∧
        ¬ (wideDeque.cap ≤ d1.cap) :=
  ⟨wide_reachable, rfl, _, _, rfl, rfl, by decide⟩

/-- C13 (amended).  For every state reachable from the default or the
initializer-list constructor by push and pop operations and every operation
that completes on it: `pop_front` and `pop_back` leave `cap` unchanged; a
`push_back` or `push_front` that triggers no growth leaves `cap` unchanged; and
one that triggers growth leaves `cap` equal to three times `currentSize`, the
occupied-chunk count computed by `grow`, which is at least one. -/
theorem C13_cap_after_operation {α : Type} (d : Deque) (h : Heap α) (hr : Reachable d h)
    (o : Op α) (d1 : Deque) (h1 : Heap α) (hs : applyOp o d h = .ok (d1, h1)) :
    1 ≤ currentSize d ∧
      (o = Op.popFront ∨ o = Op.popBack → d1.cap = d.cap) ∧
      (∀ x, o = Op.pushBack x →
        (d.lastChunk ≠ d.cap → d1.cap = d.cap) ∧
        (d.lastChunk = d.cap → d1.cap = 3 * currentSize d)) ∧
      (∀ x, o = Op.pushFront x →
        ((d.firstChunk ≠ 0 ∨ d.startCursor ≠ 0) → d1.cap = d.cap) ∧
        ((d.firstChunk = 0 ∧ d.startCursor = 0) → d1.cap = 3 * currentSize d)) := by
  obtain ⟨l, hw⟩ := hr.inv
  refine ⟨currentSize_pos hw, ?_, ?_, ?_⟩
  · intro ho
    rcases ho with e | e
    · subst e
      exact pop_front_cap hw hs
    · subst e
      exact pop_back_cap hw hs
  · intro x e
    subst e
    exact push_back_cap hw x hs
  · intro x e
    subst e
    exact push_front_cap hw x hs

/-- C13 (amended) at a concrete input: the `push_back` that lowers `cap`. -/
theorem C13_cap_after_operation_witness :
    (Reachable wideDeque wideHeap ∧
      applyOp (Op.pushBack 0) wideDeque wideHeap
        = .ok ({ firstChunk := 1, startCursor := 0, lastChunk := 2, endCursor := 1, cap := 3,
                 theDeque := some [Ptr.null, Ptr.addr 3, Ptr.addr 4] },
               [none, none, none, some (List.replicate 10 (some 0)),
                some [some 0, none, none, none, none, none, none, none, none, none]])) ∧
      (1 ≤ currentSize wideDeque ∧
        (Op.pushBack 0 = Op.popFront ∨ Op.pushBack 0 = Op.popBack →
          (3 : Nat) = wideDeque.cap) ∧
        (∀ x, Op.pushBack 0 = Op.pushBack x →
          (wideDeque.lastChunk ≠ wideDeque.cap → (3 : Nat) = wideDeque.cap) ∧
          (wideDeque.lastChunk = wideDeque.cap → (3 : Nat) = 3 * currentSize wideDeque)) ∧
        (∀ x, Op.pushBack 0 = Op.pushFront x →
          ((wideDeque.firstChunk ≠ 0 ∨ wideDeque.startCursor ≠ 0) → (3 : Nat) = wideDeque.cap) ∧
          ((wideDeque.firstChunk = 0 ∧ wideDeque.startCursor = 0) →
            (3 : Nat) = 3 * currentSize wideDeque))) :=
  ⟨⟨wide_reachable, by rfl⟩,
   C13_cap_after_operation wideDeque wideHeap wide_reachable (Op.pushBack 0) _ _ (by rfl)⟩

theorem grow_not_triggered (dir : String) (d : Deque) (hn : ¬ growTrigger dir d) :
    grow dir d = .ok d := by
  unfold grow
  by_cases h1 : dir = "back" ∧ d.lastChunk ≠ d.cap
  · rw [if_pos h1]
  · rw [if_neg h1]
    by_cases h2 : dir = "front" ∧ (d.firstChunk ≠ 0 ∨ d.startCursor ≠ 0)
    · rw [if_pos h2]
    · exact absurd ⟨h1, h2⟩ hn

theorem grow_realloc_spec {α : Type} {d : Deque} {h : Heap α} (hr : Reachable d h)
    (dir : String) (ht : growTrigger dir d) (hsafe : d.lastChunk = d.cap → size d ≠ 0) :
    ∃ d1 l l1, grow dir d = .ok d1 ∧ d.theDeque = some l ∧ d1.theDeque = some l1 ∧
      d1.cap = 3 * currentSize d ∧ l1.length = 3 * currentSize d ∧
      (∀ i, i < currentSize d →
        d.firstChunk + i < l.length ∧ l1[currentSize d + i]? = l[d.firstChunk + i]?) ∧
      (∀ j, j < currentSize d ∨ (2 * currentSize d ≤ j ∧ j < 3 * currentSize d) →
        l1[j]? = some Ptr.null) ∧
      d1.firstChunk = currentSize d ∧ d1.startCursor = d.startCursor ∧
      d1.endCursor = d.endCursor ∧
      d1.lastChunk - d1.firstChunk = d.lastChunk - d.firstChunk ∧
      size d1 = size d ∧ ∀ i, «at» d1 h i = «at» d h i := by
  obtain ⟨l, hw⟩ := hr.inv
  have hle := hw.le
  have hfl := hw.fc_le_lc
  obtain ⟨d1, l1, hg, hs, hlt, -, hcap, hfc, hnull, hcopy⟩ := grow_trigger_spec hw dir ht.1 ht.2
    (by
      intro e
      have := hsafe e
      rw [size_eq hle] at this
      omega)
  have hle1 := hs.wf.le
  have hfl1 := hs.wf.fc_le_lc
  have hsp := hs.span
  have hb1 : begPos d1 + d.firstChunk * 10 = begPos d + d1.firstChunk * 10 := by
    have := hs.sc
    simp only [begPos]; omega
  have hf1 : finPos d1 + d.firstChunk * 10 = finPos d + d1.firstChunk * 10 := by
    have := hs.ec
    simp only [finPos]; omega
  have hsz : size d1 = size d := by
    rw [size_eq hle1, size_eq hle]; omega
  have hbd : d.firstChunk * 10 ≤ begPos d := by simp only [begPos]; omega
  refine ⟨d1, l, l1, hg, hw.dir, hs.wf.dir, hcap, by rw [hs.wf.len, hcap], ?_, hnull, hfc,
    hs.sc, hs.ec, by omega, hsz, ?_⟩
  · intro i hi
    refine ⟨?_, hcopy i hi⟩
    have h1 := hcopy i hi
    have h2 : currentSize d + i < l1.length := by rw [hs.wf.len, hcap]; omega
    by_contra hc
    rw [List.getElem?_eq_getElem h2,
      List.getElem?_eq_none (show l.length ≤ d.firstChunk + i by omega)] at h1
    cases h1
  · intro i
    by_cases hi : i < size d
    · rw [at_eq_cellE d1 h i hs.wf.sc (by omega), at_eq_cellE d h i hw.sc hi]
      rw [size_eq hle] at hi
      rw [← hs.cells (begPos d + i) (by omega) (by omega)]
      congr 1
      omega
    · unfold «at»
      rw [if_pos (by omega), if_pos (by omega)]

/-- C18 (failing input).  In the reachable, empty state with
`firstChunk = lastChunk = cap = 1` the trigger condition of `grow("back")`
holds and `currentSize` is 1, but the old directory has no slot
`firstChunk + 0`: `grow` does not complete, so no new directory holds that
handle. -/
theorem C18_grow_trigger_without_slot :
    Reachable boundaryDeque boundaryHeap ∧ growTrigger "back" boundaryDeque ∧
      currentSize boundaryDeque = 1 ∧ boundaryDeque.theDeque = some [Ptr.addr 0] ∧
      [Ptr.addr 0][boundaryDeque.firstChunk + 0]? = none ∧
      grow "back" boundaryDeque = .error Err.fault :=
  ⟨boundary_reachable, ⟨fun hc => hc.2 rfl, fun hc => absurd hc.1 (by decide)⟩, rfl, rfl, rfl,
    rfl⟩

theorem push_back_run_nogrow {α : Type} : ∀ (xs : List α) (d : Deque) (h : Heap α) (l : List Ptr),
    WF d h l → finPos d + xs.length ≤ d.cap * 10 →
    (∃ d1 h1, runOps (xs.map Op.pushBack) d h = .ok (d1, h1)) ∧
      growthEvents (xs.map Op.pushBack) d h = 0
  | [], d, h, l, _, _ => ⟨⟨d, h, rfl⟩, rfl⟩
  | x :: xs, d, h, l, hw, hfit => by
    have hec := hw.ec
    have hlt : d.lastChunk < d.cap := by
      simp only [finPos, List.length_cons] at hfit; omega
    obtain ⟨d3, h3, l3, hp, hw3, hcap3, -, hf3, -⟩ := push_back_nogrow hw x hlt
    obtain ⟨⟨d1, h1, hrun⟩, hev⟩ := push_back_run_nogrow xs d3 h3 l3 hw3 (by
      rw [hcap3, hf3]; simp only [List.length_cons] at hfit; omega)
    have hne : ¬ d.lastChunk = d.cap := by omega
    constructor
    · refine ⟨d1, h1, ?_⟩
      simp only [List.map_cons, runOps, applyOp, hp]
      exact hrun
    · simp only [List.map_cons, growthEvents, applyOp, hp, hne, if_false, Nat.zero_add]
      exact hev

theorem push_front_run_nogrow {α : Type} : ∀ (xs : List α) (d : Deque) (h : Heap α)
    (l : List Ptr), WF d h l → xs.length ≤ begPos d →
    (∃ d1 h1, runOps (xs.map Op.pushFront) d h = .ok (d1, h1)) ∧
      growthEvents (xs.map Op.pushFront) d h = 0
  | [], d, h, l, _, _ => ⟨⟨d, h, rfl⟩, rfl⟩
  | x :: xs, d, h, l, hw, hfit => by
    have hsc := hw.sc
    have hne : d.firstChunk ≠ 0 ∨ d.startCursor ≠ 0 := by
      simp only [begPos, List.length_cons] at hfit; omega
    obtain ⟨d3, h3, l3, hp, hw3, -, hb3, -⟩ := push_front_nogrow hw x hne
    obtain ⟨⟨d1, h1, hrun⟩, hev⟩ := push_front_run_nogrow xs d3 h3 l3 hw3 (by
      simp only [List.length_cons] at hfit; omega)
    have hne1 : ¬ (d.firstChunk = 0 ∧ d.startCursor = 0) := by omega
    constructor
    · refine ⟨d1, h1, ?_⟩
      simp only [List.map_cons, runOps, applyOp, hp]
      exact hrun
    · simp only [List.map_cons, growthEvents, applyOp, hp, hne1, if_false, Nat.zero_add]
      exact hev

theorem growth_amortised_back {α : Type} {d : Deque} {h : Heap α} (hr : Reachable d h)
    (htrig : d.lastChunk = d.cap) (hne : size d ≠ 0) (xs : List α)
    (hlen : xs.length = 10 * currentSize d) :
    size d ≤ 10 * currentSize d ∧
      (∃ d1 h1, runOps (xs.map Op.pushBack) d h = .ok (d1, h1)) ∧
      growthEvents (xs.map Op.pushBack) d h = 1 := by
  obtain ⟨l, hw⟩ := hr.inv
  have hle := hw.le
  have hsc := hw.sc
  have hec := hw.ec
  have hfit := hw.fit
  have hpos := currentSize_pos hw
  have hsz := size_eq hle
  obtain ⟨dg, lg, hg, hs, hlt, -, hcap, hfc, -⟩ := grow_trigger_spec hw "back" (by simp [htrig])
    (fun hc => absurd hc.1 (by decide)) (fun _ => by omega)
  have hsp := hs.span
  have hsec := hs.ec
  have hssc := hs.sc
  have hk : currentSize dg ≥ 0 := Nat.zero_le _
  have hfitg := hs.wf.fit
  simp only [begPos, finPos] at hle hfit hsz hfitg
  have hez : d.endCursor = 0 := by omega
  have hcs : currentSize d = d.lastChunk - d.firstChunk := by
    have hemp : empty d = false := by
      simp [empty]; exact hne
    have e1 : wsub d.lastChunk d.firstChunk = d.lastChunk - d.firstChunk :=
      wsub_of_le hw.fc_le_lc
    simp only [currentSize, hez, hemp, e1, beq_self_eq_true, Bool.not_false, Bool.and_self,
      if_true]
    exact wsub_of_le (by omega)
  cases xs with
  | nil => simp only [List.length_nil] at hlen; omega
  | cons x xs =>
    obtain ⟨d3, h3, l3, hp, hw3, hcap3, -, hf3, -⟩ := push_back_nogrow hs.wf x hlt
    have hpe : push_back x d h = push_back x dg h := by
      unfold push_back
      rw [hg, grow_back_noop (by omega)]
    obtain ⟨⟨d1, h1, hrun⟩, hev⟩ := push_back_run_nogrow xs d3 h3 l3 hw3 (by
      rw [hcap3, hf3, hcap]
      simp only [List.length_cons, finPos] at hlen ⊢
      omega)
    refine ⟨by omega, ⟨d1, h1, ?_⟩, ?_⟩
    · simp only [List.map_cons, runOps, applyOp, hpe, hp]
      exact hrun
    · simp only [List.map_cons, growthEvents, applyOp, hpe, hp, htrig, if_true]
      omega

theorem growth_amortised_front {α : Type} {d : Deque} {h : Heap α} (hr : Reachable d h)
    (htrig : d.firstChunk = 0 ∧ d.startCursor = 0) (xs : List α)
    (hlen : xs.length = 10 * currentSize d) :
    size d ≤ 10 * currentSize d ∧
      (∃ d1 h1, runOps (xs.map Op.pushFront) d h = .ok (d1, h1)) ∧
      growthEvents (xs.map Op.pushFront) d h = 1 := by
  obtain ⟨l, hw⟩ := hr.inv
  have hle := hw.le
  have hsc := hw.sc
  have hec := hw.ec
  have hfit := hw.fit
  have hpos := currentSize_pos hw
  have hsz := size_eq hle
  have hsafe : d.lastChunk = d.cap → begPos d < finPos d := by
    intro e
    have := hw.capPos
    simp only [begPos, finPos]
    omega
  obtain ⟨dg, lg, hg, hs, -, hf, hcap, hfc, -⟩ := grow_trigger_spec hw "front"
    (fun hc => absurd hc.1 (by decide)) (by simp [htrig]) hsafe
  have hssc := hs.sc
  simp only [begPos, finPos] at hle hfit hsz
  have hbound : size d ≤ 10 * currentSize d := by
    have e1 : wsub d.lastChunk d.firstChunk = d.lastChunk - d.firstChunk :=
      wsub_of_le hw.fc_le_lc
    unfold currentSize
    simp only [e1]
    split
    · rename_i hc
      simp only [Bool.and_eq_true, beq_iff_eq, Bool.not_eq_true', empty, beq_eq_false_iff_ne,
        ne_eq] at hc
      rw [wsub_of_le (by omega)]
      omega
    · omega
  cases xs with
  | nil => simp only [List.length_nil] at hlen; omega
  | cons x xs =>
    obtain ⟨d3, h3, l3, hp, hw3, -, hb3, -⟩ := push_front_nogrow hs.wf x (Or.inl hf)
    have hpe : push_front x d h = push_front x dg h := by
      unfold push_front
      rw [hg, grow_front_noop (Or.inl hf)]
    obtain ⟨⟨d1, h1, hrun⟩, hev⟩ := push_front_run_nogrow xs d3 h3 l3 hw3 (by
      simp only [List.length_cons, begPos] at hlen hb3 ⊢
      omega)
    refine ⟨hbound, ⟨d1, h1, ?_⟩, ?_⟩
    · simp only [List.map_cons, runOps, applyOp, hpe, hp]
      exact hrun
    · simp only [List.map_cons, growthEvents, applyOp, hpe, hp, htrig, and_self, if_true]
      omega

/-- C19 (failing input).  In the reachable, empty state with
`firstChunk = lastChunk = cap = 1`, `push_back` triggers growth with
`currentSize = 1`, and the size, 0, is at most `10 * 1`; but the push that
triggers the growth does not complete, so the ten pushes the bound promises do
not either. -/
theorem C19_growing_push_faults :
    Reachable boundaryDeque boundaryHeap ∧ growTrigger "back" boundaryDeque ∧
      currentSize boundaryDeque = 1 ∧ size boundaryDeque ≤ 10 * currentSize boundaryDeque ∧
      growthEvents [Op.pushBack 7] boundaryDeque boundaryHeap = 1 ∧
      runOps (List.replicate (10 * currentSize boundaryDeque) (Op.pushBack 7))
        boundaryDeque boundaryHeap = .error Err.fault :=
  ⟨boundary_reachable, ⟨fun hc => hc.2 rfl, fun hc => absurd hc.1 (by decide)⟩, rfl, by decide,
    rfl, rfl⟩

end cs246e
